import Mathlib

/-!
Verification of the constraint-propagation core of the `sherlock-fox`
logic-grid puzzle engine.

The definitions below are a shallow embedding of the Rust sources
(`src/puzzle.rs`, `src/clues.rs`, `src/undo.rs`, `src/main.rs`):

* `FixedBitSet` (crate `fixedbitset`) is modelled as a `List Bool` whose
  length is the bitset's capacity.  Operations that panic in Rust when
  the bit index is out of bounds (`remove`, `put`, `toggle`, `insert`)
  return `Option`, with `none` standing for the panic.
* `PuzzleCellSelection`, its queries and `apply` follow `puzzle.rs`
  lines 179-308.  `apply` returns `Option (selection × count)`; `none`
  models a Rust panic (out-of-bounds bitset access or `unreachable!`).
* `Puzzle` keeps the `rows` vector and `max_column`; the display-only
  fields (`cell_display`, atlas handles, colors) are omitted, as are the
  display-only `explanation` payloads of `UpdateCellIndex` — the core
  logic never reads them.
* Iteration over `HashSet`/`HashMap` in `one_inference_step` has no
  specified order in Rust; the embedding fixes the canonical
  determinisation: sets are duplicate-free lists in first-insertion
  order, which is the order the Rust code performs the inserts in.
-/

/-- Operations on the `fixedbitset::FixedBitSet` model.  `fbsContains`
returns `false` out of range (as in Rust); the mutating operations
panic out of range, hence `Option`. -/
def fbsContains (l : List Bool) (i : Nat) : Bool := l.getD i false

def fbsCount (l : List Bool) : Nat := l.count true

/-- `FixedBitSet::remove` (panics when `i` is out of bounds). -/
def fbsRemove (l : List Bool) (i : Nat) : Option (List Bool) :=
  if i < l.length then some (l.set i false) else none

/-- `FixedBitSet::insert` (panics when `i` is out of bounds). -/
def fbsInsert (l : List Bool) (i : Nat) : Option (List Bool) :=
  if i < l.length then some (l.set i true) else none

/-- `FixedBitSet::put`: sets the bit, returning whether it was already
set (panics when `i` is out of bounds). -/
def fbsPut (l : List Bool) (i : Nat) : Option (List Bool × Bool) :=
  if i < l.length then some (l.set i true, l.getD i false) else none

/-- `FixedBitSet::toggle` (panics when `i` is out of bounds). -/
def fbsToggle (l : List Bool) (i : Nat) : Option (List Bool) :=
  if i < l.length then some (l.set i (!l.getD i false)) else none

/-- `FixedBitSet::ones`, as the sorted list of set-bit indices. -/
def fbsOnes (l : List Bool) : List Nat :=
  (List.range l.length).filter (fun i => l.getD i false)

/-- `UpdateCellIndexOperation` from `puzzle.rs`: the four primitive cell
mutations. -/
inductive UpdateCellIndexOperation : Type
  | Clear
  | Set
  | Toggle
  | Solo
deriving DecidableEq, Repr

/-- `PuzzleCellSelection` from `puzzle.rs`: the candidate state of one
cell. -/
inductive PuzzleCellSelection : Type
  | Enabled (bits : List Bool)
  | Solo (width : Nat) (index : Nat)
  | Void
deriving DecidableEq, Repr

namespace PuzzleCellSelection

/-- `PuzzleCellSelection::is_void`. -/
def is_void : PuzzleCellSelection → Bool
  | .Void => true
  | _ => false

/-- `PuzzleCellSelection::is_enabled`. -/
def is_enabled : PuzzleCellSelection → Nat → Bool
  | .Enabled s, i => fbsContains s i
  | .Solo _ j, i => i == j
  | .Void, _ => false

/-- `PuzzleCellSelection::is_solo`. -/
def is_solo : PuzzleCellSelection → Nat → Bool
  | .Enabled s, i => fbsContains s i && fbsCount s == 1
  | .Solo _ j, i => i == j
  | .Void, _ => false

/-- `PuzzleCellSelection::width`. -/
def width : PuzzleCellSelection → Nat
  | .Enabled s => s.length
  | .Solo w _ => w
  | .Void => 0

/-- `PuzzleCellSelection::count_ones`. -/
def count_ones : PuzzleCellSelection → Nat
  | .Enabled s => fbsCount s
  | .Solo _ _ => 1
  | .Void => 0

/-- `PuzzleCellSelection::iter_ones`, materialised as a list. -/
def iter_ones : PuzzleCellSelection → List Nat
  | .Enabled s => fbsOnes s
  | .Solo _ j => [j]
  | .Void => []

/-- The `Enabled` arm of `PuzzleCellSelection::apply` (the `match self`
at lines 279-298 of `puzzle.rs`), for a non-`Solo` operation.  The
`Solo => unreachable!()` arm is `none`. -/
def applyEnabled (enabled : List Bool) (index : Nat) :
    UpdateCellIndexOperation → Option (PuzzleCellSelection × Nat)
  | .Clear =>
      (fbsRemove enabled index).map
        (fun b => (.Enabled b, if fbsContains enabled index then 1 else 0))
  | .Set =>
      (fbsPut enabled index).map
        (fun bp => (.Enabled bp.1, if bp.2 then 0 else 1))
  | .Toggle => (fbsToggle enabled index).map (fun b => (.Enabled b, 1))
  | .Solo => none

/-- `PuzzleCellSelection::apply`.  A `Void` selection absorbs every
operation (warn + return 0); a `Solo` operation always transitions to
the `Solo` variant; a non-`Solo` operation on a `Solo` cell first
unpins it to a single-bit `Enabled` bitset of the stored width
(`FixedBitSet::with_capacity(width)` + `insert`, which panics if the
stored index exceeds the width) and then re-applies the operation. -/
def apply (s : PuzzleCellSelection) (index : Nat)
    (op : UpdateCellIndexOperation) : Option (PuzzleCellSelection × Nat) :=
  if s.is_void then some (s, 0)
  else if op = .Solo then
    some (.Solo s.width index,
      if s.is_enabled index then s.count_ones - 1 else s.count_ones + 1)
  else
    match s with
    | .Enabled enabled => applyEnabled enabled index op
    | .Solo w j =>
        (fbsInsert (List.replicate w false) j).bind
          (fun b => applyEnabled b index op)
    | .Void => none

end PuzzleCellSelection

/-! ### Basic facts about the bitset model -/

theorem fbsContains_set_self {l : List Bool} {i : Nat} (h : i < l.length)
    (b : Bool) : fbsContains (l.set i b) i = b := by
  simp [fbsContains, List.getD_eq_getElem?_getD, List.getElem?_set_self',
    List.getElem?_eq_getElem h]

theorem fbsContains_set_ne {l : List Bool} {i j : Nat} (h : j ≠ i)
    (b : Bool) : fbsContains (l.set i b) j = fbsContains l j := by
  unfold fbsContains
  rw [List.getD_eq_getElem?_getD, List.getElem?_set_ne h.symm,
    ← List.getD_eq_getElem?_getD]

theorem fbsContains_replicate_false (w k : Nat) :
    fbsContains (List.replicate w false) k = false := by
  unfold fbsContains
  rcases lt_or_ge k w with h | h
  · rw [List.getD_eq_getElem _ _ (by simpa using h)]; simp
  · rw [List.getD_eq_default _ _ (by simpa using h)]

theorem fbsCount_set_false {l : List Bool} {i : Nat} (h : i < l.length) :
    fbsCount (l.set i false) =
      fbsCount l - (if fbsContains l i then 1 else 0) := by
  unfold fbsCount fbsContains
  rw [List.count_set _ _ _ _ h, List.getD_eq_getElem _ _ h]
  simp

theorem fbsCount_set_true {l : List Bool} {i : Nat} (h : i < l.length) :
    fbsCount (l.set i true) =
      fbsCount l - (if fbsContains l i then 1 else 0) + 1 := by
  unfold fbsCount fbsContains
  rw [List.count_set _ _ _ _ h, List.getD_eq_getElem _ _ h]
  simp

theorem lt_length_of_fbsContains {l : List Bool} {i : Nat}
    (h : fbsContains l i = true) : i < l.length := by
  by_contra hge
  rw [fbsContains, List.getD_eq_default _ _ (le_of_not_lt hge)] at h
  exact Bool.false_ne_true h

theorem one_le_fbsCount_of_contains {l : List Bool} {i : Nat}
    (h : fbsContains l i = true) : 1 ≤ fbsCount l := by
  have hi := lt_length_of_fbsContains h
  have : l[i] = true := by
    rw [fbsContains, List.getD_eq_getElem _ _ hi] at h; exact h
  have : true ∈ l := this ▸ List.getElem_mem hi
  exact List.count_pos_iff.mpr this

theorem mem_fbsOnes {l : List Bool} {j : Nat} :
    j ∈ fbsOnes l ↔ fbsContains l j = true := by
  unfold fbsOnes
  constructor
  · intro h
    exact (List.mem_filter.mp h).2
  · intro h
    exact List.mem_filter.mpr ⟨List.mem_range.mpr (lt_length_of_fbsContains h), h⟩

theorem length_fbsOnes (l : List Bool) : (fbsOnes l).length = fbsCount l := by
  unfold fbsOnes fbsCount
  rw [← List.countP_eq_length_filter]
  induction l with
  | nil => simp
  | cons b t ih =>
      rw [List.length_cons, List.range_succ_eq_map, List.countP_cons,
        List.countP_map]
      have h2 : List.countP ((fun i => (b :: t).getD i false) ∘ Nat.succ)
          (List.range t.length)
          = List.countP (fun i => t.getD i false) (List.range t.length) :=
        List.countP_congr (fun x _ => by simp [Function.comp, List.getD])
      rw [h2, ih, List.count_cons]
      cases b <;> simp [List.getD]

theorem fbsOnes_sorted (l : List Bool) : (fbsOnes l).Sorted (· < ·) :=
  (List.sorted_lt_range l.length).filter _

theorem fbsOnes_eq_singleton {l : List Bool} {x : Nat}
    (hc : fbsCount l = 1) (hx : fbsContains l x = true) : fbsOnes l = [x] := by
  have hlen : (fbsOnes l).length = 1 := by rw [length_fbsOnes, hc]
  obtain ⟨y, hy⟩ := List.length_eq_one.mp hlen
  have : x ∈ fbsOnes l := mem_fbsOnes.mpr hx
  rw [hy] at this ⊢
  simp only [List.mem_singleton] at this
  rw [this]

theorem fbsCount_replicate_false (w : Nat) :
    fbsCount (List.replicate w false) = 0 := by
  simp [fbsCount, List.count_eq_zero, List.mem_replicate]

/-- Well-formedness of one cell at alphabet width `w`: the bitset has
capacity `w`, and a pinned cell stores that width together with an
in-range index.  Every cell built by `PuzzleRow::new_shuffled` and
every cell reachable from one through `apply` satisfies this. -/
def selWF (s : PuzzleCellSelection) (w : Nat) : Prop :=
  match s with
  | .Enabled l => l.length = w
  | .Solo w' j => w' = w ∧ j < w
  | .Void => False

namespace PuzzleCellSelection

@[simp] theorem is_void_enabled (l : List Bool) :
    (Enabled l).is_void = false := rfl

@[simp] theorem is_void_solo (w j : Nat) : (Solo w j).is_void = false := rfl

@[simp] theorem is_void_void : (Void).is_void = true := rfl

theorem apply_solo_eq (s : PuzzleCellSelection) (i : Nat)
    (h : s.is_void = false) :
    s.apply i .Solo = some (.Solo s.width i,
      if s.is_enabled i then s.count_ones - 1 else s.count_ones + 1) := by
  cases s with
  | Enabled l => simp [apply]
  | Solo w j => simp [apply]
  | Void => simp [is_void] at h

theorem is_solo_spec (s : PuzzleCellSelection) (i : Nat)
    (h : s.is_solo i = true) : s.is_enabled i = true ∧ s.count_ones = 1 := by
  cases s with
  | Enabled l =>
      simp only [is_solo, Bool.and_eq_true, beq_iff_eq] at h
      exact ⟨h.1, by simp [count_ones, h.2]⟩
  | Solo w j => exact ⟨h, rfl⟩
  | Void => simp [is_solo] at h

theorem apply_unpin (w j i : Nat) (op : UpdateCellIndexOperation)
    (hop : op ≠ .Solo) (hj : j < w) :
    apply (.Solo w j) i op
      = apply (.Enabled ((List.replicate w false).set j true)) i op := by
  have hins : fbsInsert (List.replicate w false) j
      = some ((List.replicate w false).set j true) := by
    simp [fbsInsert, hj]
  cases op with
  | Solo => exact absurd rfl hop
  | Clear => simp [apply, hins]
  | Set => simp [apply, hins]
  | Toggle => simp [apply, hins]

theorem contains_singleton (w j k : Nat) (hj : j < w) :
    fbsContains ((List.replicate w false).set j true) k = true ↔ k = j := by
  rcases eq_or_ne k j with rfl | hkj
  · rw [fbsContains_set_self (by simpa using hj)]; simp
  · rw [fbsContains_set_ne hkj, fbsContains_replicate_false]; simp [hkj]

theorem fbsCount_singleton (w j : Nat) (hj : j < w) :
    fbsCount ((List.replicate w false).set j true) = 1 := by
  rw [fbsCount_set_true (by simpa using hj), fbsContains_replicate_false,
    fbsCount_replicate_false]
  simp

end PuzzleCellSelection

theorem fbsOnes_congr {l l' : List Bool} (hlen : l.length = l'.length)
    (h : ∀ k, fbsContains l k = fbsContains l' k) : fbsOnes l = fbsOnes l' := by
  unfold fbsOnes
  rw [hlen]
  exact List.filter_congr (fun k _ => h k)

namespace PuzzleCellSelection

theorem count_ones_eq_length_iter_ones (s : PuzzleCellSelection) :
    s.count_ones = s.iter_ones.length := by
  cases s <;> simp [count_ones, iter_ones, length_fbsOnes]

theorem nodup_iter_ones (s : PuzzleCellSelection) : s.iter_ones.Nodup := by
  cases s with
  | Enabled l => exact (List.nodup_range l.length).filter _
  | Solo w j => simp [iter_ones]
  | Void => simp [iter_ones]

theorem mem_iter_ones (s : PuzzleCellSelection) (k : Nat) :
    k ∈ s.iter_ones ↔ s.is_enabled k = true := by
  cases s with
  | Enabled l => exact mem_fbsOnes
  | Solo w j => simp [iter_ones, is_enabled]
  | Void => simp [iter_ones, is_enabled]

theorem one_le_count_of_enabled {s : PuzzleCellSelection} {i : Nat}
    (h : s.is_enabled i = true) : 1 ≤ s.count_ones := by
  cases s with
  | Enabled l => exact one_le_fbsCount_of_contains h
  | Solo w j => exact le_refl 1
  | Void => simp [is_enabled] at h

theorem two_le_count_of_enabled_pair {s : PuzzleCellSelection} {x y : Nat}
    (hx : s.is_enabled x = true) (hy : s.is_enabled y = true) (hxy : x ≠ y) :
    2 ≤ s.count_ones := by
  have hxm := (mem_iter_ones s x).mpr hx
  have hym := (mem_iter_ones s y).mpr hy
  rw [count_ones_eq_length_iter_ones]
  match hl : s.iter_ones with
  | [] => rw [hl] at hxm; exact absurd hxm (List.not_mem_nil x)
  | [a] =>
      rw [hl] at hxm hym
      simp only [List.mem_singleton] at hxm hym
      exact absurd (hxm.trans hym.symm) hxy
  | a :: b :: t => simp

theorem iter_ones_eq_singleton {s : PuzzleCellSelection} {x : Nat}
    (hx : s.is_enabled x = true) (hc : s.count_ones = 1) :
    s.iter_ones = [x] := by
  cases s with
  | Enabled l => exact fbsOnes_eq_singleton hc hx
  | Solo w j =>
      simp only [is_enabled, beq_iff_eq] at hx
      simp [iter_ones, hx]
  | Void => simp [is_enabled] at hx

theorem enabled_iff_of_singleton {s : PuzzleCellSelection} {x : Nat}
    (hx : s.is_enabled x = true) (hc : s.count_ones = 1) (k : Nat) :
    s.is_enabled k = true ↔ k = x := by
  rw [← mem_iter_ones, iter_ones_eq_singleton hx hc, List.mem_singleton]

/-- Full characterisation of `apply` with the `Clear` operation. -/
theorem apply_clear_spec {s s' : PuzzleCellSelection} {i n : Nat}
    (h : s.apply i .Clear = some (s', n)) :
    s'.count_ones + n = s.count_ones
    ∧ s'.width = s.width
    ∧ s'.is_enabled i = false
    ∧ (∀ k, k ≠ i → s'.is_enabled k = s.is_enabled k)
    ∧ n = (if s.is_enabled i then 1 else 0)
    ∧ s'.is_void = s.is_void := by
  cases s with
  | Void =>
      simp only [apply, is_void_void, if_pos] at h
      obtain ⟨rfl, rfl⟩ := Prod.mk.injEq .. ▸ (Option.some.injEq .. ▸ h)
      simp [count_ones, is_enabled, width]
  | Enabled l =>
      simp only [apply, is_void_enabled, Bool.false_eq_true, if_false,
        reduceCtorEq, if_neg, applyEnabled, fbsRemove] at h
      by_cases hlen : i < l.length
      · rw [if_pos hlen] at h
        simp only [Option.map_some', Option.some.injEq, Prod.mk.injEq] at h
        obtain ⟨rfl, rfl⟩ := h
        refine ⟨?_, by simp [width], ?_, ?_, rfl, rfl⟩
        · simp only [count_ones, is_enabled, fbsCount_set_false hlen]
          cases hcon : fbsContains l i
          · simp [hcon]
          · have := one_le_fbsCount_of_contains hcon
            simp only [hcon, if_pos]
            omega
        · simp [is_enabled, fbsContains_set_self hlen]
        · intro k hk
          simp [is_enabled, fbsContains_set_ne hk]
      · rw [if_neg hlen] at h
        simp at h
  | Solo w j =>
      simp only [apply, is_void_solo, Bool.false_eq_true, if_false,
        reduceCtorEq, if_neg, fbsInsert, List.length_replicate] at h
      by_cases hj : j < w
      · rw [if_pos hj] at h
        simp only [Option.some_bind, applyEnabled, fbsRemove,
          List.length_set, List.length_replicate] at h
        by_cases hi : i < w
        · rw [if_pos hi] at h
          simp only [Option.map_some', Option.some.injEq, Prod.mk.injEq] at h
          obtain ⟨rfl, rfl⟩ := h
          have hsing : ∀ k, fbsContains ((List.replicate w false).set j true) k
              = true ↔ k = j := fun k => contains_singleton w j k hj
          have hcnt : fbsCount ((List.replicate w false).set j true) = 1 :=
            fbsCount_singleton w j hj
          have hilen : i < ((List.replicate w false).set j true).length := by
            simpa using hi
          refine ⟨?_, by simp [width], ?_, ?_, ?_, rfl⟩
          · simp only [count_ones, fbsCount_set_false hilen, hcnt]
            cases hcon : fbsContains ((List.replicate w false).set j true) i
            · simp [hcon]
            · simp [hcon]
          · simp [is_enabled, fbsContains_set_self hilen]
          · intro k hk
            simp only [is_enabled, fbsContains_set_ne hk, beq_iff_eq]
            rcases hck : fbsContains ((List.replicate w false).set j true) k
              with hf | ht
            · have : ¬(k = j) := fun he => by
                rw [(hsing k).mpr he] at hck; simp at hck
              simp [this]
            · have := (hsing k).mp hck
              simp [this]
          · have : fbsContains ((List.replicate w false).set j true) i
                = (i == j) := by
              rcases hci : fbsContains ((List.replicate w false).set j true) i
                with hf | ht
              · have : ¬(i = j) := fun he => by
                  rw [(hsing i).mpr he] at hci
                  simp at hci
                simp [this]
              · have := (hsing i).mp hci
                simp [this]
            simp [this, is_enabled]
        · rw [if_neg hi] at h
          simp at h
      · rw [if_neg hj] at h
        simp at h

/-- Full characterisation of `apply` with the `Solo` operation. -/
theorem apply_solo_spec {s s' : PuzzleCellSelection} {i n : Nat}
    (h : s.apply i .Solo = some (s', n)) :
    (s = .Void ∧ s' = .Void ∧ n = 0)
    ∨ (s ≠ .Void ∧ s' = .Solo s.width i
        ∧ n = (if s.is_enabled i then s.count_ones - 1
               else s.count_ones + 1)) := by
  cases s with
  | Void =>
      left
      simp only [apply, is_void_void, if_pos, Option.some.injEq,
        Prod.mk.injEq] at h
      exact ⟨rfl, h.1.symm, h.2.symm⟩
  | Enabled l =>
      right
      rw [apply_solo_eq (.Enabled l) i (by simp)] at h
      simp only [Option.some.injEq, Prod.mk.injEq] at h
      exact ⟨by simp, h.1.symm, h.2.symm⟩
  | Solo w j =>
      right
      rw [apply_solo_eq (.Solo w j) i (by simp)] at h
      simp only [Option.some.injEq, Prod.mk.injEq] at h
      exact ⟨by simp, h.1.symm, h.2.symm⟩

end PuzzleCellSelection

namespace PuzzleCellSelection

theorem iter_ones_sorted (s : PuzzleCellSelection) :
    s.iter_ones.Sorted (· < ·) := by
  cases s with
  | Enabled l => exact fbsOnes_sorted l
  | Solo w j => simp [iter_ones]
  | Void => simp [iter_ones]

/-- `iter_ones` is determined by the `is_enabled` predicate alone. -/
theorem iter_ones_eq_of_enabled_eq {s s' : PuzzleCellSelection}
    (h : ∀ k, s.is_enabled k = s'.is_enabled k) :
    s.iter_ones = s'.iter_ones := by
  refine List.eq_of_perm_of_sorted ?_ (iter_ones_sorted s) (iter_ones_sorted s')
  refine List.perm_of_nodup_nodup_toFinset_eq (nodup_iter_ones s)
    (nodup_iter_ones s') ?_
  ext a
  simp only [List.mem_toFinset, mem_iter_ones, h a]

/-- An application that reports `0` changed bits leaves the semantic
content of the cell (enabled set, width, hence `iter_ones` and
`count_ones`) unchanged — only the `Enabled`/`Solo` representation may
flip.  Stated for the two operations inference emits. -/
theorem apply_rep0 {s s' : PuzzleCellSelection} {i : Nat}
    {op : UpdateCellIndexOperation} (hop : op = .Clear ∨ op = .Solo)
    (h : s.apply i op = some (s', 0)) :
    (∀ k, s'.is_enabled k = s.is_enabled k)
    ∧ s'.width = s.width
    ∧ s'.iter_ones = s.iter_ones
    ∧ s'.count_ones = s.count_ones := by
  have henb : (∀ k, s'.is_enabled k = s.is_enabled k) ∧ s'.width = s.width := by
    rcases hop with rfl | rfl
    · obtain ⟨hcnt, hw, hei, hek, hn, hv⟩ := apply_clear_spec h
      have hni : s.is_enabled i = false := by
        rcases he : s.is_enabled i with hf | ht
        · rfl
        · rw [he] at hn; simp at hn
      refine ⟨?_, hw⟩
      intro k
      rcases eq_or_ne k i with rfl | hk
      · rw [hei, hni]
      · exact hek k hk
    · rcases apply_solo_spec h with ⟨rfl, rfl, -⟩ | ⟨hnv, rfl, hn⟩
      · exact ⟨fun k => rfl, rfl⟩
      · have hen : s.is_enabled i = true := by
          rcases he : s.is_enabled i with hf | ht
          · rw [he] at hn; simp at hn
          · rfl
        have hc1 : s.count_ones = 1 := by
          rw [hen] at hn
          simp only [if_pos] at hn
          have := one_le_count_of_enabled hen
          omega
        refine ⟨?_, by simp [width]⟩
        intro k
        have hiff := enabled_iff_of_singleton hen hc1 k
        rcases hke : s.is_enabled k with hf | ht
        · have : ¬(k = i) := fun he => by
            rw [(hiff.mpr he)] at hke; simp at hke
          simp [is_enabled, this]
        · have := hiff.mp hke
          simp [is_enabled, this]
  have hones : s'.iter_ones = s.iter_ones :=
    iter_ones_eq_of_enabled_eq henb.1
  refine ⟨henb.1, henb.2, hones, ?_⟩
  rw [count_ones_eq_length_iter_ones, count_ones_eq_length_iter_ones, hones]

/-- Success and well-formedness preservation of `apply`: on a
well-formed cell and an in-range index, `apply` never panics, keeps the
cell well-formed and preserves its width. -/
theorem apply_wf (s : PuzzleCellSelection) (w i : Nat)
    (op : UpdateCellIndexOperation) (hwf : selWF s w) (hi : i < w) :
    ∃ s' n, s.apply i op = some (s', n) ∧ selWF s' w
      ∧ s'.width = s.width := by
  cases s with
  | Void => exact absurd hwf (by simp [selWF])
  | Enabled l =>
      have hlen : l.length = w := hwf
      have hil : i < l.length := hlen ▸ hi
      cases op with
      | Solo =>
          refine ⟨.Solo l.length i, _, apply_solo_eq _ _ (by simp), ?_, rfl⟩
          simp only [selWF, width]
          exact ⟨hlen, hlen ▸ hil⟩
      | Clear =>
          refine ⟨.Enabled (l.set i false),
            if fbsContains l i then 1 else 0, ?_, ?_, by simp [width]⟩
          · simp [apply, applyEnabled, fbsRemove, hil]
          · simpa [selWF] using hlen
      | Set =>
          refine ⟨.Enabled (l.set i true),
            if l.getD i false then 0 else 1, ?_, ?_, by simp [width]⟩
          · simp [apply, applyEnabled, fbsPut, hil]
          · simpa [selWF] using hlen
      | Toggle =>
          refine ⟨.Enabled (l.set i (!l.getD i false)), 1, ?_, ?_,
            by simp [width]⟩
          · simp [apply, applyEnabled, fbsToggle, hil, fbsContains]
          · simpa [selWF] using hlen
  | Solo w' j =>
      obtain ⟨rfl, hj⟩ := hwf
      have hlen : ((List.replicate w' false).set j true).length = w' := by simp
      cases op with
      | Solo =>
          exact ⟨.Solo w' i, _, apply_solo_eq _ _ (by simp), ⟨rfl, hi⟩, rfl⟩
      | Clear =>
          refine ⟨.Enabled (((List.replicate w' false).set j true).set i false),
            if fbsContains ((List.replicate w' false).set j true) i
              then 1 else 0, ?_, ?_, by simp [width]⟩
          · simp [apply, applyEnabled, fbsRemove, fbsInsert, hj, hi]
          · simp [selWF]
      | Set =>
          refine ⟨.Enabled (((List.replicate w' false).set j true).set i true),
            if ((List.replicate w' false).set j true).getD i false
              then 0 else 1, ?_, ?_, by simp [width]⟩
          · simp [apply, applyEnabled, fbsPut, fbsInsert, hj, hi]
          · simp [selWF]
      | Toggle =>
          refine ⟨.Enabled (((List.replicate w' false).set j true).set i
            (!((List.replicate w' false).set j true).getD i false)),
            1, ?_, ?_, by simp [width]⟩
          · simp [apply, applyEnabled, fbsToggle, fbsInsert, hj, hi, fbsContains]
          · simp [selWF]

end PuzzleCellSelection

/-! ### Claims about `PuzzleCellSelection` -/

/-- C4, counterexample: applying `Solo` at a slot index that is *not*
currently enabled reports `count_ones + 1`, not `count_ones - 1`.  On
the width-2 cell with only bit 0 set, `apply 1 Solo` reports 2 while
"previously-enabled bits minus one" would be 0. -/
theorem claim4_counterexample :
    PuzzleCellSelection.apply (.Enabled [true, false]) 1 .Solo
      = some (.Solo 2 1, 2)
    ∧ PuzzleCellSelection.count_ones (.Enabled [true, false]) - 1 ≠ 2 := by
  constructor
  · rfl
  · decide

/-- C4 (amended): for every non-Void cell selection and slot index `i`
below its width, `apply i Solo` transitions the cell to the `Solo`
variant pinned to `i`, retaining the previous width, and returns the
count of previously-enabled bits minus one when `i` was enabled, and
plus one when it was not. -/
theorem claim4_amended (s : PuzzleCellSelection) (i : Nat)
    (hv : s.is_void = false) (_hi : i < s.width) :
    s.apply i .Solo = some (.Solo s.width i,
      if s.is_enabled i then s.count_ones - 1 else s.count_ones + 1) :=
  PuzzleCellSelection.apply_solo_eq s i hv

/-- Witness for C4 (amended) at a concrete cell. -/
theorem claim4_witness :
    PuzzleCellSelection.apply (.Enabled [true, false]) 0 .Solo
      = some (.Solo 2 0, 0) := by
  have h := claim4_amended (.Enabled [true, false]) 0 (by decide) (by decide)
  rw [h]
  rfl

/-- C6: `is_solo i = true` implies `is_enabled i = true` and
`count_ones = 1`; and a non-`Solo` operation applied to a `Solo` cell
behaves exactly as if the cell were first converted to an `Enabled`
bitset of the retained width with only the originally-solo bit set. -/
theorem claim6_solo_bitset_equiv :
    (∀ (s : PuzzleCellSelection) (i : Nat), s.is_solo i = true →
        s.is_enabled i = true ∧ s.count_ones = 1)
    ∧ (∀ (w j i : Nat) (op : UpdateCellIndexOperation),
        op ≠ .Solo → j < w →
        PuzzleCellSelection.apply (.Solo w j) i op
          = PuzzleCellSelection.apply
              (.Enabled ((List.replicate w false).set j true)) i op
        ∧ ((List.replicate w false).set j true).length = w
        ∧ (∀ k, fbsContains ((List.replicate w false).set j true) k = true
            ↔ k = j)) := by
  refine ⟨fun s i h => PuzzleCellSelection.is_solo_spec s i h,
    fun w j i op hop hj => ⟨PuzzleCellSelection.apply_unpin w j i op hop hj,
      by simp, fun k => PuzzleCellSelection.contains_singleton w j k hj⟩⟩

/-- Witness for C6 at a concrete solo cell and operation. -/
theorem claim6_witness :
    (PuzzleCellSelection.is_enabled (.Solo 2 1) 1 = true
      ∧ PuzzleCellSelection.count_ones (.Solo 2 1) = 1)
    ∧ PuzzleCellSelection.apply (.Solo 2 0) 1 .Clear
        = PuzzleCellSelection.apply
            (.Enabled ((List.replicate 2 false).set 0 true)) 1 .Clear := by
  refine ⟨claim6_solo_bitset_equiv.1 (.Solo 2 1) 1 (by decide), ?_⟩
  exact (claim6_solo_bitset_equiv.2 2 0 1 .Clear (by decide) (by decide)).1

/-- C10: on a well-formed non-Void cell and a slot index below the
width, each of the four operations succeeds and leaves `width()`
unchanged. -/
theorem claim10_width_invariant (s : PuzzleCellSelection) (i : Nat)
    (op : UpdateCellIndexOperation) (hwf : selWF s s.width)
    (hi : i < s.width) :
    ∃ s' n, s.apply i op = some (s', n) ∧ s'.width = s.width := by
  obtain ⟨s', n, happ, -, hw⟩ :=
    PuzzleCellSelection.apply_wf s s.width i op hwf hi
  exact ⟨s', n, happ, hw⟩

/-- Witness for C10 at a concrete pinned cell. -/
theorem claim10_witness :
    ∃ s' n, PuzzleCellSelection.apply (.Solo 3 1) 2 .Clear = some (s', n)
      ∧ s'.width = 3 := by
  have h := claim10_width_invariant (.Solo 3 1) 2 .Clear
    (by simp [selWF, PuzzleCellSelection.width])
    (by norm_num [PuzzleCellSelection.width])
  simpa [PuzzleCellSelection.width] using h

/-! ### Grid model: locations, rows, puzzle -/

/-- `CellLoc` from `puzzle.rs`: row index (`LRow`, unsigned) and column
(`LCol`, signed so windows can shift past the edges). -/
structure CellLoc : Type where
  row : Nat
  col : Int
deriving DecidableEq, Repr

/-- `CellLoc::shift_column`. -/
def CellLoc.shift_column (l : CellLoc) (shift : Int) : CellLoc :=
  { l with col := l.col + shift }

/-- `CellLoc::reflect_about`: shift by twice the delta to the mirror
column. -/
def CellLoc.reflect_about (l mirror : CellLoc) : CellLoc :=
  l.shift_column ((mirror.col - l.col) * 2)

/-- `CellLocIndex` from `puzzle.rs` (location plus slot index `LInd`).
The `LInd`/`LAns` index spaces are both embedded as `Nat`; the one-way
`decay_to_ind` conversion is the identity. -/
structure CellLocIndex : Type where
  loc : CellLoc
  index : Nat
deriving DecidableEq, Repr

/-- `CellLocIndex::shift_column`. -/
def CellLocIndex.shift_column (c : CellLocIndex) (shift : Int) : CellLocIndex :=
  { c with loc := c.loc.shift_column shift }

/-- `CellLocIndex::reflect_loc_about`. -/
def CellLocIndex.reflect_loc_about (c mirror : CellLocIndex) : CellLocIndex :=
  { c with loc := c.loc.reflect_about mirror.loc }

/-- `UpdateCellIndex` from `main.rs`.  The display-only `explanation`
field (never read by the core logic) is omitted. -/
structure UpdateCellIndex : Type where
  index : CellLocIndex
  op : UpdateCellIndexOperation
deriving DecidableEq, Repr

/-- `CellLocIndex::as_clear`. -/
def CellLocIndex.as_clear (c : CellLocIndex) : UpdateCellIndex :=
  { index := c, op := .Clear }

/-- `CellLocIndex::as_solo`. -/
def CellLocIndex.as_solo (c : CellLocIndex) : UpdateCellIndex :=
  { index := c, op := .Solo }

/-- `PuzzleRow` from `puzzle.rs`: candidate state per column plus the
answer permutation (column → answer index).  The display-only fields
(`cell_display`, atlas handles) are omitted. -/
structure PuzzleRow : Type where
  cell_selection : List PuzzleCellSelection
  cell_answers : List Nat
deriving DecidableEq, Repr

/-- `PuzzleRow::selection_at`: `None` when the column is negative or
past the end of the row. -/
def PuzzleRow.selection_at (r : PuzzleRow) (col : Int) :
    Option PuzzleCellSelection :=
  if col < 0 then none else r.cell_selection.get? col.toNat

/-- `PuzzleRow::answer_at` (`self.cell_answers[col]`, which panics out
of range, hence `Option`). -/
def PuzzleRow.answer_at (r : PuzzleRow) (col : Int) : Option Nat :=
  if col < 0 then none else r.cell_answers.get? col.toNat

/-- `Puzzle` from `puzzle.rs`: the rows plus the widest column index
seen so far. -/
structure Puzzle : Type where
  rows : List PuzzleRow
  max_column : Int
deriving DecidableEq, Repr

namespace Puzzle

/-- `Puzzle::row_at` (`&self.rows[row]`, panics out of range). -/
def row_at (p : Puzzle) (row : Nat) : Option PuzzleRow := p.rows.get? row

/-- `Puzzle::cell_selection`: a missing column yields the static `VOID`
selection; a missing row panics (`None`). -/
def cell_selection (p : Puzzle) (loc : CellLoc) :
    Option PuzzleCellSelection :=
  (p.row_at loc.row).map (fun r => (r.selection_at loc.col).getD .Void)

/-- The mutation path `Puzzle::cell_selection_mut` followed by
`PuzzleCellSelection::apply` (as performed by `cell_update` in
`main.rs` and by the inference apply loop).  `cell_selection_mut` hits
`todo!()` — a panic — when the location is out of range, modelled by
`none`. -/
def apply_at (p : Puzzle) (loc : CellLoc) (index : Nat)
    (op : UpdateCellIndexOperation) : Option (Puzzle × Nat) :=
  match p.rows.get? loc.row with
  | none => none
  | some r =>
      match r.selection_at loc.col with
      | none => none
      | some sel =>
          match sel.apply index op with
          | none => none
          | some (sel', n) =>
              let r' : PuzzleRow :=
                { r with cell_selection :=
                    r.cell_selection.set loc.col.toNat sel' }
              some ({ p with rows := p.rows.set loc.row r' }, n)

/-- `Puzzle::iter_cols`: the inclusive column range `0..=max_column`. -/
def iter_cols (p : Puzzle) : List Int :=
  if p.max_column < 0 then []
  else (List.range (p.max_column.toNat + 1)).map Int.ofNat

/-- `Puzzle::iter_col_shift`: shifts from `-(abs_diff)` up through
`max_column`, each translated by `-span_min`. -/
def iter_col_shift (p : Puzzle) (span_min : Int) (abs_diff : Nat) :
    List Int :=
  (((List.range abs_diff).map (fun k => (k : Int) - abs_diff)) ++ p.iter_cols).map
    (fun shift => shift - span_min)

/-- `Puzzle::answer_at`, decayed to slot-index space as the resolver's
`add_answer` does. -/
def answer_at (p : Puzzle) (loc : CellLoc) : Option CellLocIndex :=
  (p.row_at loc.row).bind
    (fun r => (r.answer_at loc.col).map (fun a => ⟨loc, a⟩))

end Puzzle

/-- The concrete one-row, one-column puzzle used to exhibit claim C5's
out-of-range behaviour. -/
def c5Puzzle : Puzzle :=
  { rows := [{ cell_selection := [.Enabled [true]], cell_answers := [0] }],
    max_column := 0 }

/-- C5: reads through a Void-producing location behave as the claim
says (`is_enabled`/`is_solo` false, `count_ones` 0) and `apply` on the
`Void` selection itself is a no-op returning 0 — but the grid-level
mutation path `cell_selection_mut` panics (`todo!()`) on an
out-of-range column instead of leaving the grid unchanged and
returning 0: `apply_at` is `none` for every operation there. -/
theorem claim5_void_mutation_panics :
    Puzzle.cell_selection c5Puzzle ⟨0, 5⟩ = some .Void
    ∧ (∀ i, PuzzleCellSelection.is_enabled .Void i = false
        ∧ PuzzleCellSelection.is_solo .Void i = false)
    ∧ PuzzleCellSelection.count_ones .Void = 0
    ∧ (∀ i op, PuzzleCellSelection.apply .Void i op = some (.Void, 0))
    ∧ (∀ i op, Puzzle.apply_at c5Puzzle ⟨0, 5⟩ i op = none) := by
  refine ⟨rfl, fun i => ⟨rfl, rfl⟩, rfl, fun i op => rfl, fun i op => rfl⟩

/-! ### Undo tree (`undo.rs`) -/

/-- The `petgraph::Graph<σ, α>` inside `UndoTree`: nodes indexed by
insertion order, edges as `(source, target, weight)` triples, also in
insertion order.  In `add_undo_state` every new edge points from the
new node back to the current cursor. -/
structure UndoGraph (σ α : Type) : Type where
  nodes : List σ
  edges : List (Nat × Nat × α)
deriving DecidableEq, Repr

namespace UndoGraph

/-- `Graph::add_node`: returns the updated graph and the new node's
index. -/
def add_node (g : UndoGraph σ α) (s : σ) : UndoGraph σ α × Nat :=
  ({ g with nodes := g.nodes ++ [s] }, g.nodes.length)

/-- `Graph::add_edge`. -/
def add_edge (g : UndoGraph σ α) (a b : Nat) (x : α) : UndoGraph σ α :=
  { g with edges := g.edges ++ [(a, b, x)] }

/-- `Graph::node_weight`. -/
def node_weight (g : UndoGraph σ α) (v : Nat) : Option σ := g.nodes.get? v

/-- `edges_directed(v, Outgoing)`: petgraph iterates a node's adjacency
list most-recently-added first. -/
def edges_outgoing (g : UndoGraph σ α) (v : Nat) : List (Nat × Nat × α) :=
  (g.edges.filter (fun e => e.1 = v)).reverse

/-- `edges_directed(v, Incoming)`. -/
def edges_incoming (g : UndoGraph σ α) (v : Nat) : List (Nat × Nat × α) :=
  (g.edges.filter (fun e => e.2.1 = v)).reverse

/-- The `B::Undo` arm of `adjust_undo_state`: follow any one outgoing
edge (newest first); with no outgoing edge, warn and leave the cursor
unchanged. -/
def undo (g : UndoGraph σ α) (cur : Nat) : Nat :=
  match (g.edges_outgoing cur).head? with
  | some e => e.2.1
  | none => cur

/-- The `B::Redo` arm of `adjust_undo_state`: follow the incoming edge
only when exactly one exists; otherwise warn and leave the cursor
unchanged. -/
def redo (g : UndoGraph σ α) (cur : Nat) : Nat :=
  match g.edges_incoming cur with
  | [e] => e.1
  | _ => cur

end UndoGraph

/-- `add_undo_state` from `undo.rs`: add a node carrying the new
snapshot, add an edge from it back to the cursor labelled with the
action, and move the cursor to the new node. -/
def add_undo_state (g : UndoGraph σ α) (cur : Nat) (new_state : σ)
    (action : α) : UndoGraph σ α × Nat :=
  let gn := g.add_node new_state
  (gn.1.add_edge gn.2 cur action, gn.2)

/-- C9: after `push s1; push s2`, two undos return the cursor to the
root snapshot (with a further undo refused as a no-op); a redo from
there restores `s1` exactly; and redo is refused as a no-op whenever
the current node does not have exactly one incoming edge — in
particular after a second, divergent push from the same ancestor. -/
theorem claim9_undo_redo_round_trip (σ α : Type) (s0 s1 s2 s3 : σ)
    (a1 a2 a3 : α) :
    (add_undo_state (add_undo_state (⟨[s0], []⟩ : UndoGraph σ α) 0 s1 a1).1
        (add_undo_state (⟨[s0], []⟩ : UndoGraph σ α) 0 s1 a1).2 s2 a2)
      = (⟨[s0, s1, s2], [(1, 0, a1), (2, 1, a2)]⟩, 2)
    ∧ (let g2 : UndoGraph σ α := ⟨[s0, s1, s2], [(1, 0, a1), (2, 1, a2)]⟩
       g2.undo 2 = 1 ∧ g2.node_weight (g2.undo 2) = some s1
       ∧ g2.undo (g2.undo 2) = 0
       ∧ g2.node_weight (g2.undo (g2.undo 2)) = some s0
       ∧ g2.undo 0 = 0
       ∧ g2.redo 0 = 1 ∧ g2.node_weight (g2.redo 0) = some s1)
    ∧ (add_undo_state (⟨[s0, s1, s2], [(1, 0, a1), (2, 1, a2)]⟩ :
            UndoGraph σ α) 0 s3 a3)
      = (⟨[s0, s1, s2, s3], [(1, 0, a1), (2, 1, a2), (3, 0, a3)]⟩, 3)
    ∧ (let g3 : UndoGraph σ α :=
          ⟨[s0, s1, s2, s3], [(1, 0, a1), (2, 1, a2), (3, 0, a3)]⟩
       g3.redo 3 = 3 ∧ g3.redo 0 = 0)
    ∧ (∀ (g : UndoGraph σ α) (cur : Nat),
        (g.edges_incoming cur).length ≠ 1 → g.redo cur = cur) := by
  refine ⟨rfl, ⟨rfl, rfl, rfl, rfl, rfl, rfl, rfl⟩, rfl, ⟨rfl, rfl⟩, ?_⟩
  intro g cur h
  unfold UndoGraph.redo
  match hm : g.edges_incoming cur with
  | [] => rfl
  | [e] => rw [hm] at h; simp at h
  | e :: f :: t => rfl

/-- Witness for C9's refusal clause at a concrete branched graph. -/
theorem claim9_witness :
    UndoGraph.redo (⟨[0, 1, 2], [(1, 0, 10), (2, 0, 20)]⟩ :
      UndoGraph Nat Nat) 0 = 0 :=
  (claim9_undo_redo_round_trip Nat Nat 0 1 2 2 10 20 20).2.2.2.2
    ⟨[0, 1, 2], [(1, 0, 10), (2, 0, 20)]⟩ 0 (by decide)

/-! ### Implication resolver and clue types (`clues.rs`) -/

/-- Sequencing of panics (`Option`) over a list, in order; the model of
iterating fallible constructions eagerly.  (`List.mapM` specialised to
`Option`, defined by plain recursion for easy induction.) -/
def traverseOpt (f : α → Option β) : List α → Option (List β)
  | [] => some []
  | a :: l =>
      match f a with
      | none => none
      | some b =>
          match traverseOpt f l with
          | none => none
          | some bs => some (b :: bs)

theorem traverseOpt_mem_right {f : α → Option β} :
    ∀ {l : List α} {r : List β}, traverseOpt f l = some r →
      ∀ b ∈ r, ∃ a ∈ l, f a = some b := by
  intro l
  induction l with
  | nil =>
      intro r h b hb
      simp only [traverseOpt, Option.some.injEq] at h
      rw [← h] at hb
      exact absurd hb (List.not_mem_nil b)
  | cons a t ih =>
      intro r h b hb
      simp only [traverseOpt] at h
      match hfa : f a with
      | none => rw [hfa] at h; exact absurd h (by simp)
      | some b0 =>
          rw [hfa] at h
          match ht : traverseOpt f t with
          | none => rw [ht] at h; exact absurd h (by simp)
          | some bs =>
              rw [ht] at h
              simp only [Option.some.injEq] at h
              rw [← h] at hb
              rcases List.mem_cons.mp hb with rfl | hbs
              · exact ⟨a, List.mem_cons_self a t, hfa⟩
              · obtain ⟨a', ha', hfa'⟩ := ih ht b hbs
                exact ⟨a', List.mem_cons_of_mem a ha', hfa'⟩

theorem traverseOpt_mem_left {f : α → Option β} :
    ∀ {l : List α} {r : List β}, traverseOpt f l = some r →
      ∀ a ∈ l, ∃ b ∈ r, f a = some b := by
  intro l
  induction l with
  | nil => intro r h a ha; exact absurd ha (List.not_mem_nil a)
  | cons a t ih =>
      intro r h a' ha'
      simp only [traverseOpt] at h
      match hfa : f a with
      | none => rw [hfa] at h; exact absurd h (by simp)
      | some b0 =>
          rw [hfa] at h
          match ht : traverseOpt f t with
          | none => rw [ht] at h; exact absurd h (by simp)
          | some bs =>
              rw [ht] at h
              simp only [Option.some.injEq] at h
              rcases List.mem_cons.mp ha' with rfl | hat
              · exact ⟨b0, by rw [← h]; exact List.mem_cons_self b0 bs, hfa⟩
              · obtain ⟨b, hb, hfb⟩ := ih ht a' hat
                exact ⟨b, by rw [← h]; exact List.mem_cons_of_mem b0 hb, hfb⟩

/-- `SelectionProxy` from `clues.rs`: the read-only snapshot of one
(location, slot-index) pair handed to clue rules. -/
structure SelectionProxy : Type where
  index_ : CellLocIndex
  is_enabled : Bool
  is_solo : Bool
  is_void : Bool
deriving DecidableEq, Repr

namespace SelectionProxy

/-- `SelectionProxy::from_puzzle_and_index` (panics — `none` — on an
out-of-range row, as `Puzzle::cell_selection` does). -/
def from_puzzle_and_index (p : Puzzle) (c : CellLocIndex) :
    Option SelectionProxy :=
  (p.cell_selection c.loc).map (fun s =>
    { index_ := c
      is_enabled := s.is_enabled c.index
      is_solo := s.is_solo c.index
      is_void := s.is_void })

/-- `SelectionProxy::is_enabled_not_solo`. -/
def is_enabled_not_solo (s : SelectionProxy) : Bool :=
  s.is_enabled && !s.is_solo

end SelectionProxy

/-- `itertools::permutations(2)`: all ordered pairs of distinct
positions, in lexicographic position order. -/
def perms2 (l : List α) : List (α × α) :=
  l.enum.flatMap (fun ix =>
    l.enum.filterMap (fun jy =>
      if ix.1 = jy.1 then none else some (ix.2, jy.2)))

/-- `Loc2` from `clues.rs`. -/
structure Loc2 : Type where
  loc1 : SelectionProxy
  loc2 : SelectionProxy
deriving DecidableEq, Repr

/-- `Loc2Mirrored` from `clues.rs`. -/
structure Loc2Mirrored : Type where
  loc1 : SelectionProxy
  loc2 : SelectionProxy
  loc2_p : SelectionProxy
deriving DecidableEq, Repr

/-- The window list built by
`ImplicationResolver::iter_reflected_2s`: proxies of the window cells,
all ordered pairs, each extended with the proxy of `loc2` reflected
about `loc1`, keeping only pairs whose pivot `loc1` is not void. -/
def iter_reflected_2s (p : Puzzle) (cells : List CellLocIndex) :
    Option (List Loc2Mirrored) :=
  match traverseOpt (SelectionProxy.from_puzzle_and_index p) cells with
  | none => none
  | some proxies =>
      match traverseOpt (fun pr : SelectionProxy × SelectionProxy =>
          (SelectionProxy.from_puzzle_and_index p
              (pr.2.index_.reflect_loc_about pr.1.index_)).map
            (fun m => { loc1 := pr.1, loc2 := pr.2, loc2_p := m }))
          (perms2 proxies) with
      | none => none
      | some triples => some (triples.filter (fun l => !l.loc1.is_void))

/-- `LColspan` of a window: minimum column, maximum column and their
absolute difference (`ImplicationResolver::colspan`; panics on an
empty window). -/
def colspanOf (cols : List Int) : Option (Int × Int × Nat) :=
  match cols with
  | [] => none
  | c :: rest =>
      some (rest.foldl min c, rest.foldl max c,
        (rest.foldl max c - rest.foldl min c).toNat)

/-- `AdjacentColumnClue` from `clues.rs`. -/
structure AdjacentColumnClue : Type where
  loc1 : CellLoc
  loc2 : CellLoc
deriving DecidableEq, Repr

namespace AdjacentColumnClue

/-- The single `if_then` rule of `AdjacentColumnClue::advance_puzzle`:
clear `loc1` when it is enabled-not-solo and neither the forward
partner nor its mirror is enabled. -/
def rule (l : Loc2Mirrored) : Option UpdateCellIndex :=
  if l.loc1.is_enabled_not_solo && !l.loc2.is_enabled && !l.loc2_p.is_enabled
  then some l.loc1.index_.as_clear
  else none

/-- All windows the clue's resolver enumerates: for every shift from
`iter_col_shift` over the clue's colspan, the `iter_reflected_2s`
windows of the shifted cells, concatenated in shift order.  (Shift
enumeration is eager here where Rust is lazy; the only panic source —
an out-of-range row — does not depend on the shift, so the two agree.) -/
def windows (c : AdjacentColumnClue) (p : Puzzle) :
    Option (List Loc2Mirrored) :=
  match p.answer_at c.loc1 with
  | none => none
  | some a1 =>
      match p.answer_at c.loc2 with
      | none => none
      | some a2 =>
          match colspanOf ([a1, a2].map (fun x => x.loc.col)) with
          | none => none
          | some (mn, _, d) =>
              (traverseOpt
                (fun sh => iter_reflected_2s p
                  ([a1, a2].map (fun x => x.shift_column sh)))
                (p.iter_col_shift mn d)).map List.flatten

/-- `AdjacentColumnClue::advance_puzzle`: the first non-`None` rule
result across all shifts and ordered pairs. -/
def advance_puzzle (c : AdjacentColumnClue) (p : Puzzle) :
    Option (Option UpdateCellIndex) :=
  (c.windows p).map (fun ws => (ws.filterMap rule).head?)

end AdjacentColumnClue

/-- `SameColumnClue` from `clues.rs`. -/
structure SameColumnClue : Type where
  loc : CellLoc
  row2 : Nat
  row3 : Option Nat
deriving DecidableEq, Repr

namespace SameColumnClue

/-- `SameColumnClue::loc2`. -/
def loc2 (c : SameColumnClue) : CellLoc := ⟨c.row2, c.loc.col⟩

/-- The ordered `if_then` rules of `SameColumnClue::advance_puzzle`
evaluated on one ordered pair: contradiction (`panic!`, modelled as
`none`), then force-solo, then force-clear; `some none` when no rule
fires. -/
def rules (l : Loc2) : Option (Option UpdateCellIndex) :=
  if !l.loc1.is_enabled && l.loc2.is_solo then none
  else if l.loc1.is_enabled_not_solo && l.loc2.is_solo then
    some (some l.loc1.index_.as_solo)
  else if l.loc1.is_enabled_not_solo && !l.loc2.is_enabled then
    some (some l.loc1.index_.as_clear)
  else some none

/-- First forced action over the ordered pairs of one window
instantiation (`iter_perm_2s` + first `Some`), propagating the
contradiction panic. -/
def firstForced : List Loc2 → Option (Option UpdateCellIndex)
  | [] => some none
  | l :: rest =>
      match rules l with
      | none => none
      | some (some u) => some (some u)
      | some none => firstForced rest

/-- Scan the window shifts in order, stopping at the first forced
action, as the `for`/`return` loop in `advance_puzzle` does. -/
def scanShifts (p : Puzzle) (cells : List CellLocIndex) :
    List Int → Option (Option UpdateCellIndex)
  | [] => some none
  | sh :: rest =>
      match traverseOpt (SelectionProxy.from_puzzle_and_index p)
          (cells.map (fun c => c.shift_column sh)) with
      | none => none
      | some proxies =>
          match firstForced ((perms2 proxies).map
              (fun pr => ⟨pr.1, pr.2⟩)) with
          | none => none
          | some (some u) => some (some u)
          | some none => scanShifts p cells rest

/-- `SameColumnClue::advance_puzzle` for a given resolved cell list. -/
def advanceWith (p : Puzzle) (cells : List CellLocIndex) :
    Option (Option UpdateCellIndex) :=
  match colspanOf (cells.map (fun x => x.loc.col)) with
  | none => none
  | some (mn, _, d) => scanShifts p cells (p.iter_col_shift mn d)

/-- `SameColumnClue::advance_puzzle`. -/
def advance_puzzle (c : SameColumnClue) (p : Puzzle) :
    Option (Option UpdateCellIndex) :=
  match p.answer_at c.loc with
  | none => none
  | some a1 =>
      match p.answer_at c.loc2 with
      | none => none
      | some a2 =>
          match c.row3 with
          | none => advanceWith p [a1, a2]
          | some r3 =>
              match p.answer_at ⟨r3, c.loc.col⟩ with
              | none => none
              | some a3 => advanceWith p [a1, a2, a3]

end SameColumnClue

/-! ### Claims C7 and C8 -/

/-- C7: every triple produced by `iter_reflected_2s` has a non-void
pivot and a mirror column equal to `2*A.col - B.col`; and every
ordered pair with a non-void pivot shows up as a triple (void-pivot
pairs being the only ones skipped). -/
theorem claim7_reflection_symmetry (p : Puzzle) (cells : List CellLocIndex)
    (proxies : List SelectionProxy) (L : List Loc2Mirrored)
    (hpx : traverseOpt (SelectionProxy.from_puzzle_and_index p) cells
      = some proxies)
    (hL : iter_reflected_2s p cells = some L) :
    (∀ t ∈ L, t.loc1.is_void = false
      ∧ t.loc2_p.index_.loc.col
          = 2 * t.loc1.index_.loc.col - t.loc2.index_.loc.col
      ∧ t.loc2_p.index_.loc.row = t.loc2.index_.loc.row
      ∧ t.loc2_p.index_.index = t.loc2.index_.index)
    ∧ (∀ pr ∈ perms2 proxies, pr.1.is_void = false →
        ∃ t ∈ L, t.loc1 = pr.1 ∧ t.loc2 = pr.2) := by
  unfold iter_reflected_2s at hL
  rw [hpx] at hL
  dsimp only at hL
  set f : SelectionProxy × SelectionProxy → Option Loc2Mirrored :=
    fun pr => (SelectionProxy.from_puzzle_and_index p
        (pr.2.index_.reflect_loc_about pr.1.index_)).map
      (fun m => { loc1 := pr.1, loc2 := pr.2, loc2_p := m }) with hf
  match htv : traverseOpt f (perms2 proxies) with
  | none => rw [htv] at hL; exact absurd hL (by simp)
  | some triples =>
      rw [htv] at hL
      simp only [Option.some.injEq] at hL
      have hprov : ∀ t ∈ triples, ∃ pr ∈ perms2 proxies, f pr = some t :=
        fun t ht => traverseOpt_mem_right htv t ht
      constructor
      · intro t htL
        rw [← hL] at htL
        have htm := List.mem_filter.mp htL
        obtain ⟨pr, -, hfpr⟩ := hprov t htm.1
        have hvoid : t.loc1.is_void = false := by
          have := htm.2
          simp only [Bool.not_eq_true'] at this
          exact this
        rw [hf] at hfpr
        simp only [Option.map_eq_some'] at hfpr
        obtain ⟨m, hm, hmk⟩ := hfpr
        have hm' : m.index_ = pr.2.index_.reflect_loc_about pr.1.index_ := by
          unfold SelectionProxy.from_puzzle_and_index at hm
          simp only [Option.map_eq_some'] at hm
          obtain ⟨s, -, hs⟩ := hm
          rw [← hs]
        refine ⟨hvoid, ?_, ?_, ?_⟩
        · rw [← hmk]
          simp only [CellLocIndex.reflect_loc_about, CellLoc.reflect_about,
            CellLoc.shift_column] at hm' ⊢
          rw [hm']
          simp
          ring
        · rw [← hmk]
          simp only [CellLocIndex.reflect_loc_about, CellLoc.reflect_about,
            CellLoc.shift_column] at hm' ⊢
          rw [hm']
        · rw [← hmk]
          simp only [CellLocIndex.reflect_loc_about, CellLoc.reflect_about,
            CellLoc.shift_column] at hm' ⊢
          rw [hm']
      · intro pr hpr hnv
        obtain ⟨t, ht, hft⟩ := traverseOpt_mem_left htv pr hpr
        have hloc : t.loc1 = pr.1 ∧ t.loc2 = pr.2 := by
          rw [hf] at hft
          simp only [Option.map_eq_some'] at hft
          obtain ⟨m, -, hmk⟩ := hft
          rw [← hmk]
          exact ⟨rfl, rfl⟩
        refine ⟨t, ?_, hloc⟩
        rw [← hL]
        refine List.mem_filter.mpr ⟨ht, ?_⟩
        rw [hloc.1, hnv]
        rfl

/-- Concrete two-cell window data for the C7 witness. -/
def claim7Puzzle : Puzzle :=
  { rows := [{ cell_selection := [.Enabled [true], .Enabled [true]],
               cell_answers := [0, 0] }], max_column := 1 }

def claim7Cells : List CellLocIndex := [⟨⟨0, 0⟩, 0⟩, ⟨⟨0, 1⟩, 0⟩]

def claim7Proxies : List SelectionProxy :=
  (traverseOpt (SelectionProxy.from_puzzle_and_index claim7Puzzle)
    claim7Cells).getD []

def claim7Windows : List Loc2Mirrored :=
  (iter_reflected_2s claim7Puzzle claim7Cells).getD []

/-- Witness for C7 on a concrete 2-cell window. -/
theorem claim7_witness :
    (∀ t ∈ claim7Windows, t.loc1.is_void = false
      ∧ t.loc2_p.index_.loc.col
          = 2 * t.loc1.index_.loc.col - t.loc2.index_.loc.col
      ∧ t.loc2_p.index_.loc.row = t.loc2.index_.loc.row
      ∧ t.loc2_p.index_.index = t.loc2.index_.index)
    ∧ (∀ pr ∈ perms2 claim7Proxies, pr.1.is_void = false →
        ∃ t ∈ claim7Windows, t.loc1 = pr.1 ∧ t.loc2 = pr.2) :=
  claim7_reflection_symmetry claim7Puzzle claim7Cells claim7Proxies
    claim7Windows rfl rfl

theorem head?_filterMap_if {q : α → Bool} {g : α → β} :
    ∀ l : List α,
      (l.filterMap (fun a => if q a then some (g a) else none)).head?
        = (l.find? q).map g := by
  intro l
  induction l with
  | nil => rfl
  | cons a t ih =>
      by_cases h : q a
      · simp [List.filterMap_cons, List.find?_cons, h]
      · simp only [List.filterMap_cons, List.find?_cons, h,
          Bool.false_eq_true, if_false, if_neg]
        exact ih

/-- The declarative window condition of claim C8, written from the
claim's wording: `loc1` is enabled and not solo, and neither the
forward partner nor the mirrored partner is enabled. -/
def adjacentCondSpec (l : Loc2Mirrored) : Bool :=
  l.loc1.is_enabled && !l.loc1.is_solo
    && !l.loc2.is_enabled && !l.loc2_p.is_enabled

theorem adjacent_rule_eq_spec (l : Loc2Mirrored) :
    AdjacentColumnClue.rule l
      = if adjacentCondSpec l then some l.loc1.index_.as_clear else none := by
  unfold AdjacentColumnClue.rule adjacentCondSpec
    SelectionProxy.is_enabled_not_solo
  cases l.loc1.is_enabled <;> cases l.loc1.is_solo <;>
    cases l.loc2.is_enabled <;> cases l.loc2_p.is_enabled <;> rfl

/-- C8: `AdjacentColumnClue::advance_puzzle` returns exactly the first
enumerated window (across all shifts, then ordered pairs) satisfying
the C8 condition, mapped to a `Clear` update on that window's `loc1`;
with no such window it returns `None`. -/
theorem claim8_adjacent_first_match (c : AdjacentColumnClue) (p : Puzzle)
    (ws : List Loc2Mirrored) (hw : c.windows p = some ws) :
    c.advance_puzzle p
      = some ((ws.find? adjacentCondSpec).map
          (fun l => l.loc1.index_.as_clear)) := by
  unfold AdjacentColumnClue.advance_puzzle
  rw [hw]
  simp only [Option.map_some', Option.some.injEq]
  have : ws.filterMap AdjacentColumnClue.rule
      = ws.filterMap (fun l =>
          if adjacentCondSpec l then some l.loc1.index_.as_clear else none) :=
    List.filterMap_congr (fun l _ => adjacent_rule_eq_spec l)
  rw [this, head?_filterMap_if]

/-- Concrete puzzle for the C8 witness: column 0 has two candidates,
column 1 none, so the clue forces a clear. -/
def claim8Puzzle : Puzzle :=
  { rows := [{ cell_selection := [.Enabled [true, true],
               .Enabled [false, false]], cell_answers := [0, 1] }],
    max_column := 1 }

def claim8Clue : AdjacentColumnClue := ⟨⟨0, 0⟩, ⟨0, 1⟩⟩

def claim8Windows : List Loc2Mirrored :=
  (claim8Clue.windows claim8Puzzle).getD []

/-- Witness for C8 at a concrete clue and puzzle. -/
theorem claim8_witness :
    claim8Clue.advance_puzzle claim8Puzzle
      = some ((claim8Windows.find? adjacentCondSpec).map
          (fun l => l.loc1.index_.as_clear)) :=
  claim8_adjacent_first_match claim8Clue claim8Puzzle claim8Windows rfl

/-! ### Clue updates only narrow (for claim C2) -/

theorem adjacent_advance_op_clear {c : AdjacentColumnClue} {p : Puzzle}
    {u : UpdateCellIndex} (h : c.advance_puzzle p = some (some u)) :
    u.op = .Clear := by
  unfold AdjacentColumnClue.advance_puzzle at h
  match hw : c.windows p with
  | none => rw [hw] at h; exact absurd h (by simp)
  | some ws =>
      rw [hw] at h
      simp only [Option.map_some', Option.some.injEq] at h
      match hl : ws.filterMap AdjacentColumnClue.rule with
      | [] => rw [hl] at h; exact absurd h (by simp)
      | v :: vs =>
          rw [hl] at h
          simp only [List.head?_cons, Option.some.injEq] at h
          have hv : v ∈ ws.filterMap AdjacentColumnClue.rule := by
            rw [hl]; exact List.mem_cons_self v vs
          obtain ⟨l, -, hrule⟩ := List.mem_filterMap.mp hv
          unfold AdjacentColumnClue.rule at hrule
          by_cases hc : (l.loc1.is_enabled_not_solo && !l.loc2.is_enabled
              && !l.loc2_p.is_enabled) = true
          · rw [if_pos hc] at hrule
            simp only [Option.some.injEq] at hrule
            rw [← h, ← hrule]
            rfl
          · rw [if_neg hc] at hrule
            exact absurd hrule (by simp)

theorem sameColumn_rules_op {l : Loc2} {u : UpdateCellIndex}
    (h : SameColumnClue.rules l = some (some u)) :
    u.op = .Solo ∨ u.op = .Clear := by
  unfold SameColumnClue.rules at h
  by_cases h1 : (!l.loc1.is_enabled && l.loc2.is_solo) = true
  · rw [if_pos h1] at h; exact absurd h (by simp)
  · rw [if_neg h1] at h
    by_cases h2 : (l.loc1.is_enabled_not_solo && l.loc2.is_solo) = true
    · rw [if_pos h2] at h
      simp only [Option.some.injEq] at h
      left; rw [← h]; rfl
    · rw [if_neg h2] at h
      by_cases h3 : (l.loc1.is_enabled_not_solo && !l.loc2.is_enabled) = true
      · rw [if_pos h3] at h
        simp only [Option.some.injEq] at h
        right; rw [← h]; rfl
      · rw [if_neg h3] at h
        exact absurd h (by simp)

theorem sameColumn_firstForced_op :
    ∀ {ls : List Loc2} {u : UpdateCellIndex},
      SameColumnClue.firstForced ls = some (some u) →
      u.op = .Solo ∨ u.op = .Clear := by
  intro ls
  induction ls with
  | nil => intro u h; exact absurd h (by simp [SameColumnClue.firstForced])
  | cons l t ih =>
      intro u h
      unfold SameColumnClue.firstForced at h
      match hr : SameColumnClue.rules l with
      | none => rw [hr] at h; exact absurd h (by simp)
      | some (some v) =>
          rw [hr] at h
          simp only [Option.some.injEq] at h
          subst h
          exact sameColumn_rules_op hr
      | some none =>
          rw [hr] at h
          exact ih h

theorem sameColumn_scanShifts_op {p : Puzzle} {cells : List CellLocIndex} :
    ∀ {shifts : List Int} {u : UpdateCellIndex},
      SameColumnClue.scanShifts p cells shifts = some (some u) →
      u.op = .Solo ∨ u.op = .Clear := by
  intro shifts
  induction shifts with
  | nil => intro u h; exact absurd h (by simp [SameColumnClue.scanShifts])
  | cons sh t ih =>
      intro u h
      unfold SameColumnClue.scanShifts at h
      match hpx : traverseOpt (SelectionProxy.from_puzzle_and_index p)
          (cells.map (fun c => c.shift_column sh)) with
      | none => rw [hpx] at h; exact absurd h (by simp)
      | some proxies =>
          rw [hpx] at h
          dsimp only at h
          match hff : SameColumnClue.firstForced ((perms2 proxies).map
              (fun pr => ⟨pr.1, pr.2⟩)) with
          | none => rw [hff] at h; exact absurd h (by simp)
          | some (some v) =>
              rw [hff] at h
              simp only [Option.some.injEq] at h
              subst h
              exact sameColumn_firstForced_op hff
          | some none =>
              rw [hff] at h
              exact ih h

theorem sameColumn_advance_op {c : SameColumnClue} {p : Puzzle}
    {u : UpdateCellIndex} (h : c.advance_puzzle p = some (some u)) :
    u.op = .Solo ∨ u.op = .Clear := by
  unfold SameColumnClue.advance_puzzle at h
  match h1 : p.answer_at c.loc with
  | none => rw [h1] at h; exact absurd h (by simp)
  | some a1 =>
      rw [h1] at h
      dsimp only at h
      match h2 : p.answer_at c.loc2 with
      | none => rw [h2] at h; exact absurd h (by simp)
      | some a2 =>
          rw [h2] at h
          dsimp only at h
          match h3 : c.row3 with
          | none =>
              rw [h3] at h
              dsimp only at h
              unfold SameColumnClue.advanceWith at h
              match h4 : colspanOf ([a1, a2].map (fun x => x.loc.col)) with
              | none => rw [h4] at h; exact absurd h (by simp)
              | some (mn, mx, d) =>
                  rw [h4] at h
                  exact sameColumn_scanShifts_op h
          | some r3 =>
              rw [h3] at h
              dsimp only at h
              match h5 : p.answer_at ⟨r3, c.loc.col⟩ with
              | none => rw [h5] at h; exact absurd h (by simp)
              | some a3 =>
                  rw [h5] at h
                  dsimp only at h
                  unfold SameColumnClue.advanceWith at h
                  match h4 : colspanOf ([a1, a2, a3].map (fun x => x.loc.col)) with
                  | none => rw [h4] at h; exact absurd h (by simp)
                  | some (mn, mx, d) =>
                      rw [h4] at h
                      exact sameColumn_scanShifts_op h

/-! ### Row-local inference (`one_inference_step` / `run_inference`) -/

/-- `HashSet::insert` determinised: append if absent (first-insertion
order). -/
def listInsert [DecidableEq α] (l : List α) (x : α) : List α :=
  if x ∈ l then l else l ++ [x]

/-- A `HashSet` built by inserting the elements of `l` in order. -/
def uniqList [DecidableEq α] (l : List α) : List α := l.foldl listInsert []

/-- The selection the scan reads at a column: `Puzzle::cell_selection`
restricted to one row (`VOID` when the column is out of range). -/
def rowSelAt (r : PuzzleRow) (col : Int) : PuzzleCellSelection :=
  (r.selection_at col).getD .Void

/-- The per-column `SoloInf` of `one_inference_step`: columns whose
cell has exactly one enabled slot index (naked singles), in column
order. -/
def nakedSingles (r : PuzzleRow) (cols : List Int) : List (Int × Nat) :=
  cols.filterMap (fun c =>
    match (rowSelAt r c).iter_ones with
    | [i] => some (c, i)
    | _ => none)

/-- The columns of the row in which slot index `i` is enabled (the
`counts` entry for `i`). -/
def colsWith (r : PuzzleRow) (cols : List Int) (i : Nat) : List Int :=
  cols.filter (fun c => (rowSelAt r c).iter_ones.contains i)

/-- The per-index `SoloInf` of `one_inference_step`: slot indices
enabled in exactly one column (hidden singles), in first-occurrence
index order. -/
def hiddenSingles (r : PuzzleRow) (cols : List Int) : List (Int × Nat) :=
  (uniqList (cols.flatMap (fun c => (rowSelAt r c).iter_ones))).filterMap
    (fun i =>
      match colsWith r cols i with
      | [c] => some (c, i)
      | _ => none)

/-- The `solo_ops` entry for one row: naked singles (inserted during
the column loop) then hidden singles (drained from `counts`),
deduplicated as the Rust `HashSet` does. -/
def rowSolos (r : PuzzleRow) (cols : List Int) : List (Int × Nat) :=
  uniqList (nakedSingles r cols ++ hiddenSingles r cols)

/-- The operation the apply loop issues for one solo entry at one
column: `Solo` at the solo's own location, `Clear` everywhere else. -/
def opFor (solo : Int × Nat) (col : Int) : Nat × UpdateCellIndexOperation :=
  (solo.2, if solo.1 = col then .Solo else .Clear)

/-- Apply a list of operations to one cell, summing the reported
change counts (the inner `for solo_index in &solos` loop). -/
def applyOps (s : PuzzleCellSelection) :
    List (Nat × UpdateCellIndexOperation) → Option (PuzzleCellSelection × Nat)
  | [] => some (s, 0)
  | io :: rest =>
      match s.apply io.1 io.2 with
      | none => none
      | some (s', n) =>
          match applyOps s' rest with
          | none => none
          | some (s'', m) => some (s'', n + m)

/-- Writing one cell back through the `cell_selection_mut` reference. -/
def PuzzleRow.setCell (r : PuzzleRow) (col : Int)
    (sel : PuzzleCellSelection) : PuzzleRow :=
  { r with cell_selection := r.cell_selection.set col.toNat sel }

/-- The apply loop of `one_inference_step` over one row: for each
column (in order) fetch the cell via `cell_selection_mut` (panicking —
`none` — when the column is missing from the row), apply every solo's
operation, and record the column when any of its applications reported
a change.  Returns the updated row, the summed report count, and the
changed columns. -/
def applyRowPhase (r : PuzzleRow) (solos : List (Int × Nat)) :
    List Int → Option (PuzzleRow × Nat × List Int)
  | [] => some (r, 0, [])
  | col :: rest =>
      match r.selection_at col with
      | none => none
      | some sel =>
          match applyOps sel (solos.map (fun io => opFor io col)) with
          | none => none
          | some (sel', n) =>
              match applyRowPhase (r.setCell col sel') solos rest with
              | none => none
              | some (r'', m, chs) =>
                  some (r'', n + m, if n = 0 then chs else col :: chs)

/-- Replace one row of the puzzle. -/
def Puzzle.setRow (p : Puzzle) (r : Nat) (row : PuzzleRow) : Puzzle :=
  { p with rows := p.rows.set r row }

/-- The outer apply loop of `one_inference_step`: process each row with
a non-empty solo set, accumulating the report count and the changed
locations. -/
def applyAllRows (p : Puzzle) :
    List (Nat × List (Int × Nat)) → Option (Puzzle × Nat × List CellLoc)
  | [] => some (p, 0, [])
  | rs :: rest =>
      match p.rows.get? rs.1 with
      | none => none
      | some row =>
          match applyRowPhase row rs.2 p.iter_cols with
          | none => none
          | some (row', n, cols) =>
              match applyAllRows (p.setRow rs.1 row') rest with
              | none => none
              | some (p', m, locs) =>
                  some (p', n + m,
                    cols.map (fun c => CellLoc.mk rs.1 c) ++ locs)

/-- `Puzzle::one_inference_step`: drain the work set to its rows, scan
each row for naked and hidden singles, then apply the forced
`Solo`/`Clear` operations, reporting the changed locations (which the
caller feeds into both `considering` and `to_update`). -/
def oneInferenceStep (p : Puzzle) (considering : List CellLoc) :
    Option (Puzzle × Nat × List CellLoc) :=
  match traverseOpt (fun r => (p.rows.get? r).map
        (fun row => (r, rowSolos row p.iter_cols)))
      (uniqList (considering.map (fun l => l.row))) with
  | none => none
  | some solosPerRow =>
      applyAllRows p (solosPerRow.filter (fun x => !x.2.isEmpty))

/-- The `while !considering.is_empty()` loop of
`Puzzle::run_inference`, with explicit fuel.  Returns the final
puzzle, the total update count, and the remaining work set (empty in
every terminating run; `run_inference` supplies enough fuel, see the
C3 theorem). -/
def runInferenceAux : Nat → Puzzle → List CellLoc →
    Option (Puzzle × Nat × List CellLoc)
  | 0, p, considering => some (p, 0, considering)
  | fuel + 1, p, considering =>
      if considering.isEmpty then some (p, 0, [])
      else
        match oneInferenceStep p considering with
        | none => none
        | some (p', n, changed) =>
            match runInferenceAux fuel p' changed with
            | none => none
            | some (p'', m, rest) => some (p'', n + m, rest)

/-- Total number of enabled candidate bits across the whole grid. -/
def totalBits (p : Puzzle) : Nat :=
  (p.rows.map (fun r =>
    (r.cell_selection.map PuzzleCellSelection.count_ones).sum)).sum

/-- `Puzzle::run_inference`, seeded with the `to_update` set.  The
fuel `totalBits p + 2` is enough for the loop to reach its fixed point
(claim C3). -/
def Puzzle.run_inference (p : Puzzle) (to_update : List CellLoc) :
    Option (Puzzle × Nat × List CellLoc) :=
  runInferenceAux (totalBits p + 2) p to_update

/-- Grid well-formedness: every row spans the full column range and
every cell is well-formed at the grid's alphabet width.  This holds
for every puzzle the program builds (`PuzzleRow::new_shuffled` creates
equal-width rows of full bitsets) and is preserved by every update. -/
def Puzzle.wf (p : Puzzle) : Prop :=
  0 ≤ p.max_column ∧
  ∀ r ∈ p.rows, r.cell_selection.length = p.max_column.toNat + 1
    ∧ ∀ s ∈ r.cell_selection, selWF s (p.max_column.toNat + 1)

/-! ### Utility lemmas for the inference proofs -/

theorem mem_foldl_listInsert [DecidableEq α] :
    ∀ (l acc : List α) (a : α),
      a ∈ l.foldl listInsert acc ↔ a ∈ acc ∨ a ∈ l := by
  intro l
  induction l with
  | nil => intro acc a; simp
  | cons x t ih =>
      intro acc a
      simp only [List.foldl_cons, ih, listInsert]
      by_cases hx : x ∈ acc
      · rw [if_pos hx]
        constructor
        · rintro (h | h)
          · exact Or.inl h
          · exact Or.inr (List.mem_cons_of_mem x h)
        · rintro (h | h)
          · exact Or.inl h
          · rcases List.mem_cons.mp h with rfl | h
            · exact Or.inl hx
            · exact Or.inr h
      · rw [if_neg hx]
        simp only [List.mem_append, List.mem_singleton, List.mem_cons]
        tauto

theorem mem_uniqList [DecidableEq α] (l : List α) (a : α) :
    a ∈ uniqList l ↔ a ∈ l := by
  unfold uniqList
  rw [mem_foldl_listInsert]
  simp

theorem nodup_foldl_listInsert [DecidableEq α] :
    ∀ (l acc : List α), acc.Nodup → (l.foldl listInsert acc).Nodup := by
  intro l
  induction l with
  | nil => intro acc h; exact h
  | cons x t ih =>
      intro acc h
      simp only [List.foldl_cons]
      refine ih _ ?_
      unfold listInsert
      by_cases hx : x ∈ acc
      · rw [if_pos hx]; exact h
      · rw [if_neg hx]
        simpa [List.nodup_append] using ⟨h, hx⟩

theorem nodup_uniqList [DecidableEq α] (l : List α) : (uniqList l).Nodup :=
  nodup_foldl_listInsert l [] List.nodup_nil

theorem sum_set_le :
    ∀ (l : List Nat) (i x : Nat), x ≤ l.getD i 0 →
      (l.set i x).sum ≤ l.sum := by
  intro l
  induction l with
  | nil => intro i x _; simp
  | cons a t ih =>
      intro i x hx
      cases i with
      | zero =>
          simp only [List.set_cons_zero, List.sum_cons]
          simp only [List.getD_cons_zero] at hx
          omega
      | succ j =>
          simp only [List.set_cons_succ, List.sum_cons]
          simp only [List.getD_cons_succ] at hx
          have := ih j x hx
          omega

theorem sum_set_lt :
    ∀ (l : List Nat) (i x : Nat), i < l.length → x < l.getD i 0 →
      (l.set i x).sum < l.sum := by
  intro l
  induction l with
  | nil => intro i x h _; simp at h
  | cons a t ih =>
      intro i x hi hx
      cases i with
      | zero =>
          simp only [List.set_cons_zero, List.sum_cons]
          simp only [List.getD_cons_zero] at hx
          omega
      | succ j =>
          simp only [List.set_cons_succ, List.sum_cons]
          simp only [List.getD_cons_succ] at hx
          have := ih j x (by simpa using hi) hx
          omega

open PuzzleCellSelection in
theorem applyOps_cons_some {s s'' : PuzzleCellSelection}
    {io : Nat × UpdateCellIndexOperation}
    {rest : List (Nat × UpdateCellIndexOperation)} {N : Nat}
    (h : applyOps s (io :: rest) = some (s'', N)) :
    ∃ s' n m, s.apply io.1 io.2 = some (s', n)
      ∧ applyOps s' rest = some (s'', m) ∧ N = n + m := by
  unfold applyOps at h
  match ha : s.apply io.1 io.2 with
  | none => rw [ha] at h; exact absurd h (by simp)
  | some (s', n) =>
      rw [ha] at h
      dsimp only at h
      match hr : applyOps s' rest with
      | none => rw [hr] at h; exact absurd h (by simp)
      | some (s''0, m) =>
          rw [hr] at h
          simp only [Option.some.injEq, Prod.mk.injEq] at h
          refine ⟨s', n, m, rfl, ?_, h.2.symm⟩
          rw [hr, h.1]

open PuzzleCellSelection in
theorem applyOps_clear_count :
    ∀ {ops : List (Nat × UpdateCellIndexOperation)}
      {s s' : PuzzleCellSelection} {N : Nat},
      (∀ io ∈ ops, io.2 = .Clear) →
      applyOps s ops = some (s', N) →
      s'.count_ones + N = s.count_ones := by
  intro ops
  induction ops with
  | nil =>
      intro s s' N _ h
      simp only [applyOps, Option.some.injEq, Prod.mk.injEq] at h
      rw [← h.1, ← h.2]
      exact Nat.add_zero _
  | cons io rest ih =>
      intro s s'' N hops h
      obtain ⟨s', n, m, ha, hr, rfl⟩ := applyOps_cons_some h
      have hcl : io.2 = .Clear := hops io (List.mem_cons_self io rest)
      rw [hcl] at ha
      obtain ⟨hc, -⟩ := apply_clear_spec ha
      have := ih (fun io' hio' => hops io' (List.mem_cons_of_mem io hio')) hr
      omega

open PuzzleCellSelection in
theorem applyOps_le_one :
    ∀ {ops : List (Nat × UpdateCellIndexOperation)}
      {s s' : PuzzleCellSelection} {N : Nat},
      (∀ io ∈ ops, io.2 = .Clear ∨ io.2 = .Solo) →
      s.count_ones ≤ 1 →
      applyOps s ops = some (s', N) →
      s'.count_ones ≤ 1 := by
  intro ops
  induction ops with
  | nil =>
      intro s s' N _ hc h
      simp only [applyOps, Option.some.injEq, Prod.mk.injEq] at h
      rw [← h.1]; exact hc
  | cons io rest ih =>
      intro s s'' N hops hc h
      obtain ⟨s', n, m, ha, hr, rfl⟩ := applyOps_cons_some h
      have hmid : s'.count_ones ≤ 1 := by
        rcases hops io (List.mem_cons_self io rest) with hcl | hsl
        · rw [hcl] at ha
          obtain ⟨hcnt, -⟩ := apply_clear_spec ha
          omega
        · rw [hsl] at ha
          rcases apply_solo_spec ha with ⟨-, rfl, -⟩ | ⟨-, rfl, -⟩
          · simp [count_ones]
          · simp [count_ones]
      exact ih (fun io' hio' => hops io' (List.mem_cons_of_mem io hio'))
        hmid hr

open PuzzleCellSelection in
theorem applyOps_has_solo_le_one :
    ∀ {ops : List (Nat × UpdateCellIndexOperation)}
      {s s' : PuzzleCellSelection} {N : Nat},
      (∀ io ∈ ops, io.2 = .Clear ∨ io.2 = .Solo) →
      (∃ io ∈ ops, io.2 = .Solo) →
      applyOps s ops = some (s', N) →
      s'.count_ones ≤ 1 := by
  intro ops
  induction ops with
  | nil =>
      intro s s' N _ hex h
      obtain ⟨io, hio, -⟩ := hex
      exact absurd hio (List.not_mem_nil io)
  | cons io rest ih =>
      intro s s'' N hops hex h
      obtain ⟨s', n, m, ha, hr, rfl⟩ := applyOps_cons_some h
      by_cases hsolo : io.2 = .Solo
      · rw [hsolo] at ha
        have hmid : s'.count_ones ≤ 1 := by
          rcases apply_solo_spec ha with ⟨-, rfl, -⟩ | ⟨-, rfl, -⟩
          · simp [count_ones]
          · simp [count_ones]
        exact applyOps_le_one
          (fun io' hio' => hops io' (List.mem_cons_of_mem io hio')) hmid hr
      · obtain ⟨io', hio', hsolo'⟩ := hex
        have hio'rest : io' ∈ rest := by
          rcases List.mem_cons.mp hio' with rfl | hm
          · exact absurd hsolo' hsolo
          · exact hm
        rcases hops io (List.mem_cons_self io rest) with hcl | hsl
        · exact ih (fun a ha' => hops a (List.mem_cons_of_mem io ha'))
            ⟨io', hio'rest, hsolo'⟩ hr
        · exact absurd hsl hsolo

open PuzzleCellSelection in
theorem applyOps_count_le :
    ∀ {ops : List (Nat × UpdateCellIndexOperation)}
      {s s' : PuzzleCellSelection} {N : Nat},
      (∀ io ∈ ops, io.2 = .Clear ∨ io.2 = .Solo) →
      (∀ io ∈ ops, io.2 = .Solo → s.is_enabled io.1 = true) →
      applyOps s ops = some (s', N) →
      s'.count_ones ≤ s.count_ones := by
  intro ops s s' N hops hen h
  by_cases hex : ∃ io ∈ ops, io.2 = .Solo
  · obtain ⟨io, hio, hsolo⟩ := hex
    have h1 := applyOps_has_solo_le_one hops ⟨io, hio, hsolo⟩ h
    have h2 := one_le_count_of_enabled (hen io hio hsolo)
    omega
  · have hclr : ∀ io ∈ ops, io.2 = .Clear := by
      intro io hio
      rcases hops io hio with hc | hs
      · exact hc
      · exact absurd ⟨io, hio, hs⟩ hex
    have := applyOps_clear_count hclr h
    omega

open PuzzleCellSelection in
theorem applyOps_rep0 :
    ∀ {ops : List (Nat × UpdateCellIndexOperation)}
      {s s' : PuzzleCellSelection},
      (∀ io ∈ ops, io.2 = .Clear ∨ io.2 = .Solo) →
      applyOps s ops = some (s', 0) →
      (∀ k, s'.is_enabled k = s.is_enabled k)
      ∧ s'.width = s.width
      ∧ s'.iter_ones = s.iter_ones
      ∧ s'.count_ones = s.count_ones := by
  intro ops
  induction ops with
  | nil =>
      intro s s' h0 h
      simp only [applyOps, Option.some.injEq, Prod.mk.injEq] at h
      rw [← h.1]
      exact ⟨fun k => rfl, rfl, rfl, rfl⟩
  | cons io rest ih =>
      intro s s'' hops h
      obtain ⟨s', n, m, ha, hr, hnm⟩ := applyOps_cons_some h
      have hn : n = 0 := by omega
      have hm : m = 0 := by omega
      rw [hn] at ha
      rw [hm] at hr
      obtain ⟨e1, w1, o1, c1⟩ :=
        apply_rep0 (hops io (List.mem_cons_self io rest)) ha
      obtain ⟨e2, w2, o2, c2⟩ :=
        ih (fun a hb => hops a (List.mem_cons_of_mem io hb)) hr
      exact ⟨fun k => (e2 k).trans (e1 k), w2.trans w1, o2.trans o1,
        c2.trans c1⟩

open PuzzleCellSelection in
theorem applyOps_single_quiet :
    ∀ {ops : List (Nat × UpdateCellIndexOperation)}
      {s s' : PuzzleCellSelection} {N : Nat} {x : Nat},
      s.is_enabled x = true → s.count_ones = 1 →
      (∀ io ∈ ops, (io.2 = .Clear ∧ io.1 ≠ x) ∨ (io.2 = .Solo ∧ io.1 = x)) →
      applyOps s ops = some (s', N) →
      N = 0 ∧ s'.is_enabled x = true ∧ s'.count_ones = 1 := by
  intro ops
  induction ops with
  | nil =>
      intro s s' N x hx hc _ h
      simp only [applyOps, Option.some.injEq, Prod.mk.injEq] at h
      rw [← h.1, ← h.2]
      exact ⟨rfl, hx, hc⟩
  | cons io rest ih =>
      intro s s'' N x hx hc hops h
      obtain ⟨s', n, m, ha, hr, rfl⟩ := applyOps_cons_some h
      have hmid : n = 0 ∧ s'.is_enabled x = true ∧ s'.count_ones = 1 := by
        rcases hops io (List.mem_cons_self io rest) with ⟨hcl, hne⟩ | ⟨hsl, heq⟩
        · rw [hcl] at ha
          obtain ⟨hcnt, -, -, hek, hn, -⟩ := apply_clear_spec ha
          have hdis : s.is_enabled io.1 = false := by
            rcases he : s.is_enabled io.1 with h0 | h1
            · rfl
            · have := two_le_count_of_enabled_pair he hx hne
              omega
          rw [hdis] at hn
          simp only [Bool.false_eq_true, if_false] at hn
          refine ⟨hn, ?_, ?_⟩
          · rw [hek x (fun hxe => hne hxe.symm)]
            exact hx
          · omega
        · rw [hsl] at ha
          rcases apply_solo_spec ha with ⟨hv, -, -⟩ | ⟨-, rfl, hn⟩
          · rw [hv] at hx; simp [is_enabled] at hx
          · rw [heq] at hn ⊢
            rw [hx, hc] at hn
            simp only [if_pos] at hn
            refine ⟨by omega, ?_, rfl⟩
            simp [is_enabled]
      obtain ⟨hn0, hx', hc'⟩ := hmid
      obtain ⟨hm0, hx'', hc''⟩ :=
        ih hx' hc' (fun a hb => hops a (List.mem_cons_of_mem io hb)) hr
      exact ⟨by omega, hx'', hc''⟩

open PuzzleCellSelection in
theorem applyOps_clear_drop :
    ∀ {ops : List (Nat × UpdateCellIndexOperation)}
      {s s' : PuzzleCellSelection} {N : Nat} {x : Nat},
      s.is_enabled x = true →
      (∀ io ∈ ops, io.2 = .Clear) →
      ((x, UpdateCellIndexOperation.Clear) ∈ ops) →
      applyOps s ops = some (s', N) →
      s'.count_ones < s.count_ones := by
  intro ops
  induction ops with
  | nil =>
      intro s s' N x _ _ hmem _
      exact absurd hmem (List.not_mem_nil _)
  | cons io rest ih =>
      intro s s'' N x hx hops hmem h
      obtain ⟨s', n, m, ha, hr, rfl⟩ := applyOps_cons_some h
      have hcl : io.2 = .Clear := hops io (List.mem_cons_self io rest)
      rw [hcl] at ha
      obtain ⟨hcnt, -, hei, hek, hn, -⟩ := apply_clear_spec ha
      by_cases hix : io.1 = x
      · rw [hix, hx] at hn
        simp only [if_pos] at hn
        have hrest := applyOps_clear_count
          (fun a hb => hops a (List.mem_cons_of_mem io hb)) hr
        have h1 := one_le_count_of_enabled hx
        omega
      · have hx' : s'.is_enabled x = true := by
          rw [hek x (fun he => hix he.symm)]; exact hx
        have hmem' : (x, UpdateCellIndexOperation.Clear) ∈ rest := by
          rcases List.mem_cons.mp hmem with he | hm
          · exact absurd (congrArg Prod.fst he).symm hix
          · exact hm
        have := ih hx' (fun a hb => hops a (List.mem_cons_of_mem io hb))
          hmem' hr
        omega

open PuzzleCellSelection in
theorem applyOps_pin :
    ∀ {ops : List (Nat × UpdateCellIndexOperation)}
      {s s' : PuzzleCellSelection} {N : Nat} {x : Nat},
      s.is_enabled x = true →
      ((x, UpdateCellIndexOperation.Solo) ∈ ops) →
      (∀ io ∈ ops, (io.2 = .Solo → io.1 = x)
        ∧ (io.2 = .Clear → io.1 ≠ x)
        ∧ (io.2 = .Clear ∨ io.2 = .Solo)) →
      applyOps s ops = some (s', N) →
      s'.is_enabled x = true ∧ s'.count_ones = 1 := by
  intro ops
  induction ops with
  | nil =>
      intro s s' N x _ hmem _ _
      exact absurd hmem (List.not_mem_nil _)
  | cons io rest ih =>
      intro s s'' N x hx hmem hops h
      obtain ⟨s', n, m, ha, hr, rfl⟩ := applyOps_cons_some h
      obtain ⟨hso, hcl, hcs⟩ := hops io (List.mem_cons_self io rest)
      rcases hcs with hc | hs
      · rw [hc] at ha
        obtain ⟨-, -, -, hek, -, -⟩ := apply_clear_spec ha
        have hx' : s'.is_enabled x = true := by
          rw [hek x (fun he => (hcl hc) he.symm)]; exact hx
        have hmem' : (x, UpdateCellIndexOperation.Solo) ∈ rest := by
          rcases List.mem_cons.mp hmem with he | hm
          · exact absurd (congrArg Prod.snd he).symm (by rw [hc]; simp)
          · exact hm
        exact ih hx' hmem' (fun a hb => hops a (List.mem_cons_of_mem io hb))
          hr
      · rw [hs] at ha
        have hix : io.1 = x := hso hs
        rcases apply_solo_spec ha with ⟨hv, -, -⟩ | ⟨-, rfl, -⟩
        · rw [hv] at hx; simp [is_enabled] at hx
        · have hx' : is_enabled (.Solo s.width io.1) x = true := by
            simp [is_enabled, hix]
          have hc' : count_ones (.Solo s.width io.1) = 1 := rfl
          have hrest : ∀ io' ∈ rest,
              (io'.2 = .Clear ∧ io'.1 ≠ x) ∨ (io'.2 = .Solo ∧ io'.1 = x) := by
            intro io' hio'
            obtain ⟨hso', hcl', hcs'⟩ :=
              hops io' (List.mem_cons_of_mem io hio')
            rcases hcs' with hc2 | hs2
            · exact Or.inl ⟨hc2, hcl' hc2⟩
            · exact Or.inr ⟨hs2, hso' hs2⟩
          obtain ⟨-, hx'', hc''⟩ := applyOps_single_quiet hx' hc' hrest hr
          exact ⟨hx'', hc''⟩

open PuzzleCellSelection in
theorem applyOps_never_enables :
    ∀ {ops : List (Nat × UpdateCellIndexOperation)}
      {s s' : PuzzleCellSelection} {N : Nat} {x : Nat},
      s.is_enabled x = false →
      (∀ io ∈ ops, (io.2 = .Solo → io.1 ≠ x)
        ∧ (io.2 = .Clear ∨ io.2 = .Solo)) →
      applyOps s ops = some (s', N) →
      s'.is_enabled x = false := by
  intro ops
  induction ops with
  | nil =>
      intro s s' N x hx _ h
      simp only [applyOps, Option.some.injEq, Prod.mk.injEq] at h
      rw [← h.1]; exact hx
  | cons io rest ih =>
      intro s s'' N x hx hops h
      obtain ⟨s', n, m, ha, hr, rfl⟩ := applyOps_cons_some h
      obtain ⟨hso, hcs⟩ := hops io (List.mem_cons_self io rest)
      have hx' : s'.is_enabled x = false := by
        rcases hcs with hc | hs
        · rw [hc] at ha
          obtain ⟨-, -, hei, hek, -, -⟩ := apply_clear_spec ha
          by_cases hix : x = io.1
          · rw [hix]; exact hei
          · rw [hek x hix]; exact hx
        · rw [hs] at ha
          rcases apply_solo_spec ha with ⟨-, rfl, -⟩ | ⟨-, rfl, -⟩
          · rfl
          · simp only [is_enabled, beq_eq_false_iff_ne, ne_eq]
            intro he
            exact (hso hs) he.symm
      exact ih hx' (fun a hb => hops a (List.mem_cons_of_mem io hb)) hr

open PuzzleCellSelection in
theorem applyOps_wf :
    ∀ {ops : List (Nat × UpdateCellIndexOperation)}
      (s : PuzzleCellSelection) (W : Nat),
      selWF s W → (∀ io ∈ ops, io.1 < W) →
      ∃ s' n, applyOps s ops = some (s', n) ∧ selWF s' W := by
  intro ops
  induction ops with
  | nil => intro s W hwf _; exact ⟨s, 0, rfl, hwf⟩
  | cons io rest ih =>
      intro s W hwf hlt
      have hsw : s.width = W := by
        cases s with
        | Enabled l => exact hwf
        | Solo w j => exact hwf.1
        | Void => exact absurd hwf (by simp [selWF])
      obtain ⟨s', n, ha, hwf', -⟩ := apply_wf s W io.1 io.2 hwf
        (hlt io (List.mem_cons_self io rest))
      obtain ⟨s'', m, hr, hwf''⟩ := ih s' W hwf'
        (fun a hb => hlt a (List.mem_cons_of_mem io hb))
      refine ⟨s'', n + m, ?_, hwf''⟩
      unfold applyOps
      rw [ha]
      dsimp only
      rw [hr]

/-! ### Properties of the scan (`rowSolos`) -/

theorem mem_colsWith {r : PuzzleRow} {cols : List Int} {i : Nat} {c : Int} :
    c ∈ colsWith r cols i ↔ c ∈ cols ∧ i ∈ (rowSelAt r c).iter_ones := by
  unfold colsWith
  rw [List.mem_filter]
  simp

theorem mem_nakedSingles {r : PuzzleRow} {cols : List Int} {ci : Int × Nat} :
    ci ∈ nakedSingles r cols
      ↔ ci.1 ∈ cols ∧ (rowSelAt r ci.1).iter_ones = [ci.2] := by
  unfold nakedSingles
  rw [List.mem_filterMap]
  constructor
  · rintro ⟨c, hc, hcm⟩
    match ho : (rowSelAt r c).iter_ones with
    | [i] =>
        rw [ho] at hcm
        simp only [Option.some.injEq] at hcm
        rw [← hcm]
        exact ⟨hc, ho⟩
    | [] => rw [ho] at hcm; exact absurd hcm (by simp)
    | a :: b :: t => rw [ho] at hcm; exact absurd hcm (by simp)
  · rintro ⟨hc, ho⟩
    exact ⟨ci.1, hc, by rw [ho]⟩

theorem mem_hiddenSingles {r : PuzzleRow} {cols : List Int} {ci : Int × Nat} :
    ci ∈ hiddenSingles r cols
      ↔ ci.2 ∈ uniqList (cols.flatMap (fun c => (rowSelAt r c).iter_ones))
        ∧ colsWith r cols ci.2 = [ci.1] := by
  unfold hiddenSingles
  rw [List.mem_filterMap]
  constructor
  · rintro ⟨i, hi, him⟩
    match hw : colsWith r cols i with
    | [c] =>
        rw [hw] at him
        simp only [Option.some.injEq] at him
        rw [← him]
        exact ⟨hi, hw⟩
    | [] => rw [hw] at him; exact absurd him (by simp)
    | a :: b :: t => rw [hw] at him; exact absurd him (by simp)
  · rintro ⟨hi, hw⟩
    exact ⟨ci.2, hi, by rw [hw]⟩

theorem mem_rowSolos {r : PuzzleRow} {cols : List Int} {ci : Int × Nat} :
    ci ∈ rowSolos r cols
      ↔ ci ∈ nakedSingles r cols ∨ ci ∈ hiddenSingles r cols := by
  unfold rowSolos
  rw [mem_uniqList, List.mem_append]

theorem rowSolos_mem_cols_ones {r : PuzzleRow} {cols : List Int}
    {ci : Int × Nat} (h : ci ∈ rowSolos r cols) :
    ci.1 ∈ cols ∧ ci.2 ∈ (rowSelAt r ci.1).iter_ones := by
  rcases mem_rowSolos.mp h with hn | hh
  · obtain ⟨hc, ho⟩ := mem_nakedSingles.mp hn
    exact ⟨hc, by rw [ho]; exact List.mem_singleton_self _⟩
  · obtain ⟨-, hw⟩ := mem_hiddenSingles.mp hh
    have : ci.1 ∈ colsWith r cols ci.2 := by
      rw [hw]; exact List.mem_singleton_self _
    exact mem_colsWith.mp this

theorem rowSolos_nodup (r : PuzzleRow) (cols : List Int) :
    (rowSolos r cols).Nodup := nodup_uniqList _

/-- Two solos on the same index in different columns are both naked
singles: each of the two cells has exactly that index enabled. -/
theorem rowSolos_same_index {r : PuzzleRow} {cols : List Int}
    {c c' : Int} {x : Nat} (h : (c, x) ∈ rowSolos r cols)
    (h' : (c', x) ∈ rowSolos r cols) (hne : c ≠ c') :
    (rowSelAt r c).iter_ones = [x] := by
  rcases mem_rowSolos.mp h with hn | hh
  · exact (mem_nakedSingles.mp hn).2
  · obtain ⟨-, hw⟩ := mem_hiddenSingles.mp hh
    have hc' : c' ∈ colsWith r cols x :=
      mem_colsWith.mpr (rowSolos_mem_cols_ones h')
    rw [hw] at hc'
    simp only [List.mem_singleton] at hc'
    exact absurd hc'.symm hne

/-! ### Row-phase lemmas -/

/-- Enabled-bit count of one row. -/
def rowBits (r : PuzzleRow) : Nat :=
  (r.cell_selection.map PuzzleCellSelection.count_ones).sum

theorem totalBits_eq (p : Puzzle) :
    totalBits p = (p.rows.map rowBits).sum := rfl

theorem selection_at_some {r : PuzzleRow} {col : Int}
    {sel : PuzzleCellSelection} (h : r.selection_at col = some sel) :
    ¬col < 0 ∧ col.toNat < r.cell_selection.length
      ∧ rowSelAt r col = sel
      ∧ r.cell_selection.get? col.toNat = some sel := by
  unfold PuzzleRow.selection_at at h
  by_cases hneg : col < 0
  · rw [if_pos hneg] at h; exact absurd h (by simp)
  · rw [if_neg hneg] at h
    refine ⟨hneg, ?_, ?_, h⟩
    · by_contra hge
      rw [List.get?_eq_getElem?, List.getElem?_eq_none (le_of_not_lt hge)]
        at h
      exact absurd h (by simp)
    · unfold rowSelAt PuzzleRow.selection_at
      rw [if_neg hneg, h]
      rfl

theorem rowSelAt_setCell_self {r : PuzzleRow} {col : Int}
    {sel : PuzzleCellSelection} (hneg : ¬col < 0)
    (hlen : col.toNat < r.cell_selection.length) :
    rowSelAt (r.setCell col sel) col = sel := by
  unfold rowSelAt PuzzleRow.selection_at PuzzleRow.setCell
  rw [if_neg hneg]
  simp only [List.get?_eq_getElem?, List.getElem?_set_self']
  rw [List.getElem?_eq_getElem hlen]
  rfl

theorem rowSelAt_setCell_ne {r : PuzzleRow} {col col' : Int}
    {sel : PuzzleCellSelection} (hneg : ¬col < 0) (hne : col' ≠ col) :
    rowSelAt (r.setCell col sel) col' = rowSelAt r col' := by
  unfold rowSelAt PuzzleRow.selection_at PuzzleRow.setCell
  by_cases hneg' : col' < 0
  · simp only [if_pos hneg']
  · simp only [if_neg hneg']
    have htn : col.toNat ≠ col'.toNat := by omega
    simp only [List.get?_eq_getElem?]
    rw [List.getElem?_set_ne htn]

theorem applyRowPhase_cons_some {r r'' : PuzzleRow}
    {solos : List (Int × Nat)} {col : Int} {rest : List Int}
    {N : Nat} {chs : List Int}
    (h : applyRowPhase r solos (col :: rest) = some (r'', N, chs)) :
    ∃ sel sel' n m chs',
      r.selection_at col = some sel
      ∧ applyOps sel (solos.map (fun io => opFor io col)) = some (sel', n)
      ∧ applyRowPhase (r.setCell col sel') solos rest = some (r'', m, chs')
      ∧ N = n + m ∧ chs = (if n = 0 then chs' else col :: chs') := by
  unfold applyRowPhase at h
  match hsel : r.selection_at col with
  | none => rw [hsel] at h; exact absurd h (by simp)
  | some sel =>
      rw [hsel] at h
      dsimp only at h
      match hops : applyOps sel (solos.map (fun io => opFor io col)) with
      | none => rw [hops] at h; exact absurd h (by simp)
      | some (sel', n) =>
          rw [hops] at h
          dsimp only at h
          match hrec : applyRowPhase (r.setCell col sel') solos rest with
          | none => rw [hrec] at h; exact absurd h (by simp)
          | some (r''0, m, chs') =>
              rw [hrec] at h
              simp only [Option.some.injEq, Prod.mk.injEq] at h
              obtain ⟨he, hN, hchs⟩ := h
              refine ⟨sel, sel', n, m, chs', rfl, hops, ?_, hN.symm,
                hchs.symm⟩
              rw [hrec, he]

/-- Columns never named in the processed list are untouched. -/
theorem applyRowPhase_untouched {solos : List (Int × Nat)} :
    ∀ {cols : List Int} {r r' : PuzzleRow} {N : Nat} {chs : List Int},
      applyRowPhase r solos cols = some (r', N, chs) →
      ∀ col', (∀ c ∈ cols, c ≠ col') →
        rowSelAt r' col' = rowSelAt r col' := by
  intro cols
  induction cols with
  | nil =>
      intro r r' N chs h col' _
      simp only [applyRowPhase, Option.some.injEq, Prod.mk.injEq] at h
      rw [← h.1]
  | cons col rest ih =>
      intro r r' N chs h col' hcol'
      obtain ⟨sel, sel', n, m, chs', hsel, hops, hrec, -, -⟩ :=
        applyRowPhase_cons_some h
      obtain ⟨hneg, -, -⟩ := selection_at_some hsel
      have h1 := ih hrec col'
        (fun c hc => hcol' c (List.mem_cons_of_mem col hc))
      rw [h1, rowSelAt_setCell_ne hneg
        (fun he => hcol' col (List.mem_cons_self col rest) he.symm)]

theorem opFor_mem_cases {solos : List (Int × Nat)} {col : Int}
    {io : Nat × UpdateCellIndexOperation}
    (h : io ∈ solos.map (fun s => opFor s col)) :
    ∃ s ∈ solos, io.1 = s.2
      ∧ ((s.1 = col ∧ io.2 = .Solo) ∨ (s.1 ≠ col ∧ io.2 = .Clear)) := by
  obtain ⟨s, hs, he⟩ := List.mem_map.mp h
  refine ⟨s, hs, ?_⟩
  unfold opFor at he
  by_cases hc : s.1 = col
  · rw [if_pos hc] at he
    rw [← he]
    exact ⟨rfl, Or.inl ⟨hc, rfl⟩⟩
  · rw [if_neg hc] at he
    rw [← he]
    exact ⟨rfl, Or.inr ⟨hc, rfl⟩⟩

theorem opFor_clear_or_solo (solos : List (Int × Nat)) (col : Int) :
    ∀ io ∈ solos.map (fun s => opFor s col),
      io.2 = UpdateCellIndexOperation.Clear
        ∨ io.2 = UpdateCellIndexOperation.Solo := by
  intro io hio
  obtain ⟨s, -, -, hcase⟩ := opFor_mem_cases hio
  rcases hcase with ⟨-, h⟩ | ⟨-, h⟩
  · exact Or.inr h
  · exact Or.inl h

theorem rowBits_setCell_le {r : PuzzleRow} {col : Int}
    {sel sel' : PuzzleCellSelection}
    (hget : r.cell_selection.get? col.toNat = some sel)
    (hle : sel'.count_ones ≤ sel.count_ones) :
    rowBits (r.setCell col sel') ≤ rowBits r := by
  unfold rowBits PuzzleRow.setCell
  simp only [List.map_set]
  refine sum_set_le _ _ _ ?_
  have : (r.cell_selection.map PuzzleCellSelection.count_ones).getD
      col.toNat 0 = sel.count_ones := by
    rw [List.getD_eq_getElem?_getD, List.getElem?_map,
      ← List.get?_eq_getElem?, hget]
    rfl
  rw [this]
  exact hle

theorem rowBits_setCell_lt {r : PuzzleRow} {col : Int}
    {sel sel' : PuzzleCellSelection}
    (hget : r.cell_selection.get? col.toNat = some sel)
    (hlen : col.toNat < r.cell_selection.length)
    (hlt : sel'.count_ones < sel.count_ones) :
    rowBits (r.setCell col sel') < rowBits r := by
  unfold rowBits PuzzleRow.setCell
  simp only [List.map_set]
  refine sum_set_lt _ _ _ (by simpa using hlen) ?_
  have : (r.cell_selection.map PuzzleCellSelection.count_ones).getD
      col.toNat 0 = sel.count_ones := by
    rw [List.getD_eq_getElem?_getD, List.getElem?_map,
      ← List.get?_eq_getElem?, hget]
    rfl
  rw [this]
  exact hlt

/-- Per-step non-increase of a row's enabled-bit count: provided every
solo's index is enabled (at scan time) in the cell it pins, the apply
loop can only shrink the row. -/
theorem applyRowPhase_bits_le {solos : List (Int × Nat)} :
    ∀ {cols : List Int} {r r' : PuzzleRow} {N : Nat} {chs : List Int},
      cols.Nodup →
      (∀ io ∈ solos, ∀ col ∈ cols, io.1 = col →
        (rowSelAt r col).is_enabled io.2 = true) →
      applyRowPhase r solos cols = some (r', N, chs) →
      rowBits r' ≤ rowBits r := by
  intro cols
  induction cols with
  | nil =>
      intro r r' N chs _ _ h
      simp only [applyRowPhase, Option.some.injEq, Prod.mk.injEq] at h
      rw [← h.1]
  | cons col rest ih =>
      intro r r' N chs hnd hen h
      obtain ⟨sel, sel', n, m, chs', hsel, hops, hrec, -, -⟩ :=
        applyRowPhase_cons_some h
      obtain ⟨hneg, hlen, hrsa, hget⟩ := selection_at_some hsel
      have hcellle : sel'.count_ones ≤ sel.count_ones := by
        refine applyOps_count_le (opFor_clear_or_solo solos col) ?_ hops
        intro io hio hsolo
        obtain ⟨s, hs, hfst, hcase⟩ := opFor_mem_cases hio
        rcases hcase with ⟨hc, -⟩ | ⟨-, hclr⟩
        · rw [hfst, ← hrsa]
          exact hen s hs col (List.mem_cons_self col rest) hc
        · rw [hclr] at hsolo; exact absurd hsolo (by simp)
      have h1 : rowBits (r.setCell col sel') ≤ rowBits r :=
        rowBits_setCell_le hget hcellle
      have h2 : rowBits r' ≤ rowBits (r.setCell col sel') := by
        refine ih (hnd.of_cons) ?_ hrec
        intro io hio col' hcol' heq
        rw [rowSelAt_setCell_ne hneg
          (fun he => (List.nodup_cons.mp hnd).1 (he ▸ hcol'))]
        exact hen io hio col' (List.mem_cons_of_mem col hcol') heq
      omega

/-- Strict per-step decrease: if some processed column's operation
list provably shrinks that cell, the row's bit count strictly
decreases. -/
theorem applyRowPhase_bits_lt {solos : List (Int × Nat)} :
    ∀ {cols : List Int} {r r' : PuzzleRow} {N : Nat} {chs : List Int},
      cols.Nodup →
      (∀ io ∈ solos, ∀ col ∈ cols, io.1 = col →
        (rowSelAt r col).is_enabled io.2 = true) →
      (∃ col ∈ cols, ∀ sel' n,
        applyOps (rowSelAt r col) (solos.map (fun io => opFor io col))
          = some (sel', n) →
        sel'.count_ones < (rowSelAt r col).count_ones) →
      applyRowPhase r solos cols = some (r', N, chs) →
      rowBits r' < rowBits r := by
  intro cols
  induction cols with
  | nil =>
      intro r r' N chs _ _ hex _
      obtain ⟨col, hcol, -⟩ := hex
      exact absurd hcol (List.not_mem_nil col)
  | cons col rest ih =>
      intro r r' N chs hnd hen hex h
      obtain ⟨sel, sel', n, m, chs', hsel, hops, hrec, -, -⟩ :=
        applyRowPhase_cons_some h
      obtain ⟨hneg, hlen, hrsa, hget⟩ := selection_at_some hsel
      have henrest : ∀ io ∈ solos, ∀ col' ∈ rest, io.1 = col' →
          (rowSelAt (r.setCell col sel') col').is_enabled io.2 = true := by
        intro io hio col' hcol' heq
        rw [rowSelAt_setCell_ne hneg
          (fun he => (List.nodup_cons.mp hnd).1 (he ▸ hcol'))]
        exact hen io hio col' (List.mem_cons_of_mem col hcol') heq
      obtain ⟨scol, hscol, hstrict⟩ := hex
      rcases List.mem_cons.mp hscol with rfl | hsrest
      · have hcelllt : sel'.count_ones < sel.count_ones := by
          have := hstrict sel' n (by rw [hrsa]; exact hops)
          rw [hrsa] at this
          exact this
        have h1 : rowBits (r.setCell scol sel') < rowBits r :=
          rowBits_setCell_lt hget hlen hcelllt
        have h2 : rowBits r' ≤ rowBits (r.setCell scol sel') :=
          applyRowPhase_bits_le (hnd.of_cons) henrest hrec
        omega
      · have hcellle : sel'.count_ones ≤ sel.count_ones := by
          refine applyOps_count_le (opFor_clear_or_solo solos col) ?_ hops
          intro io hio hsolo
          obtain ⟨s, hs, hfst, hcase⟩ := opFor_mem_cases hio
          rcases hcase with ⟨hc, -⟩ | ⟨-, hclr⟩
          · rw [hfst, ← hrsa]
            exact hen s hs col (List.mem_cons_self col rest) hc
          · rw [hclr] at hsolo; exact absurd hsolo (by simp)
        have h1 : rowBits (r.setCell col sel') ≤ rowBits r :=
          rowBits_setCell_le hget hcellle
        have hne : scol ≠ col :=
          fun he => (List.nodup_cons.mp hnd).1 (he ▸ hsrest)
        have h2 : rowBits r' < rowBits (r.setCell col sel') := by
          refine ih (hnd.of_cons) henrest ⟨scol, hsrest, ?_⟩ hrec
          rw [rowSelAt_setCell_ne hneg hne]
          exact hstrict
        omega

/-- A zero-report row phase changes no semantic content: every cell
keeps its enabled set, width and count, and no column is recorded as
changed. -/
theorem applyRowPhase_rep0 {solos : List (Int × Nat)} :
    ∀ {cols : List Int} {r r' : PuzzleRow} {chs : List Int},
      applyRowPhase r solos cols = some (r', 0, chs) →
      chs = [] ∧ ∀ col',
        (rowSelAt r' col').iter_ones = (rowSelAt r col').iter_ones
        ∧ (rowSelAt r' col').width = (rowSelAt r col').width
        ∧ (∀ k, (rowSelAt r' col').is_enabled k
            = (rowSelAt r col').is_enabled k)
        ∧ (rowSelAt r' col').count_ones = (rowSelAt r col').count_ones := by
  intro cols
  induction cols with
  | nil =>
      intro r r' chs h
      simp only [applyRowPhase, Option.some.injEq, Prod.mk.injEq] at h
      rw [← h.1, ← h.2.2]
      exact ⟨rfl, fun col' => ⟨rfl, rfl, fun k => rfl, rfl⟩⟩
  | cons col rest ih =>
      intro r r' chs h
      obtain ⟨sel, sel', n, m, chs', hsel, hops, hrec, hN, hchs⟩ :=
        applyRowPhase_cons_some h
      obtain ⟨hneg, hlen, hrsa, -⟩ := selection_at_some hsel
      have hn : n = 0 := by omega
      have hm : m = 0 := by omega
      rw [hn] at hops hchs
      rw [hm] at hrec
      obtain ⟨he0, hw0, ho0, hc0⟩ :=
        applyOps_rep0 (opFor_clear_or_solo solos col) hops
      obtain ⟨hchs', hall⟩ := ih hrec
      refine ⟨by rw [hchs, if_pos rfl, hchs'], ?_⟩
      intro col'
      obtain ⟨ho1, hw1, he1, hc1⟩ := hall col'
      by_cases hcc : col' = col
      · subst hcc
        rw [ho1, hw1, hc1, rowSelAt_setCell_self hneg hlen, hrsa]
        refine ⟨ho0, hw0, ?_, hc0⟩
        intro k
        rw [he1 k, rowSelAt_setCell_self hneg hlen]
        exact he0 k
      · rw [ho1, hw1, hc1, rowSelAt_setCell_ne hneg hcc]
        refine ⟨rfl, rfl, ?_, rfl⟩
        intro k
        rw [he1 k, rowSelAt_setCell_ne hneg hcc]

/-- Success and well-formedness of the row phase on a well-formed
row. -/
theorem applyRowPhase_wf {solos : List (Int × Nat)} {W : Nat} :
    ∀ {cols : List Int} {r : PuzzleRow},
      (∀ col ∈ cols, ¬col < 0 ∧ col.toNat < r.cell_selection.length) →
      (∀ s ∈ r.cell_selection, selWF s W) →
      (∀ io ∈ solos, io.2 < W) →
      ∃ r' N chs, applyRowPhase r solos cols = some (r', N, chs)
        ∧ r'.cell_selection.length = r.cell_selection.length
        ∧ (∀ s ∈ r'.cell_selection, selWF s W)
        ∧ r'.cell_answers = r.cell_answers
        ∧ chs ⊆ cols := by
  intro cols
  induction cols with
  | nil =>
      intro r _ hwf _
      exact ⟨r, 0, [], rfl, rfl, hwf, rfl, by simp⟩
  | cons col rest ih =>
      intro r hcols hwf hsolos
      obtain ⟨hneg, hlen⟩ := hcols col (List.mem_cons_self col rest)
      have hget : r.cell_selection.get? col.toNat
          = some (r.cell_selection[col.toNat]) := by
        rw [List.get?_eq_getElem?, List.getElem?_eq_getElem hlen]
      have hsel : r.selection_at col = some (r.cell_selection[col.toNat]) := by
        unfold PuzzleRow.selection_at
        rw [if_neg hneg]
        exact hget
      have hselwf : selWF (r.cell_selection[col.toNat]) W :=
        hwf _ (List.getElem_mem hlen)
      have hoplt : ∀ io ∈ solos.map (fun s => opFor s col), io.1 < W := by
        intro io hio
        obtain ⟨s, hs, hfst, -⟩ := opFor_mem_cases hio
        rw [hfst]
        exact hsolos s hs
      obtain ⟨sel', n, hops, hwf'⟩ :=
        applyOps_wf (r.cell_selection[col.toNat]) W hselwf hoplt
      have hlen' : (r.setCell col sel').cell_selection.length
          = r.cell_selection.length := by
        unfold PuzzleRow.setCell
        simp
      obtain ⟨r'', m, chs', hrec, hl2, hwf2, hans2, hsub2⟩ :=
        ih (r := r.setCell col sel')
          (fun c hc => by
            rw [hlen']
            exact hcols c (List.mem_cons_of_mem col hc))
          (fun s hs => by
            unfold PuzzleRow.setCell at hs
            rcases List.mem_or_eq_of_mem_set hs with hold | rfl
            · exact hwf s hold
            · exact hwf')
          hsolos
      refine ⟨r'', n + m, if n = 0 then chs' else col :: chs', ?_, ?_, hwf2,
        ?_, ?_⟩
      · unfold applyRowPhase
        rw [hsel]
        dsimp only
        rw [hops]
        dsimp only
        rw [hrec]
      · rw [hl2, hlen']
      · rw [hans2]; rfl
      · by_cases hn : n = 0
        · rw [if_pos hn]
          exact fun a ha => List.mem_cons_of_mem col (hsub2 ha)
        · rw [if_neg hn]
          intro a ha
          rcases List.mem_cons.mp ha with rfl | hm
          · exact List.mem_cons_self a rest
          · exact List.mem_cons_of_mem col (hsub2 hm)

theorem find?_split {p : α → Bool} :
    ∀ {l : List α} {a : α}, l.find? p = some a →
      ∃ l1 l2, l = l1 ++ a :: l2 ∧ ∀ b ∈ l1, p b = false := by
  intro l
  induction l with
  | nil => intro a h; simp at h
  | cons x t ih =>
      intro a h
      rw [List.find?_cons] at h
      cases hp : p x
      · rw [hp] at h
        dsimp only at h
        obtain ⟨l1, l2, rfl, hl1⟩ := ih h
        refine ⟨x :: l1, l2, rfl, ?_⟩
        intro b hb
        rcases List.mem_cons.mp hb with rfl | hm
        · exact hp
        · exact hl1 b hm
      · rw [hp] at h
        dsimp only at h
        simp only [Option.some.injEq] at h
        exact ⟨[], t, by rw [h]; rfl, by simp⟩

open PuzzleCellSelection in
theorem applyOps_append {ops1 : List (Nat × UpdateCellIndexOperation)} :
    ∀ {ops2 : List (Nat × UpdateCellIndexOperation)}
      {s s'' : PuzzleCellSelection} {N : Nat},
      applyOps s (ops1 ++ ops2) = some (s'', N) →
      ∃ s' n m, applyOps s ops1 = some (s', n)
        ∧ applyOps s' ops2 = some (s'', m) ∧ N = n + m := by
  induction ops1 with
  | nil =>
      intro ops2 s s'' N h
      exact ⟨s, 0, N, rfl, by simpa using h, by omega⟩
  | cons io rest ih =>
      intro ops2 s s'' N h
      rw [List.cons_append] at h
      obtain ⟨s', n, m, ha, hr, rfl⟩ := applyOps_cons_some h
      obtain ⟨t, n2, m2, h1, h2, rfl⟩ := ih hr
      refine ⟨t, n + n2, m2, ?_, h2, by omega⟩
      unfold applyOps
      rw [ha]
      dsimp only
      rw [h1]

open PuzzleCellSelection in
theorem applyOps_clear_disabled_quiet :
    ∀ {ops : List (Nat × UpdateCellIndexOperation)}
      {s s' : PuzzleCellSelection} {N : Nat},
      (∀ io ∈ ops, io.2 = .Clear) →
      (∀ io ∈ ops, s.is_enabled io.1 = false) →
      applyOps s ops = some (s', N) →
      N = 0 := by
  intro ops
  induction ops with
  | nil =>
      intro s s' N _ _ h
      simp only [applyOps, Option.some.injEq, Prod.mk.injEq] at h
      omega
  | cons io rest ih =>
      intro s s'' N hcl hdis h
      obtain ⟨s', n, m, ha, hr, rfl⟩ := applyOps_cons_some h
      have h1 : io.2 = .Clear := hcl io (List.mem_cons_self io rest)
      rw [h1] at ha
      obtain ⟨-, -, -, -, hn, -⟩ := apply_clear_spec ha
      rw [hdis io (List.mem_cons_self io rest)] at hn
      simp only [Bool.false_eq_true, if_false] at hn
      rw [hn] at ha
      obtain ⟨he0, -, -, -⟩ := apply_rep0 (Or.inl rfl) ha
      have hm : m = 0 := by
        refine ih (fun a hb => hcl a (List.mem_cons_of_mem io hb)) ?_ hr
        intro a hb
        rw [he0 a.1]
        exact hdis a (List.mem_cons_of_mem io hb)
      omega

/-- If every processed column's operation fold reports zero, the whole
row phase reports zero. -/
theorem applyRowPhase_quiet {solos : List (Int × Nat)} :
    ∀ {cols : List Int} {r r' : PuzzleRow} {N : Nat} {chs : List Int},
      cols.Nodup →
      (∀ col ∈ cols, ∀ sel' n,
        applyOps (rowSelAt r col) (solos.map (fun io => opFor io col))
          = some (sel', n) → n = 0) →
      applyRowPhase r solos cols = some (r', N, chs) →
      N = 0 := by
  intro cols
  induction cols with
  | nil =>
      intro r r' N chs _ _ h
      simp only [applyRowPhase, Option.some.injEq, Prod.mk.injEq] at h
      omega
  | cons col rest ih =>
      intro r r' N chs hnd hq h
      obtain ⟨sel, sel', n, m, chs', hsel, hops, hrec, hN, -⟩ :=
        applyRowPhase_cons_some h
      obtain ⟨hneg, hlen, hrsa, -⟩ := selection_at_some hsel
      have hn : n = 0 := by
        refine hq col (List.mem_cons_self col rest) sel' n ?_
        rw [hrsa]
        exact hops
      have hmq : ∀ col' ∈ rest, ∀ sel'' n',
          applyOps (rowSelAt (r.setCell col sel') col')
            (solos.map (fun io => opFor io col')) = some (sel'', n') →
          n' = 0 := by
        intro col' hcol' sel'' n' happ
        refine hq col' (List.mem_cons_of_mem col hcol') sel'' n' ?_
        rw [← rowSelAt_setCell_ne hneg
          (fun he => (List.nodup_cons.mp hnd).1 (he ▸ hcol'))]
        exact happ
      have hm : m = 0 := ih (hnd.of_cons) hmq hrec
      omega

open PuzzleCellSelection in
theorem mem_iter_ones_lt_width {s : PuzzleCellSelection} {W k : Nat}
    (hwf : selWF s W) (hk : k ∈ s.iter_ones) : k < W := by
  cases s with
  | Enabled l =>
      have h1 : k < l.length := List.mem_range.mp (List.mem_filter.mp hk).1
      exact hwf ▸ h1
  | Solo w j =>
      simp only [iter_ones, List.mem_singleton] at hk
      rw [hk]
      exact hwf.1 ▸ hwf.2
  | Void => simp [iter_ones] at hk

open PuzzleCellSelection in
/-- Strict progress of one row phase: when the solo set is duplicate-free
and every solo's index is enabled at its own column (as the scan
guarantees), any application that reports a change strictly shrinks the
row's enabled-bit count. -/
theorem applyRowPhase_progress {solos : List (Int × Nat)} {cols : List Int}
    {r r' : PuzzleRow} {N : Nat} {chs : List Int}
    (hnd : cols.Nodup) (hsnd : solos.Nodup)
    (hmem : ∀ s ∈ solos, s.1 ∈ cols ∧ (rowSelAt r s.1).is_enabled s.2 = true)
    (h : applyRowPhase r solos cols = some (r', N, chs)) (hN : N ≠ 0) :
    rowBits r' < rowBits r := by
  have hen : ∀ io ∈ solos, ∀ col ∈ cols, io.1 = col →
      (rowSelAt r col).is_enabled io.2 = true := by
    intro io hio col _ heq
    rw [← heq]
    exact (hmem io hio).2
  by_cases hB : ∃ s ∈ solos, 2 ≤ (rowSelAt r s.1).count_ones
  · obtain ⟨s, hs, h2⟩ := hB
    refine applyRowPhase_bits_lt hnd hen ⟨s.1, (hmem s hs).1, ?_⟩ h
    intro sel' n happ
    have hmemop : (s.2, UpdateCellIndexOperation.Solo)
        ∈ solos.map (fun io => opFor io s.1) := by
      refine List.mem_map.mpr ⟨s, hs, ?_⟩
      unfold opFor
      rw [if_pos rfl]
    have hle1 := applyOps_has_solo_le_one (opFor_clear_or_solo solos s.1)
      ⟨(s.2, .Solo), hmemop, rfl⟩ happ
    omega
  · push_neg at hB
    have hones1 : ∀ s ∈ solos, (rowSelAt r s.1).count_ones = 1 := by
      intro s hs
      have h1 := one_le_count_of_enabled (hmem s hs).2
      have h2 := hB s hs
      omega
    have honesS : ∀ s ∈ solos, (rowSelAt r s.1).iter_ones = [s.2] :=
      fun s hs => iter_ones_eq_singleton (hmem s hs).2 (hones1 s hs)
    have hsame : ∀ s ∈ solos, ∀ t ∈ solos, t.1 = s.1 → t.2 = s.2 := by
      intro s hs t ht htc
      have hm : t.2 ∈ (rowSelAt r s.1).iter_ones := by
        rw [← htc]
        exact (mem_iter_ones _ _).mpr (hmem t ht).2
      rw [honesS s hs, List.mem_singleton] at hm
      exact hm
    by_cases hA : ∃ x c c', c ≠ c' ∧ (c, x) ∈ solos ∧ (c', x) ∈ solos
    · obtain ⟨x, c, c', hcc, hc, hc'⟩ := hA
      have hfindsome : (solos.find? (fun s => s.2 == x)).isSome := by
        rw [List.find?_isSome]
        exact ⟨(c, x), hc, by simp⟩
      obtain ⟨s0, hfind⟩ := Option.isSome_iff_exists.mp hfindsome
      have hs0mem : s0 ∈ solos := List.mem_of_find?_eq_some hfind
      have hs0x : s0.2 = x := by
        have h0 := List.find?_some hfind
        simpa using h0
      have hcolmem : s0.1 ∈ cols := (hmem s0 hs0mem).1
      have henx : (rowSelAt r s0.1).is_enabled x = true :=
        hs0x ▸ (hmem s0 hs0mem).2
      have hc1 : (rowSelAt r s0.1).count_ones = 1 := hones1 s0 hs0mem
      obtain ⟨l1, l2, hsplit, hpre⟩ := find?_split hfind
      have hc''ex : ∃ c'', c'' ≠ s0.1 ∧ (c'', x) ∈ solos := by
        by_cases hceq : c = s0.1
        · refine ⟨c', ?_, hc'⟩
          rw [← hceq]
          exact fun he => hcc he.symm
        · exact ⟨c, hceq, hc⟩
      obtain ⟨c'', hne'', hc''⟩ := hc''ex
      have hs0nl2 : s0 ∉ l2 := by
        have h0 := hsnd
        rw [hsplit] at h0
        have h1 : (s0 :: l2).Nodup :=
          List.Nodup.sublist (List.sublist_append_right l1 (s0 :: l2)) h0
        exact (List.nodup_cons.mp h1).1
      have hc''l2 : (c'', x) ∈ l2 := by
        have hmem'' := hc''
        rw [hsplit] at hmem''
        rcases List.mem_append.mp hmem'' with h1 | h2
        · have h0 := hpre _ h1
          simp at h0
        · rcases List.mem_cons.mp h2 with he | h3
          · exact absurd (congrArg Prod.fst he) hne''
          · exact h3
      have hprefix : ∀ io ∈ l1.map (fun io => opFor io s0.1),
          (io.2 = UpdateCellIndexOperation.Clear ∧ io.1 ≠ x)
          ∨ (io.2 = UpdateCellIndexOperation.Solo ∧ io.1 = x) := by
        intro io hio
        obtain ⟨t, ht, hfst, hcase⟩ := opFor_mem_cases hio
        have htmem : t ∈ solos := by
          rw [hsplit]
          exact List.mem_append_left _ ht
        rcases hcase with ⟨htc, -⟩ | ⟨-, hcl⟩
        · exfalso
          have ht2 : t.2 = x := by
            have h0 := hsame s0 hs0mem t htmem htc
            rw [hs0x] at h0
            exact h0
          have hp := hpre t ht
          rw [ht2] at hp
          simp at hp
        · left
          refine ⟨hcl, ?_⟩
          rw [hfst]
          have hp := hpre t ht
          simpa using hp
      have hsuffix_clear : ∀ io ∈ l2.map (fun io => opFor io s0.1),
          io.2 = UpdateCellIndexOperation.Clear := by
        intro io hio
        obtain ⟨t, ht, -, hcase⟩ := opFor_mem_cases hio
        rcases hcase with ⟨htc, -⟩ | ⟨-, hcl⟩
        · exfalso
          have htmem : t ∈ solos := by
            rw [hsplit]
            exact List.mem_append_right _ (List.mem_cons_of_mem _ ht)
          have ht2 : t.2 = s0.2 := hsame s0 hs0mem t htmem htc
          have hts0 : t = s0 := Prod.ext_iff.mpr ⟨htc, ht2⟩
          exact hs0nl2 (hts0 ▸ ht)
        · exact hcl
      have hx_clear_mem : (x, UpdateCellIndexOperation.Clear)
          ∈ l2.map (fun io => opFor io s0.1) := by
        refine List.mem_map.mpr ⟨(c'', x), hc''l2, ?_⟩
        unfold opFor
        rw [if_neg hne'']
      refine applyRowPhase_bits_lt hnd hen ⟨s0.1, hcolmem, ?_⟩ h
      intro sel' n happ
      rw [hsplit, List.map_append, List.map_cons] at happ
      obtain ⟨s1, n1, m1, h1, h2, -⟩ := applyOps_append happ
      obtain ⟨s2, n2, m2, hpiv, h3, -⟩ := applyOps_cons_some h2
      obtain ⟨-, hs1x, hs1c⟩ := applyOps_single_quiet henx hc1 hprefix h1
      have hop : opFor s0 s0.1 = (x, UpdateCellIndexOperation.Solo) := by
        unfold opFor
        rw [if_pos rfl, hs0x]
      rw [hop] at hpiv
      rcases apply_solo_spec hpiv with ⟨hv, -, -⟩ | ⟨-, hs2, -⟩
      · rw [hv] at hs1x
        simp [is_enabled] at hs1x
      · have hs2x : s2.is_enabled x = true := by
          rw [hs2]
          simp [is_enabled]
        have hs2c : s2.count_ones = 1 := by rw [hs2]; rfl
        have hdrop := applyOps_clear_drop hs2x hsuffix_clear hx_clear_mem h3
        rw [hc1]
        omega
    · by_cases hD : ∃ col ∈ cols, (∀ t ∈ solos, t.1 ≠ col)
          ∧ ∃ s ∈ solos, (rowSelAt r col).is_enabled s.2 = true
      · obtain ⟨col, hcol, hnos, s, hs, hen2⟩ := hD
        refine applyRowPhase_bits_lt hnd hen ⟨col, hcol, ?_⟩ h
        intro sel' n happ
        refine applyOps_clear_drop hen2 ?_ ?_ happ
        · intro io hio
          obtain ⟨t, ht, -, hcase⟩ := opFor_mem_cases hio
          rcases hcase with ⟨htc, -⟩ | ⟨-, hclr⟩
          · exact absurd htc (hnos t ht)
          · exact hclr
        · refine List.mem_map.mpr ⟨s, hs, ?_⟩
          unfold opFor
          rw [if_neg (hnos s hs)]
      · exfalso
        apply hN
        refine applyRowPhase_quiet hnd ?_ h
        intro col hcol sel' n happ
        by_cases hsolo : ∃ t ∈ solos, t.1 = col
        · obtain ⟨t, ht, htc⟩ := hsolo
          have hcnt1 : (rowSelAt r col).count_ones = 1 := htc ▸ hones1 t ht
          have henc : (rowSelAt r col).is_enabled t.2 = true :=
            htc ▸ (hmem t ht).2
          have hcond : ∀ io ∈ solos.map (fun io => opFor io col),
              (io.2 = UpdateCellIndexOperation.Clear ∧ io.1 ≠ t.2)
              ∨ (io.2 = UpdateCellIndexOperation.Solo ∧ io.1 = t.2) := by
            intro io hio
            obtain ⟨u, hu, hfst, hcase⟩ := opFor_mem_cases hio
            rcases hcase with ⟨huc, hso⟩ | ⟨huc, hcl⟩
            · right
              refine ⟨hso, ?_⟩
              rw [hfst]
              exact hsame t ht u hu (huc.trans htc.symm)
            · left
              refine ⟨hcl, ?_⟩
              rw [hfst]
              intro hux
              refine hA ⟨t.2, u.1, t.1, ?_, ?_, ?_⟩
              · exact fun he => huc (he.trans htc)
              · rw [← hux]
                exact hu
              · exact ht
          have hq := applyOps_single_quiet henc hcnt1 hcond happ
          exact hq.1
        · push_neg at hsolo hD
          refine applyOps_clear_disabled_quiet ?_ ?_ happ
          · intro io hio
            obtain ⟨t, ht, -, hcase⟩ := opFor_mem_cases hio
            rcases hcase with ⟨htc, -⟩ | ⟨-, hclr⟩
            · exact absurd htc (hsolo t ht)
            · exact hclr
          · intro io hio
            obtain ⟨t, ht, hfst, -⟩ := opFor_mem_cases hio
            rw [hfst]
            simpa using hD col hcol hsolo t ht

/-! ### Puzzle-level inference lemmas -/

theorem mem_iter_cols {p : Puzzle} {c : Int} (h : c ∈ p.iter_cols) :
    ¬c < 0 ∧ c.toNat < p.max_column.toNat + 1 := by
  unfold Puzzle.iter_cols at h
  by_cases hm : p.max_column < 0
  · rw [if_pos hm] at h
    exact absurd h (List.not_mem_nil c)
  · rw [if_neg hm] at h
    obtain ⟨k, hk, rfl⟩ := List.mem_map.mp h
    have hkr := List.mem_range.mp hk
    constructor
    · exact fun hc => absurd hc (not_lt.mpr (Int.natCast_nonneg k))
    · simpa using hkr

theorem iter_cols_nodup (p : Puzzle) : p.iter_cols.Nodup := by
  unfold Puzzle.iter_cols
  by_cases hm : p.max_column < 0
  · rw [if_pos hm]
    exact List.nodup_nil
  · rw [if_neg hm]
    exact (List.nodup_range _).map (fun a b hab => Int.ofNat.inj hab)

theorem setRow_max_column (p : Puzzle) (i : Nat) (row : PuzzleRow) :
    (p.setRow i row).max_column = p.max_column := rfl

theorem setRow_iter_cols (p : Puzzle) (i : Nat) (row : PuzzleRow) :
    (p.setRow i row).iter_cols = p.iter_cols := rfl

theorem setRow_rows_length (p : Puzzle) (i : Nat) (row : PuzzleRow) :
    (p.setRow i row).rows.length = p.rows.length := by
  unfold Puzzle.setRow
  simp

theorem setRow_get_ne {p : Puzzle} {i j : Nat} {row : PuzzleRow}
    (hne : j ≠ i) : (p.setRow i row).rows.get? j = p.rows.get? j := by
  unfold Puzzle.setRow
  simp only [List.get?_eq_getElem?]
  exact List.getElem?_set_ne (Ne.symm hne)

theorem lt_length_of_get?_eq_some {l : List α} {n : Nat} {a : α}
    (h : l.get? n = some a) : n < l.length := by
  by_contra hge
  rw [List.get?_eq_getElem?, List.getElem?_eq_none (le_of_not_lt hge)] at h
  exact absurd h (by simp)

theorem get?_mem_of_eq_some {l : List α} {n : Nat} {a : α}
    (h : l.get? n = some a) : a ∈ l := by
  have hn : n < l.length := lt_length_of_get?_eq_some h
  rw [List.get?_eq_getElem?, List.getElem?_eq_getElem hn] at h
  simp only [Option.some.injEq] at h
  rw [← h]
  exact List.getElem_mem hn

theorem rowSelAt_mem {r : PuzzleRow} {c : Int} (hneg : ¬c < 0)
    (hlen : c.toNat < r.cell_selection.length) :
    rowSelAt r c ∈ r.cell_selection := by
  unfold rowSelAt PuzzleRow.selection_at
  rw [if_neg hneg, List.get?_eq_getElem?, List.getElem?_eq_getElem hlen]
  simp only [Option.getD_some]
  exact List.getElem_mem hlen

theorem totalBits_setRow_le {p : Puzzle} {i : Nat} {row row' : PuzzleRow}
    (hget : p.rows.get? i = some row) (hle : rowBits row' ≤ rowBits row) :
    totalBits (p.setRow i row') ≤ totalBits p := by
  rw [totalBits_eq, totalBits_eq]
  unfold Puzzle.setRow
  simp only [List.map_set]
  refine sum_set_le _ _ _ ?_
  have hgd : (p.rows.map rowBits).getD i 0 = rowBits row := by
    rw [List.getD_eq_getElem?_getD, List.getElem?_map,
      ← List.get?_eq_getElem?, hget]
    rfl
  rw [hgd]
  exact hle

theorem totalBits_setRow_lt {p : Puzzle} {i : Nat} {row row' : PuzzleRow}
    (hget : p.rows.get? i = some row) (hlt : rowBits row' < rowBits row) :
    totalBits (p.setRow i row') < totalBits p := by
  rw [totalBits_eq, totalBits_eq]
  unfold Puzzle.setRow
  simp only [List.map_set]
  refine sum_set_lt _ _ _ (by simpa using lt_length_of_get?_eq_some hget) ?_
  have hgd : (p.rows.map rowBits).getD i 0 = rowBits row := by
    rw [List.getD_eq_getElem?_getD, List.getElem?_map,
      ← List.get?_eq_getElem?, hget]
    rfl
  rw [hgd]
  exact hlt

theorem applyAllRows_cons_some {p p' : Puzzle}
    {e : Nat × List (Int × Nat)} {rest : List (Nat × List (Int × Nat))}
    {N : Nat} {locs : List CellLoc}
    (h : applyAllRows p (e :: rest) = some (p', N, locs)) :
    ∃ row row' n cols m locs',
      p.rows.get? e.1 = some row
      ∧ applyRowPhase row e.2 p.iter_cols = some (row', n, cols)
      ∧ applyAllRows (p.setRow e.1 row') rest = some (p', m, locs')
      ∧ N = n + m
      ∧ locs = cols.map (fun c => CellLoc.mk e.1 c) ++ locs' := by
  unfold applyAllRows at h
  match hget : p.rows.get? e.1 with
  | none => rw [hget] at h; exact absurd h (by simp)
  | some row =>
      rw [hget] at h
      dsimp only at h
      match hrp : applyRowPhase row e.2 p.iter_cols with
      | none => rw [hrp] at h; exact absurd h (by simp)
      | some (row', n, cols) =>
          rw [hrp] at h
          dsimp only at h
          match hrec : applyAllRows (p.setRow e.1 row') rest with
          | none => rw [hrec] at h; exact absurd h (by simp)
          | some (p'0, m, locs'0) =>
              rw [hrec] at h
              simp only [Option.some.injEq, Prod.mk.injEq] at h
              obtain ⟨he, hN, hlocs⟩ := h
              exact ⟨row, row', n, cols, m, locs'0, rfl, hrp,
                by rw [hrec, he], hN.symm, hlocs.symm⟩

theorem applyAllRows_spec :
    ∀ {rs : List (Nat × List (Int × Nat))} {p p' : Puzzle} {N : Nat}
      {locs : List CellLoc},
      (rs.map Prod.fst).Nodup →
      (∀ e ∈ rs, ∃ row, p.rows.get? e.1 = some row
        ∧ e.2 = rowSolos row p.iter_cols) →
      applyAllRows p rs = some (p', N, locs) →
      totalBits p' ≤ totalBits p
      ∧ (N ≠ 0 → totalBits p' < totalBits p)
      ∧ (N = 0 → locs = [])
      ∧ (∀ l ∈ locs, l.row ∈ rs.map Prod.fst) := by
  intro rs
  induction rs with
  | nil =>
      intro p p' N locs _ _ h
      simp only [applyAllRows, Option.some.injEq, Prod.mk.injEq] at h
      obtain ⟨rfl, rfl, rfl⟩ := h
      exact ⟨le_refl _, fun h0 => absurd rfl h0, fun _ => rfl,
        fun l hl => absurd hl (List.not_mem_nil l)⟩
  | cons e rest ih =>
      intro p p' N locs hnd hscan h
      obtain ⟨row, row', n, cols, m, locs', hget, hrp, hrec, hN, hlocs⟩ :=
        applyAllRows_cons_some h
      obtain ⟨row0, hget0, hsolos0⟩ := hscan e (List.mem_cons_self e rest)
      rw [hget] at hget0
      rw [← Option.some.inj hget0] at hsolos0
      have hmemrow : ∀ s ∈ e.2, s.1 ∈ p.iter_cols
          ∧ (rowSelAt row s.1).is_enabled s.2 = true := by
        intro s hs
        rw [hsolos0] at hs
        obtain ⟨h1, h2⟩ := rowSolos_mem_cols_ones hs
        exact ⟨h1, (PuzzleCellSelection.mem_iter_ones _ _).mp h2⟩
      have hensc : ∀ io ∈ e.2, ∀ col ∈ p.iter_cols, io.1 = col →
          (rowSelAt row col).is_enabled io.2 = true := by
        intro io hio col _ heq
        rw [← heq]
        exact (hmemrow io hio).2
      have hle_row : rowBits row' ≤ rowBits row :=
        applyRowPhase_bits_le (iter_cols_nodup p) hensc hrp
      have hmid_le : totalBits (p.setRow e.1 row') ≤ totalBits p :=
        totalBits_setRow_le hget hle_row
      have hnd2 : (e.1 :: rest.map Prod.fst).Nodup := by
        rw [List.map_cons] at hnd
        exact hnd
      have hnd' : (rest.map Prod.fst).Nodup := (List.nodup_cons.mp hnd2).2
      have hkey : e.1 ∉ rest.map Prod.fst := (List.nodup_cons.mp hnd2).1
      have hscan' : ∀ e' ∈ rest,
          ∃ r2, (p.setRow e.1 row').rows.get? e'.1 = some r2
            ∧ e'.2 = rowSolos r2 (p.setRow e.1 row').iter_cols := by
        intro e' he'
        obtain ⟨r2, hg2, hs2⟩ := hscan e' (List.mem_cons_of_mem e he')
        have hne : e'.1 ≠ e.1 := fun heq =>
          hkey (heq ▸ List.mem_map_of_mem Prod.fst he')
        refine ⟨r2, ?_, ?_⟩
        · rw [setRow_get_ne hne]
          exact hg2
        · rw [setRow_iter_cols]
          exact hs2
      obtain ⟨ihle, ihlt, ihrep, ihprov⟩ := ih hnd' hscan' hrec
      refine ⟨le_trans ihle hmid_le, ?_, ?_, ?_⟩
      · intro hNne
        by_cases hn : n = 0
        · have hm : m ≠ 0 := by omega
          exact lt_of_lt_of_le (ihlt hm) hmid_le
        · have hsnd : e.2.Nodup := by
            rw [hsolos0]
            exact rowSolos_nodup _ _
          have hstrict : rowBits row' < rowBits row :=
            applyRowPhase_progress (iter_cols_nodup p) hsnd hmemrow hrp hn
          exact lt_of_le_of_lt ihle (totalBits_setRow_lt hget hstrict)
      · intro hN0
        have hn : n = 0 := by omega
        have hm : m = 0 := by omega
        rw [hn] at hrp
        obtain ⟨hcols0, -⟩ := applyRowPhase_rep0 hrp
        rw [hlocs, hcols0, ihrep hm]
        rfl
      · intro l hl
        rw [hlocs] at hl
        rw [List.map_cons]
        rcases List.mem_append.mp hl with h1 | h2
        · obtain ⟨c, -, hc⟩ := List.mem_map.mp h1
          rw [← hc]
          exact List.mem_cons_self _ _
        · exact List.mem_cons_of_mem _ (ihprov l h2)

theorem applyAllRows_wf :
    ∀ {rs : List (Nat × List (Int × Nat))} {p : Puzzle},
      p.wf →
      (∀ e ∈ rs, e.1 < p.rows.length) →
      (∀ e ∈ rs, ∀ io ∈ e.2, io.2 < p.max_column.toNat + 1) →
      ∃ p' N locs, applyAllRows p rs = some (p', N, locs)
        ∧ p'.wf ∧ p'.rows.length = p.rows.length
        ∧ p'.max_column = p.max_column := by
  intro rs
  induction rs with
  | nil =>
      intro p hwf _ _
      exact ⟨p, 0, [], rfl, hwf, rfl, rfl⟩
  | cons e rest ih =>
      intro p hwf hidx hbound
      have hlt : e.1 < p.rows.length := hidx e (List.mem_cons_self e rest)
      have hget : p.rows.get? e.1 = some (p.rows[e.1]) := by
        rw [List.get?_eq_getElem?, List.getElem?_eq_getElem hlt]
      have hrowmem : p.rows[e.1] ∈ p.rows := List.getElem_mem hlt
      obtain ⟨hrlen, hrcells⟩ := hwf.2 _ hrowmem
      have hcols : ∀ col ∈ p.iter_cols, ¬col < 0
          ∧ col.toNat < (p.rows[e.1]).cell_selection.length := by
        intro col hcol
        obtain ⟨h1, h2⟩ := mem_iter_cols hcol
        exact ⟨h1, by rw [hrlen]; exact h2⟩
      obtain ⟨row', n, cols, hrp, hlen', hwf', hans', hsub'⟩ :=
        applyRowPhase_wf hcols hrcells (hbound e (List.mem_cons_self e rest))
      have hwfmid : (p.setRow e.1 row').wf := by
        refine ⟨hwf.1, ?_⟩
        intro r hr
        have hr' : r ∈ p.rows.set e.1 row' := hr
        rcases List.mem_or_eq_of_mem_set hr' with hold | rfl
        · exact hwf.2 r hold
        · constructor
          · rw [setRow_max_column, hlen', hrlen]
          · exact hwf'
      have hidx' : ∀ e' ∈ rest, e'.1 < (p.setRow e.1 row').rows.length := by
        intro e' he'
        rw [setRow_rows_length]
        exact hidx e' (List.mem_cons_of_mem e he')
      have hbound' : ∀ e' ∈ rest, ∀ io ∈ e'.2,
          io.2 < (p.setRow e.1 row').max_column.toNat + 1 := by
        intro e' he' io hio
        rw [setRow_max_column]
        exact hbound e' (List.mem_cons_of_mem e he') io hio
      obtain ⟨p', m, locs, hrec, hwf2, hlen2, hmax2⟩ := ih hwfmid hidx' hbound'
      refine ⟨p', n + m, cols.map (fun c => CellLoc.mk e.1 c) ++ locs, ?_,
        hwf2, ?_, ?_⟩
      · unfold applyAllRows
        rw [hget]
        dsimp only
        rw [hrp]
        dsimp only
        rw [hrec]
      · rw [hlen2, setRow_rows_length]
      · rw [hmax2, setRow_max_column]

theorem traverseOpt_isSome {f : α → Option β} :
    ∀ {l : List α}, (∀ a ∈ l, (f a).isSome = true) →
      ∃ r, traverseOpt f l = some r := by
  intro l
  induction l with
  | nil => intro _; exact ⟨[], rfl⟩
  | cons a t ih =>
      intro h
      obtain ⟨b, hb⟩ :=
        Option.isSome_iff_exists.mp (h a (List.mem_cons_self a t))
      obtain ⟨r, hr⟩ := ih (fun x hx => h x (List.mem_cons_of_mem a hx))
      refine ⟨b :: r, ?_⟩
      unfold traverseOpt
      rw [hb]
      dsimp only
      rw [hr]

theorem traverseOpt_keys {f : α → Option (α × β)}
    (hf : ∀ a b, f a = some b → b.1 = a) :
    ∀ {l : List α} {r : List (α × β)}, traverseOpt f l = some r →
      r.map Prod.fst = l := by
  intro l
  induction l with
  | nil =>
      intro r h
      simp only [traverseOpt, Option.some.injEq] at h
      rw [← h]
      rfl
  | cons a t ih =>
      intro r h
      unfold traverseOpt at h
      match hfa : f a with
      | none => rw [hfa] at h; exact absurd h (by simp)
      | some b =>
          rw [hfa] at h
          dsimp only at h
          match ht : traverseOpt f t with
          | none => rw [ht] at h; exact absurd h (by simp)
          | some bs =>
              rw [ht] at h
              simp only [Option.some.injEq] at h
              rw [← h, List.map_cons, hf a b hfa, ih ht]

theorem oneInferenceStep_some {p p' : Puzzle}
    {considering changed : List CellLoc} {N : Nat}
    (h : oneInferenceStep p considering = some (p', N, changed)) :
    ∃ sr : List (Nat × List (Int × Nat)),
      traverseOpt (fun r => (p.rows.get? r).map
          (fun row => (r, rowSolos row p.iter_cols)))
        (uniqList (considering.map (fun l => l.row))) = some sr
      ∧ applyAllRows p (sr.filter (fun x => !x.2.isEmpty))
          = some (p', N, changed) := by
  unfold oneInferenceStep at h
  match htv : traverseOpt (fun r => (p.rows.get? r).map
      (fun row => (r, rowSolos row p.iter_cols)))
      (uniqList (considering.map (fun l => l.row))) with
  | none => rw [htv] at h; exact absurd h (by simp)
  | some sr =>
      rw [htv] at h
      dsimp only at h
      exact ⟨sr, htv, h⟩

theorem solosPerRow_keys {p : Puzzle} {cons : List CellLoc}
    {sr : List (Nat × List (Int × Nat))}
    (htv : traverseOpt (fun r => (p.rows.get? r).map
        (fun row => (r, rowSolos row p.iter_cols)))
      (uniqList (cons.map (fun l => l.row))) = some sr) :
    sr.map Prod.fst = uniqList (cons.map (fun l => l.row)) := by
  refine traverseOpt_keys ?_ htv
  intro a b hb
  simp only [Option.map_eq_some'] at hb
  obtain ⟨row, -, hbe⟩ := hb
  rw [← hbe]

theorem solosPerRow_scan {p : Puzzle} {cons : List CellLoc}
    {sr : List (Nat × List (Int × Nat))}
    (htv : traverseOpt (fun r => (p.rows.get? r).map
        (fun row => (r, rowSolos row p.iter_cols)))
      (uniqList (cons.map (fun l => l.row))) = some sr) :
    ∀ e ∈ sr, ∃ row, p.rows.get? e.1 = some row
      ∧ e.2 = rowSolos row p.iter_cols := by
  intro e he
  obtain ⟨a, -, hfa⟩ := traverseOpt_mem_right htv e he
  simp only [Option.map_eq_some'] at hfa
  obtain ⟨row, hget, hbe⟩ := hfa
  subst hbe
  exact ⟨row, hget, rfl⟩

theorem oneInferenceStep_le {p p' : Puzzle}
    {considering changed : List CellLoc} {N : Nat}
    (h : oneInferenceStep p considering = some (p', N, changed)) :
    totalBits p' ≤ totalBits p
    ∧ (N ≠ 0 → totalBits p' < totalBits p)
    ∧ (N = 0 → changed = [])
    ∧ (∀ l ∈ changed, l.row ∈ considering.map (fun l => l.row)) := by
  obtain ⟨sr, htv, happ⟩ := oneInferenceStep_some h
  have hkeys := solosPerRow_keys htv
  have hnd : ((sr.filter (fun x => !x.2.isEmpty)).map Prod.fst).Nodup := by
    refine List.Nodup.sublist ((List.filter_sublist sr).map Prod.fst) ?_
    rw [hkeys]
    exact nodup_uniqList _
  have hscan : ∀ e ∈ sr.filter (fun x => !x.2.isEmpty),
      ∃ row, p.rows.get? e.1 = some row ∧ e.2 = rowSolos row p.iter_cols :=
    fun e he => solosPerRow_scan htv e (List.mem_of_mem_filter he)
  obtain ⟨h1, h2, h3, h4⟩ := applyAllRows_spec hnd hscan happ
  refine ⟨h1, h2, h3, ?_⟩
  intro l hl
  have h5 := h4 l hl
  have h6 : l.row ∈ sr.map Prod.fst :=
    ((List.filter_sublist sr).map Prod.fst).subset h5
  rw [hkeys] at h6
  exact (mem_uniqList _ _).mp h6

theorem oneInferenceStep_wf {p : Puzzle} {considering : List CellLoc}
    (hwf : p.wf) (hval : ∀ l ∈ considering, l.row < p.rows.length) :
    ∃ p' N changed, oneInferenceStep p considering = some (p', N, changed)
      ∧ p'.wf ∧ p'.rows.length = p.rows.length
      ∧ p'.max_column = p.max_column := by
  have hsome : ∀ a ∈ uniqList (considering.map (fun l => l.row)),
      ((p.rows.get? a).map
        (fun row => (a, rowSolos row p.iter_cols))).isSome = true := by
    intro a ha
    rw [mem_uniqList] at ha
    obtain ⟨l, hl, rfl⟩ := List.mem_map.mp ha
    have hlt := hval l hl
    rw [List.get?_eq_getElem?, List.getElem?_eq_getElem hlt]
    rfl
  obtain ⟨sr, htv⟩ := traverseOpt_isSome hsome
  have hscan : ∀ e ∈ sr.filter (fun x => !x.2.isEmpty),
      ∃ row, p.rows.get? e.1 = some row ∧ e.2 = rowSolos row p.iter_cols :=
    fun e he => solosPerRow_scan htv e (List.mem_of_mem_filter he)
  have hidx : ∀ e ∈ sr.filter (fun x => !x.2.isEmpty),
      e.1 < p.rows.length := by
    intro e he
    obtain ⟨row, hget, -⟩ := hscan e he
    exact lt_length_of_get?_eq_some hget
  have hbound : ∀ e ∈ sr.filter (fun x => !x.2.isEmpty), ∀ io ∈ e.2,
      io.2 < p.max_column.toNat + 1 := by
    intro e he io hio
    obtain ⟨row, hget, hsolos⟩ := hscan e he
    rw [hsolos] at hio
    obtain ⟨h1, h2⟩ := rowSolos_mem_cols_ones hio
    obtain ⟨hneg, hltc⟩ := mem_iter_cols h1
    have hrowmem : row ∈ p.rows := get?_mem_of_eq_some hget
    obtain ⟨hrlen, hrcells⟩ := hwf.2 row hrowmem
    have hselmem : rowSelAt row io.1 ∈ row.cell_selection :=
      rowSelAt_mem hneg (by rw [hrlen]; exact hltc)
    exact mem_iter_ones_lt_width (hrcells _ hselmem) h2
  obtain ⟨p', N, locs, happ, hwf', hlen', hmax'⟩ :=
    applyAllRows_wf hwf hidx hbound
  refine ⟨p', N, locs, ?_, hwf', hlen', hmax'⟩
  unfold oneInferenceStep
  rw [htv]
  dsimp only
  exact happ

theorem runInferenceAux_le :
    ∀ {fuel : Nat} {p p' : Puzzle} {cons rest : List CellLoc} {N : Nat},
      runInferenceAux fuel p cons = some (p', N, rest) →
      totalBits p' ≤ totalBits p := by
  intro fuel
  induction fuel with
  | zero =>
      intro p p' cons rest N h
      simp only [runInferenceAux, Option.some.injEq, Prod.mk.injEq] at h
      rw [← h.1]
  | succ fuel ih =>
      intro p p' cons rest N h
      unfold runInferenceAux at h
      by_cases he : cons.isEmpty = true
      · rw [if_pos he] at h
        simp only [Option.some.injEq, Prod.mk.injEq] at h
        rw [← h.1]
      · rw [if_neg he] at h
        match hstep : oneInferenceStep p cons with
        | none => rw [hstep] at h; exact absurd h (by simp)
        | some (p1, n, changed) =>
            rw [hstep] at h
            dsimp only at h
            match hrec : runInferenceAux fuel p1 changed with
            | none => rw [hrec] at h; exact absurd h (by simp)
            | some (p2, m, rest2) =>
                rw [hrec] at h
                simp only [Option.some.injEq, Prod.mk.injEq] at h
                have h1 := (oneInferenceStep_le hstep).1
                have h2 := ih hrec
                rw [← h.1]
                omega

theorem runInferenceAux_term :
    ∀ {fuel : Nat} {p : Puzzle} {cons : List CellLoc},
      p.wf → (∀ l ∈ cons, l.row < p.rows.length) →
      totalBits p + 2 ≤ fuel →
      ∃ p' N, runInferenceAux fuel p cons = some (p', N, []) := by
  intro fuel
  induction fuel with
  | zero =>
      intro p cons _ _ hf
      omega
  | succ fuel ih =>
      intro p cons hwf hval hf
      by_cases he : cons.isEmpty = true
      · refine ⟨p, 0, ?_⟩
        unfold runInferenceAux
        rw [if_pos he]
      · obtain ⟨p1, n, changed, hstep, hwf1, hlen1, -⟩ :=
          oneInferenceStep_wf hwf hval
        obtain ⟨hle, hlt, hrep0, hprov⟩ := oneInferenceStep_le hstep
        have hval1 : ∀ l ∈ changed, l.row < p1.rows.length := by
          intro l hl
          rw [hlen1]
          obtain ⟨l0, hl0, he0⟩ := List.mem_map.mp (hprov l hl)
          rw [← he0]
          exact hval l0 hl0
        by_cases hn : n = 0
        · have hch : changed = [] := hrep0 hn
          obtain ⟨f, rfl⟩ : ∃ f, fuel = f + 1 := ⟨fuel - 1, by omega⟩
          have hnext : runInferenceAux (f + 1) p1 [] = some (p1, 0, []) := rfl
          refine ⟨p1, n + 0, ?_⟩
          unfold runInferenceAux
          rw [if_neg he, hstep]
          dsimp only
          rw [hch, hnext]
        · have hb : totalBits p1 + 2 ≤ fuel := by
            have hlt1 := hlt hn
            omega
          obtain ⟨p2, m, hrec⟩ := ih hwf1 hval1 hb
          refine ⟨p2, n + m, ?_⟩
          unfold runInferenceAux
          rw [if_neg he, hstep]
          dsimp only
          rw [hrec]

/-! ### Claims C2 and C3 -/

/-- **C2**: `run_inference` never increases the total number of
enabled candidate bits across the whole grid (whenever it completes
without panicking), and every `UpdateCellIndex` returned by a clue's
`advance_puzzle` (both `SameColumnClue` and `AdjacentColumnClue`)
carries only a `Clear` or `Solo` operation, never `Set` or `Toggle`. -/
theorem claim2_monotone_narrowing :
    (∀ (p : Puzzle) (seeds : List CellLoc) (p' : Puzzle) (N : Nat)
        (rest : List CellLoc),
      p.run_inference seeds = some (p', N, rest) →
      totalBits p' ≤ totalBits p)
    ∧ (∀ (c : SameColumnClue) (p : Puzzle) (u : UpdateCellIndex),
        c.advance_puzzle p = some (some u) →
        u.op = .Clear ∨ u.op = .Solo)
    ∧ (∀ (c : AdjacentColumnClue) (p : Puzzle) (u : UpdateCellIndex),
        c.advance_puzzle p = some (some u) →
        u.op = .Clear ∨ u.op = .Solo) := by
  refine ⟨?_, ?_, ?_⟩
  · intro p seeds p' N rest h
    exact runInferenceAux_le h
  · intro c p u h
    rcases sameColumn_advance_op h with h1 | h1
    · exact Or.inr h1
    · exact Or.inl h1
  · intro c p u h
    exact Or.inl (adjacent_advance_op_clear h)

def claim2Puzzle : Puzzle :=
  { rows := [{ cell_selection := [.Enabled [true, true], .Enabled [false, true]],
               cell_answers := [0, 1] }], max_column := 1 }

def claim2Result : Puzzle :=
  { rows := [{ cell_selection := [.Enabled [true, false], .Solo 2 1],
               cell_answers := [0, 1] }], max_column := 1 }

def claim2SCPuzzle : Puzzle :=
  { rows := [{ cell_selection := [.Enabled [true, true], .Enabled [true, true]],
               cell_answers := [0, 1] },
             { cell_selection := [.Solo 2 0, .Enabled [true, true]],
               cell_answers := [0, 1] }], max_column := 1 }

def claim2SCClue : SameColumnClue := ⟨⟨0, 0⟩, 1, none⟩

def claim2SCUpdate : UpdateCellIndex := ⟨⟨⟨0, 0⟩, 0⟩, .Solo⟩

def claim2AdjPuzzle : Puzzle :=
  { rows := [{ cell_selection := [.Enabled [true, true],
               .Enabled [false, false]], cell_answers := [0, 1] }],
    max_column := 1 }

def claim2AdjClue : AdjacentColumnClue := ⟨⟨0, 0⟩, ⟨0, 1⟩⟩

def claim2AdjUpdate : UpdateCellIndex := ⟨⟨⟨0, 0⟩, 1⟩, .Clear⟩

/-- Witness for C2 on concrete runs: a full inference run that shrinks
the bit count, a `SameColumnClue` advance returning a `Solo` update and
an `AdjacentColumnClue` advance returning a `Clear` update. -/
theorem claim2_witness :
    claim2Puzzle.run_inference [⟨0, 0⟩] = some (claim2Result, 1, [])
    ∧ totalBits claim2Result ≤ totalBits claim2Puzzle
    ∧ claim2SCClue.advance_puzzle claim2SCPuzzle = some (some claim2SCUpdate)
    ∧ (claim2SCUpdate.op = .Clear ∨ claim2SCUpdate.op = .Solo)
    ∧ claim2AdjClue.advance_puzzle claim2AdjPuzzle
        = some (some claim2AdjUpdate)
    ∧ (claim2AdjUpdate.op = .Clear ∨ claim2AdjUpdate.op = .Solo) :=
  ⟨by decide,
   claim2_monotone_narrowing.1 claim2Puzzle [⟨0, 0⟩] claim2Result 1 []
     (by decide),
   by decide,
   claim2_monotone_narrowing.2.1 claim2SCClue claim2SCPuzzle claim2SCUpdate
     (by decide),
   by decide,
   claim2_monotone_narrowing.2.2 claim2AdjClue claim2AdjPuzzle claim2AdjUpdate
     (by decide)⟩

/-- **C3**: on every well-formed puzzle state and every seed set of
in-range cells, `run_inference` terminates with the work set emptied:
the fuel `totalBits + 2` always suffices for the
`while !considering.is_empty()` loop to reach its fixed point, because
each step only clears candidate bits or pins a cell (never re-enables)
and any step that reports a change strictly decreases the total
enabled-bit count. -/
theorem claim3_inference_terminates (p : Puzzle) (seeds : List CellLoc)
    (hwf : p.wf) (hval : ∀ l ∈ seeds, l.row < p.rows.length) :
    ∃ p' N, p.run_inference seeds = some (p', N, []) :=
  runInferenceAux_term hwf hval (Nat.le_refl _)

def claim3Puzzle : Puzzle :=
  { rows := [{ cell_selection := [.Enabled [true, true], .Enabled [false, true]],
               cell_answers := [0, 1] }], max_column := 1 }

/-- Witness for C3 on a concrete puzzle and seed set. -/
theorem claim3_witness :
    claim3Puzzle.wf
    ∧ (∀ l ∈ [(⟨0, 0⟩ : CellLoc)], l.row < claim3Puzzle.rows.length)
    ∧ ∃ p' N, claim3Puzzle.run_inference [⟨0, 0⟩] = some (p', N, []) := by
  have hwf : claim3Puzzle.wf := by
    refine ⟨by decide, ?_⟩
    intro r hr
    simp only [claim3Puzzle, List.mem_singleton] at hr
    subst hr
    refine ⟨by decide, ?_⟩
    intro s hs
    simp only [List.mem_cons, List.not_mem_nil, or_false] at hs
    rcases hs with rfl | rfl <;> simp [selWF, claim3Puzzle]
  have hval : ∀ l ∈ [(⟨0, 0⟩ : CellLoc)], l.row < claim3Puzzle.rows.length := by
    intro l hl
    simp only [List.mem_singleton] at hl
    subst hl
    decide
  exact ⟨hwf, hval, claim3_inference_terminates claim3Puzzle [⟨0, 0⟩] hwf hval⟩

/-! ### Semantic-equivalence transfer (for the C1 idempotence argument) -/

open PuzzleCellSelection in
theorem selWF_width {s : PuzzleCellSelection} {W : Nat} (h : selWF s W) :
    s.width = W := by
  cases s with
  | Enabled l => exact h
  | Solo w j => exact h.1
  | Void => exact absurd h (by simp [selWF])

open PuzzleCellSelection in
theorem selWF_not_void {s : PuzzleCellSelection} {W : Nat} (h : selWF s W) :
    s.is_void = false := by
  cases s with
  | Enabled l => rfl
  | Solo w j => rfl
  | Void => exact absurd h (by simp [selWF])

open PuzzleCellSelection in
theorem count_eq_of_enabled_eq {s t : PuzzleCellSelection}
    (h : ∀ k, s.is_enabled k = t.is_enabled k) :
    s.count_ones = t.count_ones := by
  rw [count_ones_eq_length_iter_ones, count_ones_eq_length_iter_ones,
    iter_ones_eq_of_enabled_eq h]

open PuzzleCellSelection in
theorem apply_clear_some_lt {s : PuzzleCellSelection} {W i : Nat}
    {x : PuzzleCellSelection × Nat}
    (hwf : selWF s W) (h : s.apply i .Clear = some x) : i < W := by
  cases s with
  | Void => exact absurd hwf (by simp [selWF])
  | Enabled l =>
      simp only [apply, is_void_enabled, Bool.false_eq_true, if_false,
        reduceCtorEq, if_neg, applyEnabled, fbsRemove] at h
      by_cases hi : i < l.length
      · exact hwf ▸ hi
      · rw [if_neg hi] at h
        exact absurd h (by simp)
  | Solo w j =>
      simp only [apply, is_void_solo, Bool.false_eq_true, if_false,
        reduceCtorEq, if_neg, fbsInsert, List.length_replicate] at h
      by_cases hj : j < w
      · rw [if_pos hj] at h
        simp only [Option.some_bind, applyEnabled, fbsRemove,
          List.length_set, List.length_replicate] at h
        by_cases hi : i < w
        · exact hwf.1 ▸ hi
        · rw [if_neg hi] at h
          exact absurd h (by simp)
      · rw [if_neg hj] at h
        exact absurd h (by simp)

open PuzzleCellSelection in
theorem apply_equiv {s t s' : PuzzleCellSelection} {W i n : Nat}
    {op : UpdateCellIndexOperation}
    (hws : selWF s W) (hwt : selWF t W)
    (heq : ∀ k, s.is_enabled k = t.is_enabled k)
    (hop : op = .Clear ∨ op = .Solo) (hi : i < W)
    (h : s.apply i op = some (s', n)) :
    ∃ t', t.apply i op = some (t', n) ∧ selWF t' W
      ∧ ∀ k, s'.is_enabled k = t'.is_enabled k := by
  have hcnt : s.count_ones = t.count_ones := count_eq_of_enabled_eq heq
  rcases hop with rfl | rfl
  · obtain ⟨t', m, ht, hwt', -⟩ := apply_wf t W i .Clear hwt hi
    obtain ⟨-, -, hei, hek, hn, -⟩ := apply_clear_spec h
    obtain ⟨-, -, hei', hek', hm, -⟩ := apply_clear_spec ht
    have hnm : n = m := by rw [hn, hm, heq i]
    refine ⟨t', by rw [ht, hnm], hwt', ?_⟩
    intro k
    by_cases hk : k = i
    · rw [hk, hei, hei']
    · rw [hek k hk, hek' k hk, heq k]
  · rcases apply_solo_spec h with ⟨hv, -, -⟩ | ⟨-, rfl, hn⟩
    · rw [hv] at hws
      exact absurd hws (by simp [selWF])
    · have htv : t.is_void = false := selWF_not_void hwt
      have hta : t.apply i .Solo
          = some (.Solo t.width i,
              if t.is_enabled i then t.count_ones - 1
              else t.count_ones + 1) := by
        unfold apply
        rw [htv]
        simp
      refine ⟨.Solo t.width i, ?_, ⟨selWF_width hwt, hi⟩, ?_⟩
      · rw [hta, hn, heq i, hcnt]
      · intro k
        rfl

open PuzzleCellSelection in
theorem applyOps_equiv :
    ∀ {ops : List (Nat × UpdateCellIndexOperation)}
      {s t s' : PuzzleCellSelection} {W N : Nat},
      selWF s W → selWF t W →
      (∀ k, s.is_enabled k = t.is_enabled k) →
      (∀ io ∈ ops, (io.2 = UpdateCellIndexOperation.Clear
          ∨ io.2 = UpdateCellIndexOperation.Solo) ∧ io.1 < W) →
      applyOps s ops = some (s', N) →
      ∃ t', applyOps t ops = some (t', N) ∧ selWF t' W
        ∧ ∀ k, s'.is_enabled k = t'.is_enabled k := by
  intro ops
  induction ops with
  | nil =>
      intro s t s' W N hws hwt heq _ h
      simp only [applyOps, Option.some.injEq, Prod.mk.injEq] at h
      exact ⟨t, by rw [← h.2]; rfl, hwt, by rw [← h.1]; exact heq⟩
  | cons io rest ih =>
      intro s t s'' W N hws hwt heq hops h
      obtain ⟨s', n, m, ha, hr, rfl⟩ := applyOps_cons_some h
      obtain ⟨hcsolo, hilt⟩ := hops io (List.mem_cons_self io rest)
      have hwfs' : selWF s' W := by
        obtain ⟨s'0, n0, h0, hwf0, -⟩ := apply_wf s W io.1 io.2 hws hilt
        rw [ha] at h0
        have hse : s' = s'0 := congrArg Prod.fst (Option.some.inj h0)
        rw [hse]
        exact hwf0
      obtain ⟨t', hta, hwt', heq'⟩ := apply_equiv hws hwt heq hcsolo hilt ha
      obtain ⟨t'', htr, hwt'', heq''⟩ :=
        ih hwfs' hwt' heq' (fun a hb => hops a (List.mem_cons_of_mem io hb)) hr
      refine ⟨t'', ?_, hwt'', heq''⟩
      unfold applyOps
      rw [hta]
      dsimp only
      rw [htr]

theorem applyRowPhase_length {solos : List (Int × Nat)} :
    ∀ {cols : List Int} {r r' : PuzzleRow} {N : Nat} {chs : List Int},
      applyRowPhase r solos cols = some (r', N, chs) →
      r'.cell_selection.length = r.cell_selection.length := by
  intro cols
  induction cols with
  | nil =>
      intro r r' N chs h
      simp only [applyRowPhase, Option.some.injEq, Prod.mk.injEq] at h
      rw [← h.1]
  | cons col rest ih =>
      intro r r' N chs h
      obtain ⟨sel, sel', n, m, chs', hsel, hops, hrec, -, -⟩ :=
        applyRowPhase_cons_some h
      have h1 := ih hrec
      rw [h1]
      unfold PuzzleRow.setCell
      simp

theorem selection_at_eq_rowSelAt {r : PuzzleRow} {col : Int} (hneg : ¬col < 0)
    (hlen : col.toNat < r.cell_selection.length) :
    r.selection_at col = some (rowSelAt r col) := by
  unfold rowSelAt PuzzleRow.selection_at
  simp only [if_neg hneg, List.get?_eq_getElem?, List.getElem?_eq_getElem hlen]
  rfl

open PuzzleCellSelection in
theorem applyRowPhase_equiv {solos : List (Int × Nat)} {W : Nat} :
    ∀ {cols : List Int} {r1 r2 r1' : PuzzleRow} {N : Nat} {chs : List Int},
      (∀ s ∈ r1.cell_selection, selWF s W) →
      (∀ s ∈ r2.cell_selection, selWF s W) →
      r1.cell_selection.length = r2.cell_selection.length →
      (∀ col k, (rowSelAt r1 col).is_enabled k
          = (rowSelAt r2 col).is_enabled k) →
      (∀ io ∈ solos, io.2 < W) →
      applyRowPhase r1 solos cols = some (r1', N, chs) →
      ∃ r2', applyRowPhase r2 solos cols = some (r2', N, chs)
        ∧ r1'.cell_selection.length = r2'.cell_selection.length
        ∧ ∀ col k, (rowSelAt r1' col).is_enabled k
            = (rowSelAt r2' col).is_enabled k := by
  intro cols
  induction cols with
  | nil =>
      intro r1 r2 r1' N chs _ _ hlen heq _ h
      simp only [applyRowPhase, Option.some.injEq, Prod.mk.injEq] at h
      obtain ⟨rfl, rfl, rfl⟩ := h
      exact ⟨r2, rfl, hlen, heq⟩
  | cons col rest ih =>
      intro r1 r2 r1' N chs hw1 hw2 hlen heq hbound h
      obtain ⟨sel, sel', n, m, chs', hsel, hops, hrec, hN, hchs⟩ :=
        applyRowPhase_cons_some h
      obtain ⟨hneg, hl1, hrsa, -⟩ := selection_at_some hsel
      have hl2 : col.toNat < r2.cell_selection.length := hlen ▸ hl1
      have hselwf1 : selWF sel W := by
        rw [← hrsa]
        exact hw1 _ (rowSelAt_mem hneg hl1)
      have hselwf2 : selWF (rowSelAt r2 col) W :=
        hw2 _ (rowSelAt_mem hneg hl2)
      have hopcond : ∀ io ∈ solos.map (fun io => opFor io col),
          (io.2 = UpdateCellIndexOperation.Clear
            ∨ io.2 = UpdateCellIndexOperation.Solo) ∧ io.1 < W := by
        intro io hio
        refine ⟨opFor_clear_or_solo solos col io hio, ?_⟩
        obtain ⟨u, hu, hfst, -⟩ := opFor_mem_cases hio
        rw [hfst]
        exact hbound u hu
      have heqcol : ∀ k, sel.is_enabled k = (rowSelAt r2 col).is_enabled k := by
        intro k
        rw [← hrsa]
        exact heq col k
      obtain ⟨t', htops, hwt', heq'⟩ :=
        applyOps_equiv hselwf1 hselwf2 heqcol hopcond hops
      have hsel'wf : selWF sel' W := by
        obtain ⟨s'0, n0, h0, hwf0⟩ := applyOps_wf sel W hselwf1
          (fun a hb => (hopcond a hb).2)
        rw [hops] at h0
        have hse : sel' = s'0 := congrArg Prod.fst (Option.some.inj h0)
        rw [hse]
        exact hwf0
      have hw1' : ∀ s ∈ (r1.setCell col sel').cell_selection, selWF s W := by
        intro s hs
        have hs' : s ∈ r1.cell_selection.set col.toNat sel' := hs
        rcases List.mem_or_eq_of_mem_set hs' with hold | rfl
        · exact hw1 s hold
        · exact hsel'wf
      have hw2' : ∀ s ∈ (r2.setCell col t').cell_selection, selWF s W := by
        intro s hs
        have hs' : s ∈ r2.cell_selection.set col.toNat t' := hs
        rcases List.mem_or_eq_of_mem_set hs' with hold | rfl
        · exact hw2 s hold
        · exact hwt'
      have hlen' : (r1.setCell col sel').cell_selection.length
          = (r2.setCell col t').cell_selection.length := by
        unfold PuzzleRow.setCell
        simp [hlen]
      have heqset : ∀ c k, (rowSelAt (r1.setCell col sel') c).is_enabled k
          = (rowSelAt (r2.setCell col t') c).is_enabled k := by
        intro c k
        by_cases hc : c = col
        · subst hc
          rw [rowSelAt_setCell_self hneg hl1, rowSelAt_setCell_self hneg hl2]
          exact heq' k
        · rw [rowSelAt_setCell_ne hneg hc, rowSelAt_setCell_ne hneg hc]
          exact heq c k
      obtain ⟨r2', hrec2, hlen'', heq''⟩ :=
        ih hw1' hw2' hlen' heqset hbound hrec
      refine ⟨r2', ?_, hlen'', heq''⟩
      unfold applyRowPhase
      rw [selection_at_eq_rowSelAt hneg hl2]
      dsimp only
      rw [htops]
      dsimp only
      rw [hrec2, hN, hchs]

theorem filterMap_congr {f g : α → Option β} :
    ∀ {l : List α}, (∀ a ∈ l, f a = g a) → l.filterMap f = l.filterMap g := by
  intro l
  induction l with
  | nil => intro _; rfl
  | cons a t ih =>
      intro h
      simp only [List.filterMap_cons]
      rw [h a (List.mem_cons_self a t),
        ih (fun x hx => h x (List.mem_cons_of_mem a hx))]

theorem flatMap_congr {f g : α → List β} :
    ∀ {l : List α}, (∀ a ∈ l, f a = g a) → l.flatMap f = l.flatMap g := by
  intro l
  induction l with
  | nil => intro _; rfl
  | cons a t ih =>
      intro h
      simp only [List.flatMap_cons]
      rw [h a (List.mem_cons_self a t),
        ih (fun x hx => h x (List.mem_cons_of_mem a hx))]

theorem rowSolos_congr {r1 r2 : PuzzleRow} (cols : List Int)
    (h : ∀ col, (rowSelAt r1 col).iter_ones = (rowSelAt r2 col).iter_ones) :
    rowSolos r1 cols = rowSolos r2 cols := by
  have hn : nakedSingles r1 cols = nakedSingles r2 cols := by
    unfold nakedSingles
    exact filterMap_congr (fun c _ => by rw [h c])
  have hcw : ∀ i, colsWith r1 cols i = colsWith r2 cols i := by
    intro i
    unfold colsWith
    exact List.filter_congr (fun c _ => by rw [h c])
  have hh : hiddenSingles r1 cols = hiddenSingles r2 cols := by
    unfold hiddenSingles
    rw [flatMap_congr (fun c _ => h c)]
    exact filterMap_congr (fun i _ => by rw [hcw i])
  unfold rowSolos
  rw [hn, hh]

/-- A row is quiet when replaying its own scan against it reports no
changes. -/
def rowQuiet (p : Puzzle) (i : Nat) : Prop :=
  ∀ row, p.rows.get? i = some row →
    ∃ row' chs, applyRowPhase row (rowSolos row p.iter_cols) p.iter_cols
      = some (row', 0, chs)

theorem applyRowPhase_chs_nil {solos : List (Int × Nat)} :
    ∀ {cols : List Int} {r r' : PuzzleRow} {N : Nat},
      applyRowPhase r solos cols = some (r', N, []) → N = 0 := by
  intro cols
  induction cols with
  | nil =>
      intro r r' N h
      simp only [applyRowPhase, Option.some.injEq, Prod.mk.injEq] at h
      omega
  | cons col rest ih =>
      intro r r' N h
      obtain ⟨sel, sel', n, m, chs', hsel, hops, hrec, hN, hchs⟩ :=
        applyRowPhase_cons_some h
      by_cases hn : n = 0
      · rw [if_pos hn] at hchs
        rw [← hchs] at hrec
        have hm := ih hrec
        omega
      · rw [if_neg hn] at hchs
        exact absurd hchs.symm (List.cons_ne_nil col chs')

theorem applyAllRows_untouched :
    ∀ {rs : List (Nat × List (Int × Nat))} {p p' : Puzzle} {N : Nat}
      {locs : List CellLoc},
      applyAllRows p rs = some (p', N, locs) →
      ∀ j, j ∉ rs.map Prod.fst → p'.rows.get? j = p.rows.get? j := by
  intro rs
  induction rs with
  | nil =>
      intro p p' N locs h j _
      simp only [applyAllRows, Option.some.injEq, Prod.mk.injEq] at h
      rw [← h.1]
  | cons e rest ih =>
      intro p p' N locs h j hj
      obtain ⟨row, row', n, cols, m, locs', hget, hrp, hrec, -, -⟩ :=
        applyAllRows_cons_some h
      rw [List.map_cons] at hj
      have hj1 : j ≠ e.1 := fun he => hj (he ▸ List.mem_cons_self _ _)
      have hj2 : j ∉ rest.map Prod.fst :=
        fun hm => hj (List.mem_cons_of_mem _ hm)
      rw [ih hrec j hj2, setRow_get_ne hj1]

theorem eq_of_mem_nodup_keys :
    ∀ {l : List (α × β)}, (l.map Prod.fst).Nodup →
      ∀ {a b : α × β}, a ∈ l → b ∈ l → a.1 = b.1 → a = b := by
  intro l
  induction l with
  | nil => intro _ a b ha _ _; exact absurd ha (List.not_mem_nil a)
  | cons x t ih =>
      intro hnd a b ha hb hab
      rw [List.map_cons] at hnd
      obtain ⟨hx, ht⟩ := List.nodup_cons.mp hnd
      rcases List.mem_cons.mp ha with rfl | hat
      · rcases List.mem_cons.mp hb with rfl | hbt
        · rfl
        · exact absurd (hab ▸ List.mem_map_of_mem Prod.fst hbt) hx
      · rcases List.mem_cons.mp hb with rfl | hbt
        · exact absurd (hab ▸ List.mem_map_of_mem Prod.fst hat) hx
        · exact ih ht hat hbt hab

theorem applyAllRows_final :
    ∀ {rs : List (Nat × List (Int × Nat))} {p p' : Puzzle} {N : Nat}
      {locs : List CellLoc},
      (rs.map Prod.fst).Nodup →
      applyAllRows p rs = some (p', N, locs) →
      ∀ e ∈ rs, ∃ row row' n chs,
        p.rows.get? e.1 = some row
        ∧ applyRowPhase row e.2 p.iter_cols = some (row', n, chs)
        ∧ p'.rows.get? e.1 = some row'
        ∧ (e.1 ∉ locs.map (fun l => l.row) → n = 0) := by
  intro rs
  induction rs with
  | nil => intro p p' N locs _ _ e he; exact absurd he (List.not_mem_nil e)
  | cons e0 rest ih =>
      intro p p' N locs hnd h e he
      obtain ⟨row, row', n, cols, m, locs', hget, hrp, hrec, hN, hlocs⟩ :=
        applyAllRows_cons_some h
      rw [List.map_cons] at hnd
      rcases List.mem_cons.mp he with rfl | hrest
      · refine ⟨row, row', n, cols, hget, hrp, ?_, ?_⟩
        · rw [applyAllRows_untouched hrec e.1 (List.nodup_cons.mp hnd).1]
          have hlt := lt_length_of_get?_eq_some hget
          unfold Puzzle.setRow
          simp only [List.get?_eq_getElem?]
          rw [List.getElem?_set_self', List.getElem?_eq_getElem hlt]
          rfl
        · intro hnm
          rw [hlocs] at hnm
          by_cases hcols : cols = []
          · exact applyRowPhase_chs_nil (hcols ▸ hrp)
          · exfalso
            obtain ⟨c, hc⟩ := List.exists_mem_of_ne_nil cols hcols
            refine hnm ?_
            rw [List.map_append]
            refine List.mem_append_left _ ?_
            exact List.mem_map.mpr ⟨CellLoc.mk e.1 c,
              List.mem_map.mpr ⟨c, hc, rfl⟩, rfl⟩
      · have hnd' := (List.nodup_cons.mp hnd).2
        obtain ⟨row2, row2', n2, chs2, hg2, hrp2, hg2', hrep2⟩ :=
          ih hnd' hrec e hrest
        have hne : e.1 ≠ e0.1 := fun heq =>
          (List.nodup_cons.mp hnd).1 (heq ▸ List.mem_map_of_mem Prod.fst hrest)
        rw [setRow_iter_cols] at hrp2
        refine ⟨row2, row2', n2, chs2, ?_, hrp2, hg2', ?_⟩
        · rw [← setRow_get_ne hne]
          exact hg2
        · intro hnm
          refine hrep2 ?_
          intro hmem
          refine hnm ?_
          rw [hlocs, List.map_append]
          exact List.mem_append_right _ hmem

theorem oneInferenceStep_final {p p' : Puzzle}
    {considering changed : List CellLoc} {N : Nat}
    (h : oneInferenceStep p considering = some (p', N, changed)) :
    (∀ j, j ∉ considering.map (fun l => l.row) →
      p'.rows.get? j = p.rows.get? j)
    ∧ ∀ i ∈ considering.map (fun l => l.row), ∀ row,
        p.rows.get? i = some row →
        (rowSolos row p.iter_cols = [] ∧ p'.rows.get? i = p.rows.get? i)
        ∨ ∃ row' n chs,
            applyRowPhase row (rowSolos row p.iter_cols) p.iter_cols
              = some (row', n, chs)
            ∧ p'.rows.get? i = some row'
            ∧ (i ∉ changed.map (fun l => l.row) → n = 0) := by
  obtain ⟨sr, htv, happ⟩ := oneInferenceStep_some h
  have hkeys := solosPerRow_keys htv
  have hndk : (sr.map Prod.fst).Nodup := by
    rw [hkeys]
    exact nodup_uniqList _
  have hndf : ((sr.filter (fun x => !x.2.isEmpty)).map Prod.fst).Nodup :=
    List.Nodup.sublist ((List.filter_sublist sr).map Prod.fst) hndk
  constructor
  · intro j hj
    refine applyAllRows_untouched happ j ?_
    intro hm
    refine hj ?_
    have h6 : j ∈ sr.map Prod.fst :=
      ((List.filter_sublist sr).map Prod.fst).subset hm
    rw [hkeys] at h6
    exact (mem_uniqList _ _).mp h6
  · intro i hi row hrow
    have hiu : i ∈ uniqList (considering.map (fun l => l.row)) :=
      (mem_uniqList _ _).mpr hi
    obtain ⟨e, he, hfe⟩ := traverseOpt_mem_left htv i hiu
    rw [hrow] at hfe
    simp only [Option.map_some', Option.some.injEq] at hfe
    by_cases hemp : e.2.isEmpty = true
    · left
      have hsol : rowSolos row p.iter_cols = [] := by
        rw [← hfe] at hemp
        simpa using hemp
      refine ⟨hsol, ?_⟩
      refine applyAllRows_untouched happ i ?_
      intro hm
      obtain ⟨e', he'f, he'1⟩ := List.mem_map.mp hm
      have he'sr : e' ∈ sr := List.mem_of_mem_filter he'f
      have hee : e' = e := eq_of_mem_nodup_keys hndk he'sr he
        (by rw [he'1, ← hfe])
      have hpred := (List.mem_filter.mp he'f).2
      rw [hee] at hpred
      rw [hemp] at hpred
      exact absurd hpred (by simp)
    · right
      have hef : e ∈ sr.filter (fun x => !x.2.isEmpty) :=
        List.mem_filter.mpr ⟨he, by simpa using hemp⟩
      obtain ⟨row2, row2', n, chs, hg2, hrp2, hg2', hrep⟩ :=
        applyAllRows_final hndf happ e hef
      rw [← hfe] at hg2 hrp2 hg2' hrep
      dsimp only at hg2 hrp2 hg2' hrep
      rw [hrow] at hg2
      rw [← Option.some.inj hg2] at hrp2
      exact ⟨row2', n, chs, hrp2, hg2', hrep⟩

theorem iter_cols_eq_of_max {p q : Puzzle} (h : p.max_column = q.max_column) :
    p.iter_cols = q.iter_cols := by
  unfold Puzzle.iter_cols
  rw [h]

theorem oneInferenceStep_wf_of_eq {p p1 : Puzzle} {cons ch : List CellLoc}
    {n : Nat}
    (hwf : p.wf) (hval : ∀ l ∈ cons, l.row < p.rows.length)
    (hstep : oneInferenceStep p cons = some (p1, n, ch)) :
    p1.wf ∧ p1.rows.length = p.rows.length
      ∧ p1.max_column = p.max_column := by
  obtain ⟨p', N, ch', hstep', hwf', hlen', hmax'⟩ := oneInferenceStep_wf hwf hval
  rw [hstep] at hstep'
  have h1 := Option.some.inj hstep'
  have hp : p1 = p' := congrArg Prod.fst h1
  rw [hp]
  exact ⟨hwf', hlen', hmax'⟩

theorem rowQuiet_of_no_solos {p1 : Puzzle} {i : Nat} (hwf1 : p1.wf)
    (hsol : ∀ row, p1.rows.get? i = some row →
      rowSolos row p1.iter_cols = []) :
    rowQuiet p1 i := by
  intro row hrow
  rw [hsol row hrow]
  have hrowmem : row ∈ p1.rows := get?_mem_of_eq_some hrow
  obtain ⟨hrlen, hrcells⟩ := hwf1.2 row hrowmem
  have hcolsv : ∀ col ∈ p1.iter_cols, ¬col < 0
      ∧ col.toNat < row.cell_selection.length := by
    intro col hcol
    obtain ⟨h1, h2⟩ := mem_iter_cols hcol
    exact ⟨h1, by rw [hrlen]; exact h2⟩
  obtain ⟨row', N, chs, hph, -, -, -, -⟩ :=
    applyRowPhase_wf hcolsv hrcells
      (fun io hio => absurd hio (List.not_mem_nil io))
  have hN : N = 0 := by
    refine applyRowPhase_quiet (iter_cols_nodup p1) ?_ hph
    intro col hcol sel' n happ
    simp only [List.map_nil] at happ
    simp only [applyOps, Option.some.injEq, Prod.mk.injEq] at happ
    omega
  rw [hN] at hph
  exact ⟨row', chs, hph⟩

theorem rowQuiet_of_rep0 {p p1 : Puzzle} {i : Nat} {row row' : PuzzleRow}
    {chs : List Int}
    (hwf : p.wf) (hrowp : p.rows.get? i = some row)
    (hph : applyRowPhase row (rowSolos row p.iter_cols) p.iter_cols
      = some (row', 0, chs))
    (hg1 : p1.rows.get? i = some row')
    (hcols : p1.iter_cols = p.iter_cols) :
    rowQuiet p1 i := by
  intro row0 hrow0
  rw [hg1] at hrow0
  rw [← Option.some.inj hrow0, hcols]
  have hrowmem : row ∈ p.rows := get?_mem_of_eq_some hrowp
  obtain ⟨hrlen, hrcells⟩ := hwf.2 row hrowmem
  have hbound : ∀ io ∈ rowSolos row p.iter_cols,
      io.2 < p.max_column.toNat + 1 := by
    intro io hio
    obtain ⟨h1, h2⟩ := rowSolos_mem_cols_ones hio
    obtain ⟨hneg, hltc⟩ := mem_iter_cols h1
    have hselmem : rowSelAt row io.1 ∈ row.cell_selection :=
      rowSelAt_mem hneg (by rw [hrlen]; exact hltc)
    exact mem_iter_ones_lt_width (hrcells _ hselmem) h2
  have hcolsv : ∀ col ∈ p.iter_cols, ¬col < 0
      ∧ col.toNat < row.cell_selection.length := by
    intro col hcol
    obtain ⟨h1, h2⟩ := mem_iter_cols hcol
    exact ⟨h1, by rw [hrlen]; exact h2⟩
  obtain ⟨r'', N'', chs'', hph'', hlen'', hwf'', -, -⟩ :=
    applyRowPhase_wf hcolsv hrcells hbound
  rw [hph] at hph''
  have hre : row' = r'' := congrArg Prod.fst (Option.some.inj hph'')
  rw [← hre] at hlen'' hwf''
  obtain ⟨-, hall⟩ := applyRowPhase_rep0 hph
  have heq : ∀ col k, (rowSelAt row col).is_enabled k
      = (rowSelAt row' col).is_enabled k :=
    fun col k => ((hall col).2.2.1 k).symm
  obtain ⟨r2', hph2, -, -⟩ :=
    applyRowPhase_equiv hrcells hwf'' hlen''.symm heq hbound hph
  have hscan : rowSolos row' p.iter_cols = rowSolos row p.iter_cols :=
    rowSolos_congr _ (fun col => (hall col).1)
  rw [hscan]
  exact ⟨r2', chs, hph2⟩

theorem runInferenceAux_fixed :
    ∀ {fuel : Nat} {p p' : Puzzle} {cons rest : List CellLoc} {u : Nat},
      p.wf → (∀ l ∈ cons, l.row < p.rows.length) →
      runInferenceAux fuel p cons = some (p', u, rest) →
      p'.wf ∧ p'.rows.length = p.rows.length
      ∧ p'.max_column = p.max_column
      ∧ (∀ j, j ∉ cons.map (fun l => l.row) →
          p'.rows.get? j = p.rows.get? j)
      ∧ (rest = [] → ∀ i ∈ cons.map (fun l => l.row), rowQuiet p' i) := by
  intro fuel
  induction fuel with
  | zero =>
      intro p p' cons rest u hwf hval h
      simp only [runInferenceAux, Option.some.injEq, Prod.mk.injEq] at h
      obtain ⟨rfl, -, rfl⟩ := h
      refine ⟨hwf, rfl, rfl, fun j _ => rfl, ?_⟩
      intro hrest i hi
      rw [hrest] at hi
      exact absurd hi (by simp)
  | succ fuel ih =>
      intro p p' cons rest u hwf hval h
      unfold runInferenceAux at h
      by_cases he : cons.isEmpty = true
      · rw [if_pos he] at h
        simp only [Option.some.injEq, Prod.mk.injEq] at h
        obtain ⟨rfl, -, rfl⟩ := h
        refine ⟨hwf, rfl, rfl, fun j _ => rfl, ?_⟩
        intro _ i hi
        have hc : cons = [] := List.isEmpty_iff.mp he
        rw [hc] at hi
        exact absurd hi (by simp)
      · rw [if_neg he] at h
        match hstep : oneInferenceStep p cons with
        | none => rw [hstep] at h; exact absurd h (by simp)
        | some (p1, n, changed) =>
            rw [hstep] at h
            dsimp only at h
            match hrec : runInferenceAux fuel p1 changed with
            | none => rw [hrec] at h; exact absurd h (by simp)
            | some (p2, m, rest2) =>
                rw [hrec] at h
                simp only [Option.some.injEq, Prod.mk.injEq] at h
                obtain ⟨rfl, -, rfl⟩ := h
                obtain ⟨hwf1, hlen1, hmax1⟩ :=
                  oneInferenceStep_wf_of_eq hwf hval hstep
                obtain ⟨huntS, hcaseS⟩ := oneInferenceStep_final hstep
                have hprov := (oneInferenceStep_le hstep).2.2.2
                have hval1 : ∀ l ∈ changed, l.row < p1.rows.length := by
                  intro l hl
                  rw [hlen1]
                  obtain ⟨l0, hl0, he0⟩ := List.mem_map.mp (hprov l hl)
                  rw [← he0]
                  exact hval l0 hl0
                obtain ⟨hwf2, hlen2, hmax2, hunt2, hq2⟩ := ih hwf1 hval1 hrec
                have hchsub : ∀ j, j ∈ changed.map (fun l => l.row) →
                    j ∈ cons.map (fun l => l.row) := by
                  intro j hj
                  obtain ⟨l, hl, hjl⟩ := List.mem_map.mp hj
                  rw [← hjl]
                  exact hprov l hl
                refine ⟨hwf2, by rw [hlen2, hlen1], by rw [hmax2, hmax1],
                  ?_, ?_⟩
                · intro j hj
                  have hj1 : j ∉ changed.map (fun l => l.row) :=
                    fun hm => hj (hchsub j hm)
                  rw [hunt2 j hj1, huntS j hj]
                · intro hrest i hi
                  by_cases hic : i ∈ changed.map (fun l => l.row)
                  · exact hq2 hrest i hic
                  · obtain ⟨row, hrowp⟩ : ∃ row, p.rows.get? i = some row := by
                      obtain ⟨l0, hl0, he0⟩ := List.mem_map.mp hi
                      have hlt : i < p.rows.length := by
                        rw [← he0]
                        exact hval l0 hl0
                      exact ⟨p.rows[i], by
                        rw [List.get?_eq_getElem?,
                          List.getElem?_eq_getElem hlt]⟩
                    have hq1 : rowQuiet p1 i := by
                      rcases hcaseS i hi row hrowp with
                        ⟨hsol, hunch⟩ | ⟨row', n0, chs, hph, hg1, hrep⟩
                      · refine rowQuiet_of_no_solos hwf1 ?_
                        intro row0 hrow0
                        rw [hunch, hrowp] at hrow0
                        rw [← Option.some.inj hrow0,
                          iter_cols_eq_of_max hmax1]
                        exact hsol
                      · have hn0 : n0 = 0 := hrep hic
                        rw [hn0] at hph
                        exact rowQuiet_of_rep0 hwf hrowp hph hg1
                          (iter_cols_eq_of_max hmax1)
                    intro row0 hrow0
                    rw [hunt2 i hic] at hrow0
                    obtain ⟨row'', chs'', hq⟩ := hq1 row0 hrow0
                    exact ⟨row'', chs'', by
                      rw [iter_cols_eq_of_max hmax2]
                      exact hq⟩

theorem applyAllRows_quiet :
    ∀ {rs : List (Nat × List (Int × Nat))} {p : Puzzle},
      (rs.map Prod.fst).Nodup →
      (∀ e ∈ rs, ∃ row, p.rows.get? e.1 = some row
        ∧ e.2 = rowSolos row p.iter_cols) →
      (∀ e ∈ rs, rowQuiet p e.1) →
      ∃ p', applyAllRows p rs = some (p', 0, []) := by
  intro rs
  induction rs with
  | nil => intro p _ _ _; exact ⟨p, rfl⟩
  | cons e rest ih =>
      intro p hnd hscan hq
      rw [List.map_cons] at hnd
      obtain ⟨row, hget, hsol⟩ := hscan e (List.mem_cons_self e rest)
      obtain ⟨row', chs, hph⟩ := hq e (List.mem_cons_self e rest) row hget
      rw [← hsol] at hph
      obtain ⟨hchs, -⟩ := applyRowPhase_rep0 hph
      have hkey := (List.nodup_cons.mp hnd).1
      have hscan' : ∀ e' ∈ rest, ∃ r2,
          (p.setRow e.1 row').rows.get? e'.1 = some r2
          ∧ e'.2 = rowSolos r2 (p.setRow e.1 row').iter_cols := by
        intro e' he'
        obtain ⟨r2, hg2, hs2⟩ := hscan e' (List.mem_cons_of_mem e he')
        have hne : e'.1 ≠ e.1 := fun heq =>
          hkey (heq ▸ List.mem_map_of_mem Prod.fst he')
        exact ⟨r2, by rw [setRow_get_ne hne]; exact hg2,
          by rw [setRow_iter_cols]; exact hs2⟩
      have hq' : ∀ e' ∈ rest, rowQuiet (p.setRow e.1 row') e'.1 := by
        intro e' he'
        have hne : e'.1 ≠ e.1 := fun heq =>
          hkey (heq ▸ List.mem_map_of_mem Prod.fst he')
        intro row0 hrow0
        rw [setRow_get_ne hne] at hrow0
        obtain ⟨r'', c'', hq''⟩ := hq e' (List.mem_cons_of_mem e he') row0 hrow0
        exact ⟨r'', c'', by rw [setRow_iter_cols]; exact hq''⟩
      obtain ⟨p', hrec⟩ := ih (List.nodup_cons.mp hnd).2 hscan' hq'
      refine ⟨p', ?_⟩
      unfold applyAllRows
      rw [hget]
      dsimp only
      rw [hph]
      dsimp only
      rw [hrec]
      simp [hchs]

theorem run_inference_quiet {p : Puzzle} {seeds : List CellLoc}
    (hval : ∀ l ∈ seeds, l.row < p.rows.length)
    (hq : ∀ i ∈ seeds.map (fun l => l.row), rowQuiet p i) :
    ∃ q, p.run_inference seeds = some (q, 0, []) := by
  by_cases he : seeds.isEmpty = true
  · refine ⟨p, ?_⟩
    show runInferenceAux (totalBits p + 1 + 1) p seeds = some (p, 0, [])
    unfold runInferenceAux
    rw [if_pos he]
  · have hsome : ∀ a ∈ uniqList (seeds.map (fun l => l.row)),
        ((p.rows.get? a).map
          (fun row => (a, rowSolos row p.iter_cols))).isSome = true := by
      intro a ha
      rw [mem_uniqList] at ha
      obtain ⟨l, hl, rfl⟩ := List.mem_map.mp ha
      have hlt := hval l hl
      rw [List.get?_eq_getElem?, List.getElem?_eq_getElem hlt]
      rfl
    obtain ⟨sr, htv⟩ := traverseOpt_isSome hsome
    have hkeys := solosPerRow_keys htv
    have hndf : ((sr.filter (fun x => !x.2.isEmpty)).map Prod.fst).Nodup := by
      refine List.Nodup.sublist ((List.filter_sublist sr).map Prod.fst) ?_
      rw [hkeys]
      exact nodup_uniqList _
    have hscanf : ∀ e ∈ sr.filter (fun x => !x.2.isEmpty),
        ∃ row, p.rows.get? e.1 = some row
          ∧ e.2 = rowSolos row p.iter_cols :=
      fun e he' => solosPerRow_scan htv e (List.mem_of_mem_filter he')
    have hqf : ∀ e ∈ sr.filter (fun x => !x.2.isEmpty), rowQuiet p e.1 := by
      intro e he'
      have h6 : e.1 ∈ sr.map Prod.fst :=
        List.mem_map_of_mem Prod.fst (List.mem_of_mem_filter he')
      rw [hkeys] at h6
      exact hq e.1 ((mem_uniqList _ _).mp h6)
    obtain ⟨q, happ⟩ := applyAllRows_quiet hndf hscanf hqf
    have hstep : oneInferenceStep p seeds = some (q, 0, []) := by
      unfold oneInferenceStep
      rw [htv]
      dsimp only
      exact happ
    refine ⟨q, ?_⟩
    show runInferenceAux (totalBits p + 1 + 1) p seeds = some (q, 0, [])
    unfold runInferenceAux
    rw [if_neg he, hstep]
    dsimp only
    have hnext : runInferenceAux (totalBits p + 1) q [] = some (q, 0, []) := by
      show runInferenceAux (totalBits p).succ q [] = some (q, 0, [])
      rfl
    rw [hnext]

theorem applyAllRows_pres :
    ∀ {rs : List (Nat × List (Int × Nat))} {p p' : Puzzle} {N : Nat}
      {locs : List CellLoc},
      applyAllRows p rs = some (p', N, locs) →
      p'.max_column = p.max_column ∧ p'.rows.length = p.rows.length := by
  intro rs
  induction rs with
  | nil =>
      intro p p' N locs h
      simp only [applyAllRows, Option.some.injEq, Prod.mk.injEq] at h
      rw [← h.1]
      exact ⟨rfl, rfl⟩
  | cons e rest ih =>
      intro p p' N locs h
      obtain ⟨row, row', n, cols, m, locs', hget, hrp, hrec, -, -⟩ :=
        applyAllRows_cons_some h
      obtain ⟨h1, h2⟩ := ih hrec
      exact ⟨by rw [h1, setRow_max_column],
        by rw [h2, setRow_rows_length]⟩

theorem oneInferenceStep_pres {p p' : Puzzle}
    {considering changed : List CellLoc} {N : Nat}
    (h : oneInferenceStep p considering = some (p', N, changed)) :
    p'.max_column = p.max_column ∧ p'.rows.length = p.rows.length := by
  obtain ⟨sr, -, happ⟩ := oneInferenceStep_some h
  exact applyAllRows_pres happ

theorem filter_eq_singleton {p : α → Bool} :
    ∀ {l : List α} {a : α}, l.Nodup → a ∈ l → p a = true →
      (∀ b ∈ l, p b = true → b = a) → l.filter p = [a] := by
  intro l
  induction l with
  | nil => intro a _ ha _ _; exact absurd ha (List.not_mem_nil a)
  | cons x t ih =>
      intro a hnd hal hpa honly
      obtain ⟨hx, ht⟩ := List.nodup_cons.mp hnd
      rcases List.mem_cons.mp hal with rfl | hat
      · rw [List.filter_cons_of_pos hpa]
        have hnil : t.filter p = [] := by
          refine List.filter_eq_nil_iff.mpr ?_
          intro b hb hpb
          exact hx ((honly b (List.mem_cons_of_mem a hb) hpb) ▸ hb)
        rw [hnil]
      · have hpx : p x = false := by
          cases hpxc : p x
          · rfl
          · have hxa : x = a := honly x (List.mem_cons_self x t) hpxc
            exact absurd (hxa.symm ▸ hat : x ∈ t) hx
        rw [List.filter_cons_of_neg (by simp [hpx])]
        exact ih ht hat hpa
          (fun b hb hpb => honly b (List.mem_cons_of_mem x hb) hpb)

theorem colsWith_eq_singleton {row : PuzzleRow} {cols : List Int} {C : Int}
    {X : Nat}
    (hnd : cols.Nodup) (hC : C ∈ cols)
    (hen : (rowSelAt row C).is_enabled X = true)
    (hdis : ∀ c ∈ cols, c ≠ C → (rowSelAt row c).is_enabled X = false) :
    colsWith row cols X = [C] := by
  unfold colsWith
  refine filter_eq_singleton hnd hC ?_ ?_
  · simpa using (PuzzleCellSelection.mem_iter_ones _ _).mpr hen
  · intro b hb hpb
    by_contra hbc
    have hmem : X ∈ (rowSelAt row b).iter_ones := by simpa using hpb
    have h1 := (PuzzleCellSelection.mem_iter_ones _ _).mp hmem
    have h2 := hdis b hb hbc
    rw [h1] at h2
    exact absurd h2 (by simp)

theorem mem_rowSolos_of_single {row : PuzzleRow} {cols : List Int} {C : Int}
    {X : Nat}
    (hnd : cols.Nodup) (hC : C ∈ cols)
    (hen : (rowSelAt row C).is_enabled X = true)
    (hdis : ∀ c ∈ cols, c ≠ C → (rowSelAt row c).is_enabled X = false) :
    (C, X) ∈ rowSolos row cols := by
  refine mem_rowSolos.mpr (Or.inr ?_)
  refine mem_hiddenSingles.mpr
    ⟨?_, colsWith_eq_singleton hnd hC hen hdis⟩
  rw [mem_uniqList]
  exact List.mem_flatMap.mpr
    ⟨C, hC, (PuzzleCellSelection.mem_iter_ones _ _).mpr hen⟩

theorem applyRowPhase_at_col {solos : List (Int × Nat)} :
    ∀ {cols : List Int} {r r' : PuzzleRow} {N : Nat} {chs : List Int},
      cols.Nodup →
      applyRowPhase r solos cols = some (r', N, chs) →
      ∀ c ∈ cols, ∃ sel' n,
        applyOps (rowSelAt r c) (solos.map (fun io => opFor io c))
          = some (sel', n)
        ∧ rowSelAt r' c = sel' := by
  intro cols
  induction cols with
  | nil => intro r r' N chs _ _ c hc; exact absurd hc (List.not_mem_nil c)
  | cons col rest ih =>
      intro r r' N chs hnd h c hc
      obtain ⟨sel, sel', n, m, chs', hsel, hops, hrec, -, -⟩ :=
        applyRowPhase_cons_some h
      obtain ⟨hneg, hlen, hrsa, -⟩ := selection_at_some hsel
      rcases List.mem_cons.mp hc with rfl | hcrest
      · refine ⟨sel', n, ?_, ?_⟩
        · rw [hrsa]
          exact hops
        · rw [applyRowPhase_untouched hrec c
            (fun c2 hc2 he2 => (List.nodup_cons.mp hnd).1 (he2 ▸ hc2))]
          exact rowSelAt_setCell_self hneg hlen
      · have hne : c ≠ col := fun he => (List.nodup_cons.mp hnd).1 (he ▸ hcrest)
        obtain ⟨t, n2, hops2, hsel2⟩ := ih (List.nodup_cons.mp hnd).2 hrec c hcrest
        rw [rowSelAt_setCell_ne hneg hne] at hops2
        exact ⟨t, n2, hops2, hsel2⟩

open PuzzleCellSelection in
theorem phase_pins {row row' : PuzzleRow} {cols : List Int} {C : Int}
    {X N : Nat} {chs : List Int}
    (hnd : cols.Nodup) (hC : C ∈ cols)
    (henX : (rowSelAt row C).is_enabled X = true)
    (hdis : ∀ c' ∈ cols, c' ≠ C → (rowSelAt row c').is_enabled X = false)
    (hsoloC : ∀ y, (C, y) ∈ rowSolos row cols → y = X)
    (h : applyRowPhase row (rowSolos row cols) cols = some (row', N, chs)) :
    (rowSelAt row' C).is_enabled X = true
    ∧ (rowSelAt row' C).count_ones = 1
    ∧ ∀ c' ∈ cols, c' ≠ C → (rowSelAt row' c').is_enabled X = false := by
  have hCX : (C, X) ∈ rowSolos row cols :=
    mem_rowSolos_of_single hnd hC henX hdis
  have hopsCond : ∀ io ∈ (rowSolos row cols).map (fun io => opFor io C),
      (io.2 = UpdateCellIndexOperation.Solo → io.1 = X)
      ∧ (io.2 = UpdateCellIndexOperation.Clear → io.1 ≠ X)
      ∧ (io.2 = UpdateCellIndexOperation.Clear
          ∨ io.2 = UpdateCellIndexOperation.Solo) := by
    intro io hio
    obtain ⟨s, hs, hfst, hcase⟩ := opFor_mem_cases hio
    rcases hcase with ⟨hsc, hso⟩ | ⟨hsc, hcl⟩
    · refine ⟨fun _ => ?_, fun hc => ?_, Or.inr hso⟩
      · rw [hfst]
        refine hsoloC s.2 ?_
        rw [← hsc]
        exact hs
      · rw [hso] at hc
        exact absurd hc (by simp)
    · refine ⟨fun hsolo => ?_, fun _ => ?_, Or.inl hcl⟩
      · rw [hcl] at hsolo
        exact absurd hsolo (by simp)
      · rw [hfst]
        intro hx
        have hmem := rowSolos_mem_cols_ones hs
        have hxen : (rowSelAt row s.1).is_enabled s.2 = true :=
          (mem_iter_ones _ _).mp hmem.2
        rw [hx] at hxen
        rw [hdis s.1 hmem.1 hsc] at hxen
        exact absurd hxen (by simp)
  have hSoloMem : (X, UpdateCellIndexOperation.Solo)
      ∈ (rowSolos row cols).map (fun io => opFor io C) :=
    List.mem_map.mpr ⟨(C, X), hCX, by unfold opFor; rw [if_pos rfl]⟩
  obtain ⟨selC, nC, hopsC, hselC⟩ := applyRowPhase_at_col hnd h C hC
  have hpin := applyOps_pin henX hSoloMem hopsCond hopsC
  refine ⟨by rw [hselC]; exact hpin.1, by rw [hselC]; exact hpin.2, ?_⟩
  intro c' hc' hne
  obtain ⟨selc, nc, hopsc, hselc⟩ := applyRowPhase_at_col hnd h c' hc'
  rw [hselc]
  refine applyOps_never_enables (hdis c' hc' hne) ?_ hopsc
  intro io hio
  obtain ⟨s, hs, hfst, hcase⟩ := opFor_mem_cases hio
  rcases hcase with ⟨hsc, hso⟩ | ⟨hsc, hcl⟩
  · refine ⟨fun _ => ?_, Or.inr hso⟩
    rw [hfst]
    intro hx
    have hmem := rowSolos_mem_cols_ones hs
    have hxen : (rowSelAt row s.1).is_enabled s.2 = true :=
      (mem_iter_ones _ _).mp hmem.2
    rw [hx, hsc] at hxen
    rw [hdis c' hc' hne] at hxen
    exact absurd hxen (by simp)
  · refine ⟨fun hsolo => ?_, Or.inl hcl⟩
    rw [hcl] at hsolo
    exact absurd hsolo (by simp)

/-- The pinned-cell invariant of the amended C1: in row `r`, slot `X`
is enabled at column `C` with candidate count one, and disabled at
every other column. -/
def pinnedP (p : Puzzle) (r : Nat) (C : Int) (X : Nat) : Prop :=
  ∀ row, p.rows.get? r = some row →
    (rowSelAt row C).is_enabled X = true
    ∧ (rowSelAt row C).count_ones = 1
    ∧ ∀ c' ∈ p.iter_cols, c' ≠ C → (rowSelAt row c').is_enabled X = false

open PuzzleCellSelection in
theorem oneInferenceStep_pinned {p p1 : Puzzle} {cons ch : List CellLoc}
    {n r : Nat} {C : Int} {X : Nat}
    (hstep : oneInferenceStep p cons = some (p1, n, ch))
    (hC : C ∈ p.iter_cols)
    (hpin : pinnedP p r C X) :
    pinnedP p1 r C X := by
  obtain ⟨hunt, hcase⟩ := oneInferenceStep_final hstep
  have hmax : p1.max_column = p.max_column := (oneInferenceStep_pres hstep).1
  have hlenp : p1.rows.length = p.rows.length := (oneInferenceStep_pres hstep).2
  intro row1 hrow1
  by_cases hrc : r ∈ cons.map (fun l => l.row)
  · have hrlt : r < p.rows.length := by
      rw [← hlenp]
      exact lt_length_of_get?_eq_some hrow1
    have hrowp : p.rows.get? r = some (p.rows[r]) := by
      rw [List.get?_eq_getElem?, List.getElem?_eq_getElem hrlt]
    obtain ⟨henX, hcnt, hdis⟩ := hpin (p.rows[r]) hrowp
    rcases hcase r hrc (p.rows[r]) hrowp with
      ⟨-, hunch⟩ | ⟨row', n0, chs, hph, hg1, -⟩
    · rw [hunch, hrowp] at hrow1
      rw [← Option.some.inj hrow1]
      refine ⟨henX, hcnt, ?_⟩
      intro c' hc' hne
      rw [iter_cols_eq_of_max hmax] at hc'
      exact hdis c' hc' hne
    · have hsoloC : ∀ y, (C, y) ∈ rowSolos (p.rows[r]) p.iter_cols → y = X := by
        intro y hy
        have hmem := rowSolos_mem_cols_ones hy
        have hones : (rowSelAt (p.rows[r]) C).iter_ones = [X] :=
          iter_ones_eq_singleton henX hcnt
        have h2 := hmem.2
        rw [hones] at h2
        simpa using h2
      have hp := phase_pins (iter_cols_nodup p) hC henX hdis hsoloC hph
      rw [hg1] at hrow1
      rw [← Option.some.inj hrow1]
      refine ⟨hp.1, hp.2.1, ?_⟩
      intro c' hc' hne
      rw [iter_cols_eq_of_max hmax] at hc'
      exact hp.2.2 c' hc' hne
  · rw [hunt r hrc] at hrow1
    obtain ⟨henX, hcnt, hdis⟩ := hpin row1 hrow1
    refine ⟨henX, hcnt, ?_⟩
    intro c' hc' hne
    rw [iter_cols_eq_of_max hmax] at hc'
    exact hdis c' hc' hne

theorem oneInferenceStep_pin_estab {p p1 : Puzzle} {cons ch : List CellLoc}
    {n r : Nat} {C : Int} {X : Nat} {row : PuzzleRow}
    (hstep : oneInferenceStep p cons = some (p1, n, ch))
    (hC : C ∈ p.iter_cols)
    (hrc : r ∈ cons.map (fun l => l.row))
    (hrow : p.rows.get? r = some row)
    (henX : (rowSelAt row C).is_enabled X = true)
    (hdis : ∀ c' ∈ p.iter_cols, c' ≠ C →
      (rowSelAt row c').is_enabled X = false)
    (hsoloC : ∀ y, (C, y) ∈ rowSolos row p.iter_cols → y = X) :
    pinnedP p1 r C X := by
  obtain ⟨-, hcase⟩ := oneInferenceStep_final hstep
  have hmax : p1.max_column = p.max_column := (oneInferenceStep_pres hstep).1
  intro row1 hrow1
  rcases hcase r hrc row hrow with
    ⟨hsolnil, -⟩ | ⟨row', n0, chs, hph, hg1, -⟩
  · exact absurd (mem_rowSolos_of_single (iter_cols_nodup p) hC henX hdis)
      (by rw [hsolnil]; exact List.not_mem_nil _)
  · have hp := phase_pins (iter_cols_nodup p) hC henX hdis hsoloC hph
    rw [hg1] at hrow1
    rw [← Option.some.inj hrow1]
    refine ⟨hp.1, hp.2.1, ?_⟩
    intro c' hc' hne
    rw [iter_cols_eq_of_max hmax] at hc'
    exact hp.2.2 c' hc' hne

theorem runInferenceAux_pinned :
    ∀ {fuel : Nat} {p p' : Puzzle} {cons rest : List CellLoc} {u r : Nat}
      {C : Int} {X : Nat},
      runInferenceAux fuel p cons = some (p', u, rest) →
      C ∈ p.iter_cols → pinnedP p r C X → pinnedP p' r C X := by
  intro fuel
  induction fuel with
  | zero =>
      intro p p' cons rest u r C X h _ hpin
      simp only [runInferenceAux, Option.some.injEq, Prod.mk.injEq] at h
      rw [← h.1]
      exact hpin
  | succ fuel ih =>
      intro p p' cons rest u r C X h hC hpin
      unfold runInferenceAux at h
      by_cases he : cons.isEmpty = true
      · rw [if_pos he] at h
        simp only [Option.some.injEq, Prod.mk.injEq] at h
        rw [← h.1]
        exact hpin
      · rw [if_neg he] at h
        match hstep : oneInferenceStep p cons with
        | none => rw [hstep] at h; exact absurd h (by simp)
        | some (p1, n, changed) =>
            rw [hstep] at h
            dsimp only at h
            match hrec : runInferenceAux fuel p1 changed with
            | none => rw [hrec] at h; exact absurd h (by simp)
            | some (p2, m, rest2) =>
                rw [hrec] at h
                simp only [Option.some.injEq, Prod.mk.injEq] at h
                rw [← h.1]
                have hC1 : C ∈ p1.iter_cols := by
                  rw [iter_cols_eq_of_max (oneInferenceStep_pres hstep).1]
                  exact hC
                exact ih hrec hC1 (oneInferenceStep_pinned hstep hC hpin)

/-! ### Claim C1 -/

def claim1BadRow : PuzzleRow :=
  { cell_selection := [.Enabled [true, true], .Enabled [false, false]],
    cell_answers := [0, 1] }

def claim1BadPuzzle : Puzzle :=
  { rows := [claim1BadRow], max_column := 1 }

def claim1BadAfterRow : PuzzleRow :=
  { cell_selection := [.Solo 2 1, .Enabled [false, false]],
    cell_answers := [0, 1] }

def claim1BadAfter : Puzzle :=
  { rows := [claim1BadAfterRow], max_column := 1 }

/-- C1 counterexample: slot index 0 is enabled in exactly one column
(column 0) of the row — the claim's premise — yet `run_inference`
seeded with a cell of that row does not apply `Solo(0)` to that
column: slot 1 is a hidden single of the same column in the same scan,
its `Solo` overwrites the earlier one, and the cell ends pinned to
slot 1 with slot 0 disabled. -/
theorem claim1_counterexample :
    colsWith claim1BadRow claim1BadPuzzle.iter_cols 0 = [0]
    ∧ claim1BadPuzzle.rows.get? 0 = some claim1BadRow
    ∧ claim1BadPuzzle.run_inference [⟨0, 0⟩] = some (claim1BadAfter, 3, [])
    ∧ (rowSelAt claim1BadAfterRow 0).is_enabled 0 = false
    ∧ (rowSelAt claim1BadAfterRow 0).is_solo 0 = false :=
  ⟨by decide, by decide, by decide, by decide, by decide⟩

/-- **C1 (amended)**: for a well-formed puzzle, a row in which slot
index `X` is enabled in exactly one column `C`, *provided no other
slot index is a hidden single at the same column `C` in the initial
scan*, a single `run_inference` call seeded with a cell of that row
completes with an empty work set, leaves the cell at column `C` pinned
to `X` (enabled with candidate count one — the effect of `Solo(X)`),
keeps `X` disabled at every other column of the row (the effect of the
`Clear(X)` operations), and a second `run_inference` call on the
resulting state with the same seed performs zero further changes. -/
theorem claim1_amended (p : Puzzle) (seed : CellLoc) (row : PuzzleRow)
    (C : Int) (X : Nat)
    (hwf : p.wf)
    (hrow : p.rows.get? seed.row = some row)
    (hC : C ∈ p.iter_cols)
    (henX : (rowSelAt row C).is_enabled X = true)
    (hdis : ∀ c' ∈ p.iter_cols, c' ≠ C →
      (rowSelAt row c').is_enabled X = false)
    (hNOH : ∀ Y, Y ≠ X → colsWith row p.iter_cols Y ≠ [C]) :
    ∃ p' u row', p.run_inference [seed] = some (p', u, [])
      ∧ p'.rows.get? seed.row = some row'
      ∧ (rowSelAt row' C).is_enabled X = true
      ∧ (rowSelAt row' C).count_ones = 1
      ∧ (∀ c' ∈ p.iter_cols, c' ≠ C →
          (rowSelAt row' c').is_enabled X = false)
      ∧ ∃ q, p'.run_inference [seed] = some (q, 0, []) := by
  have hval : ∀ l ∈ [seed], l.row < p.rows.length := by
    intro l hl
    simp only [List.mem_singleton] at hl
    subst hl
    exact lt_length_of_get?_eq_some hrow
  obtain ⟨p', u, hrun⟩ := runInferenceAux_term hwf hval (Nat.le_refl _)
  obtain ⟨hwf', hlen', hmax', -, hquiet⟩ := runInferenceAux_fixed hwf hval hrun
  have hsoloC : ∀ y, (C, y) ∈ rowSolos row p.iter_cols → y = X := by
    intro y hy
    by_contra hyx
    rcases mem_rowSolos.mp hy with hn | hh
    · obtain ⟨-, hones⟩ := mem_nakedSingles.mp hn
      have hXmem : X ∈ (rowSelAt row C).iter_ones :=
        (PuzzleCellSelection.mem_iter_ones _ _).mpr henX
      rw [hones] at hXmem
      simp only [List.mem_singleton] at hXmem
      exact hyx hXmem.symm
    · obtain ⟨-, hw⟩ := mem_hiddenSingles.mp hh
      exact hNOH y hyx hw
  have hrseed : seed.row ∈ [seed].map (fun l => l.row) := by simp
  -- destructure the first step of the run to establish the pin
  have hrunc : runInferenceAux ((totalBits p + 1) + 1) p [seed]
      = some (p', u, []) := hrun
  unfold runInferenceAux at hrunc
  rw [if_neg (by simp : ¬(([seed] : List CellLoc).isEmpty = true))] at hrunc
  have hpin' : pinnedP p' seed.row C X := by
    match hstep : oneInferenceStep p [seed] with
    | none => rw [hstep] at hrunc; exact absurd hrunc (by simp)
    | some (p1, n, changed) =>
        rw [hstep] at hrunc
        dsimp only at hrunc
        match hrec : runInferenceAux (totalBits p + 1) p1 changed with
        | none => rw [hrec] at hrunc; exact absurd hrunc (by simp)
        | some (p2, m, rest2) =>
            rw [hrec] at hrunc
            simp only [Option.some.injEq, Prod.mk.injEq] at hrunc
            have hpin1 : pinnedP p1 seed.row C X :=
              oneInferenceStep_pin_estab hstep hC hrseed hrow henX hdis hsoloC
            have hC1 : C ∈ p1.iter_cols := by
              rw [iter_cols_eq_of_max (oneInferenceStep_pres hstep).1]
              exact hC
            have hpin2 : pinnedP p2 seed.row C X :=
              runInferenceAux_pinned hrec hC1 hpin1
            rw [← hrunc.1]
            exact hpin2
  have hrlt' : seed.row < p'.rows.length := by
    rw [hlen']
    exact lt_length_of_get?_eq_some hrow
  have hrow' : p'.rows.get? seed.row = some (p'.rows[seed.row]) := by
    rw [List.get?_eq_getElem?, List.getElem?_eq_getElem hrlt']
  obtain ⟨h1, h2, h3⟩ := hpin' (p'.rows[seed.row]) hrow'
  have hval' : ∀ l ∈ [seed], l.row < p'.rows.length := by
    intro l hl
    simp only [List.mem_singleton] at hl
    subst hl
    exact hrlt'
  have hq2 : ∀ i ∈ [seed].map (fun l => l.row), rowQuiet p' i := by
    intro i hi
    simp only [List.map_cons, List.map_nil, List.mem_singleton] at hi
    subst hi
    exact hquiet rfl seed.row hrseed
  obtain ⟨q, hrun2⟩ := run_inference_quiet hval' hq2
  refine ⟨p', u, p'.rows[seed.row], hrun, hrow', h1, h2, ?_, q, hrun2⟩
  intro c' hc' hcne
  refine h3 c' ?_ hcne
  rw [iter_cols_eq_of_max hmax']
  exact hc'

def claim1GoodRow : PuzzleRow :=
  { cell_selection := [.Enabled [true, true], .Enabled [false, true]],
    cell_answers := [0, 1] }

def claim1GoodPuzzle : Puzzle :=
  { rows := [claim1GoodRow], max_column := 1 }

/-- Witness for the amended C1 on a concrete puzzle: slot 0 is enabled
only in column 0 and no other index is a hidden single there. -/
theorem claim1_witness :
    ∃ p' u row', claim1GoodPuzzle.run_inference [⟨0, 0⟩] = some (p', u, [])
      ∧ p'.rows.get? 0 = some row'
      ∧ (rowSelAt row' 0).is_enabled 0 = true
      ∧ (rowSelAt row' 0).count_ones = 1
      ∧ (∀ c' ∈ claim1GoodPuzzle.iter_cols, c' ≠ 0 →
          (rowSelAt row' c').is_enabled 0 = false)
      ∧ ∃ q, p'.run_inference [⟨0, 0⟩] = some (q, 0, []) :=
  claim1_amended claim1GoodPuzzle ⟨0, 0⟩ claim1GoodRow 0 0
    (by
      refine ⟨by decide, ?_⟩
      intro r hr
      simp only [claim1GoodPuzzle, List.mem_singleton] at hr
      subst hr
      refine ⟨by decide, ?_⟩
      intro s hs
      simp only [claim1GoodRow, List.mem_cons, List.not_mem_nil, or_false]
        at hs
      rcases hs with rfl | rfl <;> simp [selWF, claim1GoodPuzzle])
    (by decide)
    (by decide)
    (by decide)
    (by decide)
    (by
      intro Y hY hcw
      have h0 : (0 : Int) ∈ colsWith claim1GoodRow claim1GoodPuzzle.iter_cols Y := by
        rw [hcw]
        exact List.mem_singleton_self 0
      have h1 := (mem_colsWith.mp h0).2
      rw [show (rowSelAt claim1GoodRow 0).iter_ones = [0, 1] from rfl] at h1
      simp only [List.mem_cons, List.not_mem_nil, or_false] at h1
      rcases h1 with rfl | rfl
      · exact hY rfl
      · exact absurd hcw (by decide))
